import Mathlib

/-!
# wordcount: block partitioner, tokenizer, per-worker aggregation, merge, index codec

A shallow embedding of `src/src/wordcount.cpp` (class `wordcount`).

* A `std::string` is the list of its bytes (`List Nat`, every byte below 256).
* A `std::unordered_map` is the list of its (key, value) entries, keys pairwise
  distinct; `operator[]` on a missing key appends a default-constructed entry.
  The iteration order of the C++ container is unspecified; the results below are
  stated on look-ups, which do not depend on it.
* A `std::unordered_set<size_t>` is the duplicate-free list of its ids in the order in
  which the container iterates over them. That order is unspecified: the functions that
  insert into a set take it as the parameter `order`, and the results hold for every
  `order` that rearranges the elements (`IsIterationOrder`).
* `size_t` is 64 bits wide; it is written to and read from a file as 8 bytes.
* An `int` counter is an integer in `-2^31 .. 2^31 - 1`; the result of an addition is
  stored with `int_wrap`, which keeps the low 32 bits (two's complement), as the compiled
  code does when a counter goes past `INT_MAX`. Adding an `int` to a `size_t` converts it
  to `size_t` first and is taken modulo `2^64`.
* A `while` loop whose termination is not structural takes a fuel argument and
  returns `none` when the fuel runs out before the loop condition turns false.
* Files are their bytes: `load_txt` starts from the content read, `save_inverted_index`
  gives the bytes written and `load_inverted_index` reads a list of bytes; the failure
  to open a file is not modelled. A read of `n` bytes fails when fewer than `n` are left.
* A function that is left by an exception returns `none`. In `load_inverted_index` the
  constructions of `word` and of `blocks` throw when the object would be larger than
  `PTRDIFF_MAX` bytes or when the free store (`Heap`) does not grant the storage.

The file has three parts: the embedding of the source, the lemmas (each loop is given
a closed form and the look-ups of the final containers are computed from the blocks),
and the claims `C1`..`C20` with a concrete instance each.
-/

namespace Wordcount

/-! ## Bytes and character classes (`<cctype>`, "C" locale) -/

/-- The bytes of a `std::string`. -/
abbrev Word := List Nat

/-- `std::isspace`: space, `\t`, `\n`, `\v`, `\f`, `\r`. -/
def isspace (c : Nat) : Bool := c == 32 || (decide (9 ≤ c) && decide (c ≤ 13))

/-- `std::isalpha`: `A`..`Z` and `a`..`z`. -/
def isalpha (c : Nat) : Bool :=
  (decide (65 ≤ c) && decide (c ≤ 90)) || (decide (97 ≤ c) && decide (c ≤ 122))

/-- `std::tolower`: `A`..`Z` go to `a`..`z`, every other byte is unchanged. -/
def tolower (c : Nat) : Nat := if 65 ≤ c ∧ c ≤ 90 then c + 32 else c

/-! ## Containers -/

/-- The value an `int` holds after the arithmetic result `x` is stored in it: the low 32
bits of `x` read as a two's complement number. A counter incremented at
`INT_MAX = 2^31 - 1` becomes `-2^31`. -/
def int_wrap (x : Int) : Int :=
  let low := (x % 4294967296).toNat
  if low < 2147483648 then (low : Int) else (low : Int) - 4294967296

/-- `total += n` for a `size_t total` and an `int n`: `n` is converted to `size_t` and the
sum is taken modulo `2^64`. -/
def size_t_add_int (total : Nat) (n : Int) : Nat :=
  (((total : Int) + n) % 18446744073709551616).toNat

/-- `LocalWordMap = std::unordered_map<std::string, int>`. -/
abbrev LocalWordMap := List (Word × Int)

/-- `InvertedIndex = std::unordered_map<std::string, std::vector<size_t>>`. -/
abbrev InvertedIndex := List (Word × List Nat)

/-- `LocalInvertedIndex = std::unordered_map<std::string, std::unordered_set<size_t>>`. -/
abbrev LocalInvertedIndex := List (Word × List Nat)

/-- `m.find(w)`: the value stored under `w`, if any. -/
def find {V : Type} (w : Word) : List (Word × V) → Option V
  | [] => none
  | (k, v) :: rest => if k = w then some v else find w rest

/-- `f(m[w])`: `operator[]` inserts a default-constructed value `dflt` when `w` is
missing, then the value is updated in place by `f`. -/
def modify {V : Type} (w : Word) (dflt : V) (f : V → V) : List (Word × V) → List (Word × V)
  | [] => [(w, f dflt)]
  | (k, v) :: rest => if k = w then (k, f v) :: rest else (k, v) :: modify w dflt f rest

/-- `content[i]` on a `std::string`, for `i < content.size()`. -/
def byte_at (content : List Nat) (i : Nat) : Nat := content.getD i 0

/-- `blocks[i]` on a `std::vector<std::string>`, for `i < blocks.size()`. -/
def block_at (blocks : List Word) (i : Nat) : Word := blocks.getD i []

/-- `s.insert(id)` on a `std::unordered_set<size_t>`. The set is the list of its elements
in the order in which the container iterates over them. That order is unspecified and can
change with every insertion: `order` gives the sequence after the insertion, which the
results below take to be any rearrangement of the elements (`IsIterationOrder`). -/
def set_insert (order : List Nat → List Nat) (id : Nat) (s : List Nat) : List Nat :=
  if id ∈ s then s else order (s ++ [id])

/-- What is known of the iteration order of a `std::unordered_set<size_t>`: it goes over
every element once. -/
def IsIterationOrder (order : List Nat → List Nat) : Prop := ∀ s, (order s).Perm s

/-- `std::sort` on a `std::vector<size_t>`: the ascending rearrangement. -/
def sort (v : List Nat) : List Nat := v.insertionSort (fun a b => a ≤ b)

/-! ## The object -/

/-- The data members of `class wordcount` (`include/wordcount.hpp`). -/
structure wordcount where
  final_word_counts : List (Word × Int)
  inverted_index : InvertedIndex
  block_size : Nat
  thread_count : Nat
  thread_local_maps : List LocalWordMap
  thread_local_indexes : List LocalInvertedIndex

/-- The constructor `wordcount::wordcount(num_threads, block_sz)`; `block_sz` is the
block size in bytes. -/
def wordcount.new (num_threads block_sz : Nat) : wordcount :=
  let thread_count :=
    if num_threads ≠ 1 ∧ num_threads ≠ 2 ∧ num_threads ≠ 8 then 1 else num_threads
  { final_word_counts := []
    inverted_index := []
    block_size := block_sz
    thread_count := thread_count
    thread_local_maps := List.replicate thread_count []
    thread_local_indexes := List.replicate thread_count [] }

/-- `wordcount::clear_word_counts`. -/
def clear_word_counts (wc : wordcount) : wordcount :=
  { wc with
    final_word_counts := []
    inverted_index := []
    thread_local_maps := wc.thread_local_maps.map (fun _ => [])
    thread_local_indexes := wc.thread_local_indexes.map (fun _ => []) }

/-- `validate_threads` of `main.cpp`. -/
def validate_threads (threads : Int) : Bool :=
  if threads ≠ 1 ∧ threads ≠ 2 ∧ threads ≠ 8 then false else true

/-! ## Block partitioner -/

/-- Lines 96-98: `while (end > start && !std::isspace(content[end])) --end;`,
the value of `end` when the loop stops. -/
def walk_back (content : List Nat) (start : Nat) : Nat → Nat
  | 0 => 0
  | e + 1 =>
    if e + 1 > start ∧ !isspace (byte_at content (e + 1)) then walk_back content start e
    else e + 1

/-- Lines 107-109: `while (start < content.size() && std::isspace(content[start])) ++start;`,
the value of `start` when the loop stops. -/
def skip_space (content : List Nat) (start : Nat) : Nat :=
  start + ((content.drop start).takeWhile isspace).length

/-- Lines 93-101: the right edge `end` of the block that starts at `start`. -/
def block_end (content : List Nat) (block_size start : Nat) : Nat :=
  let e := min (start + block_size) content.length
  if e < content.length then
    let e1 := walk_back content start e
    if e1 = start then min (start + block_size) content.length else e1
  else e

/-- Lines 92-110: the `while (start < content.size())` loop; the blocks pushed from
offset `start` on, `none` when the fuel is used up before the loop ends. -/
def split_loop (content : List Nat) (block_size : Nat) : Nat → Nat → Option (List Word)
  | 0, start => if start < content.length then none else some []
  | fuel + 1, start =>
    if start < content.length then
      let e := block_end content block_size start
      match split_loop content block_size fuel (skip_space content e) with
      | none => none
      | some rest => some ((content.drop start).take (e - start) :: rest)
    else some []

/-- `wordcount::split_into_blocks` with `block_size` made a parameter. -/
def split_into_blocks (block_size : Nat) (content : List Nat) : Option (List Word) :=
  if content.length ≤ block_size then some [content]
  else split_loop content block_size content.length 0

/-- The loop of `split_into_blocks` (lines 92-110) recording, for every iteration, the
start offset and the right edge `end` of the block it pushes. -/
def split_bounds_loop (content : List Nat) (block_size : Nat) :
    Nat → Nat → Option (List (Nat × Nat))
  | 0, start => if start < content.length then none else some []
  | fuel + 1, start =>
    if start < content.length then
      let e := block_end content block_size start
      match split_bounds_loop content block_size fuel (skip_space content e) with
      | none => none
      | some rest => some ((start, e) :: rest)
    else some []

/-- `content.substr(start, end - start)` for a pair `(start, end)`. -/
def slice (content : List Nat) (p : Nat × Nat) : List Nat :=
  (content.drop p.1).take (p.2 - p.1)

/-- The start offset and right edge of every block `split_into_blocks` returns, in
order: one pair for the whole content when it fits in a block, otherwise the pairs of
the loop. -/
def split_bounds (block_size : Nat) (content : List Nat) : Option (List (Nat × Nat)) :=
  if content.length ≤ block_size then some [(0, content.length)]
  else split_bounds_loop content block_size content.length 0

/-! ## Tokenizer -/

/-- Lines 122-138: the scanning loop of `count_words_in_text_local`; `ptr` is the
text from the read pointer to the end. -/
def count_words_loop : Nat → List Nat → LocalWordMap → Option LocalWordMap
  | 0, ptr, local_map => if ptr = [] then some local_map else none
  | fuel + 1, ptr, local_map =>
    if ptr = [] then some local_map
    else
      let p1 := ptr.dropWhile (fun c => !isalpha c)
      if p1 = [] then some local_map
      else
        let word := (p1.takeWhile isalpha).map tolower
        let p2 := p1.dropWhile isalpha
        count_words_loop fuel p2
          (if word ≠ [] then modify word 0 (fun n => int_wrap (n + 1)) local_map
            else local_map)

/-- `wordcount::count_words_in_text_local`. -/
def count_words_in_text_local (text : List Nat) (local_map : LocalWordMap) :
    Option LocalWordMap :=
  count_words_loop text.length text local_map

/-- Lines 148-164: the scanning loop of `build_inverted_index_local`. -/
def build_index_loop (order : List Nat → List Nat) (block_id : Nat) :
    Nat → List Nat → LocalInvertedIndex → Option LocalInvertedIndex
  | 0, ptr, local_index => if ptr = [] then some local_index else none
  | fuel + 1, ptr, local_index =>
    if ptr = [] then some local_index
    else
      let p1 := ptr.dropWhile (fun c => !isalpha c)
      if p1 = [] then some local_index
      else
        let word := (p1.takeWhile isalpha).map tolower
        let p2 := p1.dropWhile isalpha
        build_index_loop order block_id fuel p2
          (if word ≠ [] then modify word [] (set_insert order block_id) local_index
            else local_index)

/-- `wordcount::build_inverted_index_local`. -/
def build_inverted_index_local (order : List Nat → List Nat) (text : List Nat)
    (local_index : LocalInvertedIndex) (block_id : Nat) : Option LocalInvertedIndex :=
  build_index_loop order block_id text.length text local_index

/-- The words the scanning loop shared by `count_words_in_text_local` and
`build_inverted_index_local` extracts, in order, with `fuel` iterations allowed. -/
def tokens_loop : Nat → List Nat → List Word
  | 0, _ => []
  | fuel + 1, ptr =>
    let p1 := ptr.dropWhile (fun c => !isalpha c)
    if p1 = [] then []
    else (p1.takeWhile isalpha).map tolower :: tokens_loop fuel (p1.dropWhile isalpha)

/-- The token sequence of a text: what `count_words_in_text_local` counts and
`build_inverted_index_local` indexes (`count_words_in_text_local_eq`,
`build_inverted_index_local_eq`). -/
def tokens (text : List Nat) : List Word := tokens_loop text.length text

/-! ## Parallel aggregation and merge -/

/-- Lines 66-69: the body of one worker, `for (i = start_block; i < end_block; ++i)`,
over the block ids `ids`. -/
def worker_loop (order : List Nat → List Nat) (blocks : List Word) :
    List Nat → LocalWordMap → LocalInvertedIndex → Option (LocalWordMap × LocalInvertedIndex)
  | [], local_map, local_index => some (local_map, local_index)
  | i :: ids, local_map, local_index =>
    match count_words_in_text_local (block_at blocks i) local_map with
    | none => none
    | some m =>
      match build_inverted_index_local order (block_at blocks i) local_index i with
      | none => none
      | some ix => worker_loop order blocks ids m ix

/-- Lines 56-71: the task of worker `t`; it runs only when its range is not empty,
clears its two private containers and fills them. -/
def run_worker (order : List Nat → List Nat) (blocks : List Word)
    (blocks_per_thread t : Nat) (wc : wordcount) : Option wordcount :=
  let start_block := t * blocks_per_thread
  let end_block := min (start_block + blocks_per_thread) blocks.length
  if start_block < end_block then
    match worker_loop order blocks (List.range' start_block (end_block - start_block))
        [] [] with
    | none => none
    | some (m, ix) =>
      some { wc with
        thread_local_maps := wc.thread_local_maps.set t m
        thread_local_indexes := wc.thread_local_indexes.set t ix }
  else some wc

/-- Lines 55-76: all workers `t` of the list, joined before the merge. -/
def run_workers (order : List Nat → List Nat) (blocks : List Word)
    (blocks_per_thread : Nat) : List Nat → wordcount → Option wordcount
  | [], wc => some wc
  | t :: ts, wc =>
    match run_worker order blocks blocks_per_thread t wc with
    | none => none
    | some wc1 => run_workers order blocks blocks_per_thread ts wc1

/-- `wordcount::merge_local_maps`. -/
def merge_local_maps (wc : wordcount) : wordcount :=
  { wc with
    final_word_counts :=
      wc.thread_local_maps.foldl
        (fun acc local_map =>
          local_map.foldl
            (fun acc1 pair => modify pair.1 0 (fun n => int_wrap (n + pair.2)) acc1) acc)
        [] }

/-- `wordcount::merge_local_indexes`. -/
def merge_local_indexes (wc : wordcount) : wordcount :=
  let merged : InvertedIndex :=
    wc.thread_local_indexes.foldl
      (fun acc local_index =>
        local_index.foldl
          (fun acc1 word_blocks =>
            modify word_blocks.1 [] (fun global_blocks => global_blocks ++ word_blocks.2) acc1)
          acc)
      []
  { wc with inverted_index := merged.map (fun word_blocks => (word_blocks.1, sort word_blocks.2)) }

/-- `wordcount::load_txt`, from the bytes `content` of the file on; `order` is the
iteration order of the workers' `std::unordered_set`s. -/
def load_txt (order : List Nat → List Nat) (wc : wordcount) (content : List Nat) :
    Option wordcount :=
  let wc0 := clear_word_counts wc
  match split_into_blocks wc0.block_size content with
  | none => none
  | some blocks =>
    let blocks_per_thread := (blocks.length + wc0.thread_count - 1) / wc0.thread_count
    match run_workers order blocks blocks_per_thread (List.range wc0.thread_count) wc0 with
    | none => none
    | some wc1 => some (merge_local_indexes (merge_local_maps wc1))

/-- `wordcount::get_total_word_count`. -/
def get_total_word_count (wc : wordcount) : Nat :=
  wc.final_word_counts.foldl (fun total pair => size_t_add_int total pair.2) 0

/-- `wordcount::get_unique_word_count`. -/
def get_unique_word_count (wc : wordcount) : Nat := wc.final_word_counts.length

/-- `wordcount::has_inverted_index`. -/
def has_inverted_index (wc : wordcount) : Bool := !wc.inverted_index.isEmpty

/-- `wordcount::search_word`. -/
def search_word (wc : wordcount) (word : Word) : List Nat :=
  match find (word.map tolower) wc.inverted_index with
  | some blocks => blocks
  | none => []

/-! ## Index codec -/

/-- The object representation of a `size_t`: 8 bytes, least significant first. -/
def size_t_bytes (n : Nat) : List Nat := (List.range 8).map (fun i => n / 256 ^ i % 256)

/-- The `size_t` whose object representation is `bytes`. -/
def size_t_of_bytes (bytes : List Nat) : Nat := bytes.foldr (fun b acc => b + 256 * acc) 0

/-- Lines 308-317: the bytes written for one entry of the index. -/
def save_entry (word_entry : Word × List Nat) : List Nat :=
  size_t_bytes word_entry.1.length ++ word_entry.1 ++
    size_t_bytes word_entry.2.length ++ (word_entry.2.map size_t_bytes).flatten

/-- `wordcount::save_inverted_index`: the bytes written to the (opened) file; the
entries are written in the iteration order of the container. -/
def save_inverted_index (wc : wordcount) : List Nat :=
  size_t_bytes wc.inverted_index.length ++ (wc.inverted_index.map save_entry).flatten

/-- `file.read(buf, n)`: the `n` bytes read and the rest of the stream, `none` when
fewer than `n` bytes are left (the stream goes into the fail state). -/
def file_read (n : Nat) (file : List Nat) : Option (List Nat × List Nat) :=
  if n ≤ file.length then some (file.take n, file.drop n) else none

/-- `file.read(reinterpret_cast<char*>(&x), sizeof(x))` for a `size_t x`. -/
def read_size_t (file : List Nat) : Option (Nat × List Nat) :=
  match file_read 8 file with
  | none => none
  | some (bytes, rest) => some (size_t_of_bytes bytes, rest)

/-- The `num_blocks` values of `blocks` after `num_blocks * sizeof(size_t)` bytes were
read into `blocks.data()`. -/
def blocks_of_bytes (num_blocks : Nat) (raw : List Nat) : List Nat :=
  (List.range num_blocks).map (fun j => size_t_of_bytes ((raw.drop (8 * j)).take 8))

/-- The free store as `load_inverted_index` meets it: whether the storage for
`std::string word(n, '\0')` and for `std::vector<size_t> blocks(n)` is granted for a
length `n`. When it is not, the constructor throws `std::bad_alloc` (or
`std::length_error`, for a length beyond `max_size()`) and the function does not return. -/
structure Heap where
  string_fits : Nat → Bool
  vector_fits : Nat → Bool

/-- Line 347: whether `std::string word(word_length, '\0')` throws. No object is larger
than `PTRDIFF_MAX = 2^63 - 1` bytes, and the string holds `word_length + 1` of them;
below that the free store decides. -/
def string_throws (heap : Heap) (word_length : Nat) : Bool :=
  decide (2 ^ 63 ≤ word_length + 1) || !heap.string_fits word_length

/-- Line 359: whether `std::vector<size_t> blocks(num_blocks)` throws. No object is larger
than `PTRDIFF_MAX = 2^63 - 1` bytes, and the vector holds `num_blocks * sizeof(size_t)` of
them; below that the free store decides. -/
def vector_throws (heap : Heap) (num_blocks : Nat) : Bool :=
  decide (2 ^ 63 ≤ num_blocks * 8) || !heap.vector_fits num_blocks

/-- Lines 340-366: the `for (i = 0; i < num_words; ++i)` loop with `n` iterations to
go. The result is the returned flag with the content of `inverted_index` at that
point; `none` when the construction of `word` (line 347) or of `blocks` (line 359)
throws, in which case the function does not return. -/
def load_entries (heap : Heap) :
    Nat → List Nat → InvertedIndex → Option (Bool × InvertedIndex)
  | 0, _, inverted_index => some (true, inverted_index)
  | n + 1, file, inverted_index =>
    match read_size_t file with
    | none => some (false, inverted_index)
    | some (word_length, file1) =>
      if string_throws heap word_length = true then none
      else
        match file_read word_length file1 with
        | none => some (false, inverted_index)
        | some (word, file2) =>
          match read_size_t file2 with
          | none => some (false, inverted_index)
          | some (num_blocks, file3) =>
            if vector_throws heap num_blocks = true then none
            else
              match file_read (num_blocks * 8) file3 with
              | none => some (false, inverted_index)
              | some (raw, file4) =>
                load_entries heap n file4
                  (modify word [] (fun _ => blocks_of_bytes num_blocks raw) inverted_index)

/-- `wordcount::load_inverted_index` on the bytes `file` of the (opened) index file:
the returned flag and the object afterwards; `none` when an exception leaves the
function. -/
def load_inverted_index (heap : Heap) (wc : wordcount) (file : List Nat) :
    Option (Bool × wordcount) :=
  match read_size_t file with
  | none => some (false, { wc with inverted_index := [] })
  | some (num_words, file1) =>
    match load_entries heap num_words file1 [] with
    | none => none
    | some (ok, inverted_index) => some (ok, { wc with inverted_index := inverted_index })

/-! ## Values `save_inverted_index` can be given -/

/-- The conditions on one entry of an index that is in memory: the word is a
`std::string` and the posting list a `std::vector<size_t>` that can be constructed with
their lengths, and the ids are `size_t` values. -/
def EntryFits (heap : Heap) (e : Word × List Nat) : Prop :=
  string_throws heap e.1.length = false ∧ vector_throws heap e.2.length = false ∧
    ∀ id ∈ e.2, id < 2 ^ 64

/-- The value invariants of an `InvertedIndex` object that `save_inverted_index` can be
given: distinct keys, a number of entries that is a `size_t` value, entries that fit. -/
def WellFormedIndex (heap : Heap) (index : InvertedIndex) : Prop :=
  (index.map Prod.fst).Nodup ∧ index.length < 2 ^ 64 ∧ ∀ e ∈ index, EntryFits heap e

/-! ## Notions used to state the partitioning properties -/

/-- Every maximal run of consecutive whitespace bytes replaced by one space; `in_run`
tells whether the previous byte was whitespace. -/
def collapse_from (in_run : Bool) : List Nat → List Nat
  | [] => []
  | c :: rest =>
    if isspace c then (if in_run then collapse_from true rest else 32 :: collapse_from true rest)
    else c :: collapse_from false rest

/-- Collapse every run of consecutive whitespace of a string. -/
def collapse (s : List Nat) : List Nat := collapse_from false s

/-- The blocks joined in order with the single byte `sep` between consecutive blocks. -/
def join_blocks (sep : Nat) : List Word → List Nat
  | [] => []
  | [b] => b
  | b :: rest => b ++ sep :: join_blocks sep rest

/-- Length of the longest run of consecutive non-whitespace bytes; `cur` is the length
of the run that ends just before the string. -/
def longest_run_from (cur : Nat) : List Nat → Nat
  | [] => cur
  | c :: rest =>
    if isspace c then max cur (longest_run_from 0 rest) else longest_run_from (cur + 1) rest

/-- Length of the longest whitespace-free run of a string. -/
def longest_run (s : List Nat) : Nat := longest_run_from 0 s

/-- Whether the first byte of a string is whitespace. -/
def starts_with_space (s : List Nat) : Bool :=
  match s with
  | [] => false
  | x :: _ => isspace x

/-- Whether the last byte of a string is whitespace. -/
def ends_with_space (s : List Nat) : Bool :=
  match s.getLast? with
  | none => false
  | some x => isspace x

/-- The condition under which the block boundaries of `split_into_blocks` all fall on
whitespace: the corpus is a single block, or it does not begin with a whitespace byte and
has no whitespace-free run longer than the target size. -/
def CutsOnWhitespace (block_size : Nat) (corpus : List Nat) : Prop :=
  corpus.length ≤ block_size ∨
    (longest_run corpus ≤ block_size ∧ starts_with_space corpus = false)

/-- Whether the block with start offset and right edge `p` can be joined to what follows
with a single whitespace byte without changing the collapsed text: it reaches the end of
the corpus, or its last byte is whitespace, or it is followed by a whitespace byte and,
once the whitespace is skipped, by another block. -/
def joins_cleanly (corpus : List Nat) (p : Nat × Nat) : Bool :=
  decide (corpus.length ≤ p.2) || isspace (byte_at corpus (p.2 - 1)) ||
    (isspace (byte_at corpus p.2) && decide (skip_space corpus p.2 < corpus.length))

/-- Whether the collapse is inside a run of whitespace after the string `b` was read
from the state `st`. -/
def collapse_state (st : Bool) (b : List Nat) : Bool :=
  match b.getLast? with
  | none => st
  | some x => isspace x

/-- Whether the block with start offset and right edge `p` ends inside a word: it ends
before the end of the corpus, its last byte is alphabetic and so is the byte after it. -/
def splits_word (corpus : List Nat) (p : Nat × Nat) : Bool :=
  decide (p.2 < corpus.length) && isalpha (byte_at corpus (p.2 - 1)) &&
    isalpha (byte_at corpus p.2)

/-! ## Closed forms of the loops, used to state and prove the results -/

/-- Entries stored one after the other with `inverted_index[word] = std::move(blocks)`
(line 365). -/
def store_entries (index : InvertedIndex) (entries : List (Word × List Nat)) : InvertedIndex :=
  entries.foldl (fun acc e => modify e.1 [] (fun _ => e.2) acc) index

/-- The effect of `count_words_in_text_local` on the map, token by token. -/
def count_tokens (local_map : LocalWordMap) (ws : List Word) : LocalWordMap :=
  ws.foldl (fun m w => modify w 0 (fun n => int_wrap (n + 1)) m) local_map

/-- The effect of `build_inverted_index_local` on the local index, token by token. -/
def index_tokens (order : List Nat → List Nat) (block_id : Nat)
    (local_index : LocalInvertedIndex) (ws : List Word) : LocalInvertedIndex :=
  ws.foldl (fun ix w => modify w [] (set_insert order block_id) ix) local_index

/-- The tokens of the blocks with ids `ids`, block after block. -/
def worker_tokens (blocks : List Word) (ids : List Nat) : List Word :=
  (ids.map (fun i => tokens (block_at blocks i))).flatten

/-- The effect of one worker on its local index over the block ids `ids`. -/
def index_blocks (order : List Nat → List Nat) (blocks : List Word) (ids : List Nat)
    (local_index : LocalInvertedIndex) : LocalInvertedIndex :=
  ids.foldl (fun ix i => index_tokens order i ix (tokens (block_at blocks i))) local_index

/-- The ids among `ids` of the blocks that have `w` among their tokens. -/
def hits (blocks : List Word) (w : Word) (ids : List Nat) : List Nat :=
  ids.filter (fun i => decide (w ∈ tokens (block_at blocks i)))

/-- Number of times `w` occurs among the tokens of the blocks. -/
def occurrences (blocks : List Word) (w : Word) : Nat :=
  ((blocks.map tokens).flatten).count w

/-- The inner loop of a merge: every entry of one worker's container combined into the
global container with `global[key] = op(global[key], value)`. -/
def merge_entries {V : Type} (op : V → V → V) (d : V) (l acc : List (Word × V)) :
    List (Word × V) :=
  l.foldl (fun acc1 e => modify e.1 d (fun x => op x e.2) acc1) acc

/-- The outer loop of a merge over the workers' containers. -/
def merge_all {V : Type} (op : V → V → V) (d : V) (locals : List (List (Word × V)))
    (acc : List (Word × V)) : List (Word × V) :=
  locals.foldl (fun acc1 l => merge_entries op d l acc1) acc

/-- The block ids of worker `t`: from `t * blocks_per_thread` up to and excluding
`min (t * blocks_per_thread + blocks_per_thread) n`, for `n` blocks. -/
def worker_ids (n blocks_per_thread t : Nat) : List Nat :=
  List.range' (t * blocks_per_thread)
    (min (t * blocks_per_thread + blocks_per_thread) n - t * blocks_per_thread)

/-- Whether worker `t` is started: `start_block < end_block`. -/
def worker_runs (blocks : List Word) (bpt t : Nat) : Bool :=
  decide (t * bpt < min (t * bpt + bpt) blocks.length)

/-- The local frequency map worker `t` ends with. -/
def worker_map (blocks : List Word) (bpt t : Nat) : LocalWordMap :=
  count_tokens [] (worker_tokens blocks (worker_ids blocks.length bpt t))

/-- The local index worker `t` ends with. -/
def worker_index (order : List Nat → List Nat) (blocks : List Word) (bpt t : Nat) :
    LocalInvertedIndex :=
  index_blocks order blocks (worker_ids blocks.length bpt t) []

/-- The slots `t` of the list `ts` overwritten one after the other with `r t`, where
`c t` holds. -/
def set_results {α : Type} (r : Nat → α) (c : Nat → Bool) : List Nat → List α → List α
  | [], l => l
  | t :: ts, l => set_results r c ts (if c t = true then l.set t (r t) else l)

/-- The look-up view of the two results of `load_txt`: the count and the posting list
of every word. -/
def results (wc : wordcount) (w : Word) : Option Int × Option (List Nat) :=
  (find w wc.final_word_counts, find w wc.inverted_index)

/-- The results that the blocks determine: the number of occurrences of every word, as
the `int` counter holds it, and the ascending list of the blocks it occurs in. -/
def block_results (blocks : List Word) (w : Word) : Option Int × Option (List Nat) :=
  (if occurrences blocks w = 0 then none else some (int_wrap (occurrences blocks w)),
   if hits blocks w (List.range blocks.length) = [] then none
   else some (hits blocks w (List.range blocks.length)))

/-! ## Notions used to state the tokenizer, query and merge properties -/

/-- A lowercase ASCII letter, `a`..`z`. -/
def is_lower_letter (c : Nat) : Bool := decide (97 ≤ c) && decide (c ≤ 122)

/-- The maximal runs of alphabetic bytes of a string, in order, read byte by byte; `cur`
is the run in progress. -/
def alpha_runs_from (cur : List Nat) : List Nat → List (List Nat)
  | [] => if cur = [] then [] else [cur]
  | c :: rest =>
    if isalpha c then alpha_runs_from (cur ++ [c]) rest
    else if cur = [] then alpha_runs_from [] rest
    else cur :: alpha_runs_from [] rest

/-- The maximal runs of alphabetic bytes of a string, in order. -/
def alpha_runs (s : List Nat) : List (List Nat) := alpha_runs_from [] s

/-- The run `r` is a maximal run of alphabetic bytes of `s`: it is not empty, all its
bytes are alphabetic, and in `s` it is neither preceded nor followed by an alphabetic
byte. -/
def IsMaximalAlphaRun (r s : List Nat) : Prop :=
  r ≠ [] ∧ (∀ c ∈ r, isalpha c = true) ∧
    ∃ pre post, s = pre ++ r ++ post ∧
      (∀ c, pre.getLast? = some c → isalpha c = false) ∧
      (∀ c, post.head? = some c → isalpha c = false)

/-- The ids that the workers hold for the word `w`, worker after worker. -/
def local_postings (local_indexes : List LocalInvertedIndex) (w : Word) : List Nat :=
  (local_indexes.map (fun l => (find w l).getD [])).flatten

/-! ## Concrete inputs -/

/-- A free store that grants every request. -/
def roomy_heap : Heap := { string_fits := fun _ => true, vector_fits := fun _ => true }

/-- An index with two entries: `ab -> [0, 3]`, `c -> [1]`. -/
def sample_index : InvertedIndex := [([97, 98], [0, 3]), ([99], [1])]

/-- A freshly constructed object (1 worker, 16 MiB blocks) holding `index`. -/
def with_index (index : InvertedIndex) : wordcount :=
  { wordcount.new 1 16777216 with inverted_index := index }

/-- An index file whose entry count says 5 and that ends after 2 complete entries. -/
def truncated_stream : List Nat :=
  size_t_bytes 5 ++ save_entry ([97, 98], [0, 3]) ++ save_entry ([99], [1])

/-- The bytes of `"The cat sat.      The CAT ran!"`: two sentences with six spaces of
filler between them; it splits into 2 blocks at target size 12. -/
def two_block_corpus : List Nat :=
  [84, 104, 101, 32, 99, 97, 116, 32, 115, 97, 116, 46, 32, 32, 32, 32, 32, 32,
   84, 104, 101, 32, 67, 65, 84, 32, 114, 97, 110, 33]

/-- The bytes of `"abcdef"`, one whitespace-free run. -/
def run_corpus : List Nat := [97, 98, 99, 100, 101, 102]

/-- The bytes of `" abc def"`: a corpus that begins with a whitespace byte. -/
def leading_space_corpus : List Nat := [32, 97, 98, 99, 32, 100, 101, 102]

/-- The bytes of `"ab "`: a corpus that ends with a whitespace byte. -/
def trailing_space_corpus : List Nat := [97, 98, 32]

/-- The bytes of `"The cat sat. The CAT ran!"`. -/
def cat_corpus : List Nat :=
  [84, 104, 101, 32, 99, 97, 116, 32, 115, 97, 116, 46, 32, 84, 104, 101, 32, 67, 65, 84, 32,
   114, 97, 110, 33]

/-- An object whose two workers both hold block id 0 for the word `a`. -/
def overlapping_workers : wordcount :=
  { wordcount.new 2 16777216 with thread_local_indexes := [[([97], [0])], [([97], [0])]] }

/-- An object whose two workers hold the ids 2 and 0, and 1, for the word `a`. -/
def disjoint_workers : wordcount :=
  { wordcount.new 2 16777216 with thread_local_indexes := [[([97], [2, 0])], [([97], [1])]] }

/-- The bytes of `"  abc def"`: a corpus that begins with two whitespace bytes. -/
def padded_corpus : List Nat := [32, 32, 97, 98, 99, 32, 100, 101, 102]

/-- The bytes of `"ab cd\n"`: a corpus that ends with a newline. -/
def line_corpus : List Nat := [97, 98, 32, 99, 100, 10]

/-- The bytes of `"a "` repeated `n` times. -/
def copies_of_a (n : Nat) : List Nat := (List.replicate n [97, 32]).flatten

/-! ## Lemmas: block partitioner -/

theorem walk_back_le (c : List Nat) (s : Nat) : ∀ e, walk_back c s e ≤ e := by
  intro e
  induction e with
  | zero => simp [walk_back]
  | succ e ih =>
    unfold walk_back
    split
    · omega
    · exact le_refl _

theorem walk_back_ge (c : List Nat) (s : Nat) : ∀ e, s ≤ e → s ≤ walk_back c s e := by
  intro e
  induction e with
  | zero => intro h; simp [walk_back]; omega
  | succ e ih =>
    intro h
    unfold walk_back
    split
    · rename_i hc
      apply ih
      omega
    · exact h

theorem block_end_le (c : List Nat) (bs s : Nat) : block_end c bs s ≤ s + bs := by
  unfold block_end
  have := walk_back_le c s (min (s + bs) c.length)
  simp only
  split
  · split <;> omega
  · omega

theorem block_end_le_length (c : List Nat) (bs s : Nat) : block_end c bs s ≤ c.length := by
  unfold block_end
  have := walk_back_le c s (min (s + bs) c.length)
  simp only
  split
  · split <;> omega
  · omega

theorem block_end_gt (c : List Nat) (bs s : Nat) (hbs : 1 ≤ bs) (hs : s < c.length) :
    s < block_end c bs s := by
  unfold block_end
  have := walk_back_ge c s (min (s + bs) c.length) (by omega)
  simp only
  split
  · split <;> omega
  · omega

theorem skip_space_ge (c : List Nat) (e : Nat) : e ≤ skip_space c e := by
  unfold skip_space; omega

theorem split_loop_total (c : List Nat) (bs : Nat) (hbs : 1 ≤ bs) :
    ∀ fuel s, c.length ≤ s + fuel → ∃ blocks, split_loop c bs fuel s = some blocks := by
  intro fuel
  induction fuel with
  | zero =>
    intro s h
    refine ⟨[], ?_⟩
    simp [split_loop]; omega
  | succ fuel ih =>
    intro s h
    unfold split_loop
    split
    · rename_i hs
      have h1 := block_end_gt c bs s hbs hs
      have h2 := skip_space_ge c (block_end c bs s)
      obtain ⟨rest, hrest⟩ := ih (skip_space c (block_end c bs s)) (by omega)
      simp only [hrest]
      exact ⟨_, rfl⟩
    · exact ⟨[], rfl⟩

theorem split_loop_length_le (c : List Nat) (bs : Nat) :
    ∀ fuel s blocks, split_loop c bs fuel s = some blocks → ∀ b ∈ blocks, b.length ≤ bs := by
  intro fuel
  induction fuel with
  | zero =>
    intro s blocks h
    simp only [split_loop] at h
    split at h
    · cases h
    · cases h; simp
  | succ fuel ih =>
    intro s blocks h
    unfold split_loop at h
    split at h
    · simp only at h
      split at h
      · cases h
      · rename_i rest hrest
        cases h
        intro b hb
        rcases List.mem_cons.1 hb with rfl | hb
        · have := block_end_le c bs s
          simp only [List.length_take, List.length_drop]
          omega
        · exact ih _ _ hrest b hb
    · cases h; simp

/-! ## Lemmas: containers and codec -/

theorem size_t_bytes_length (n : Nat) : (size_t_bytes n).length = 8 := by
  simp [size_t_bytes]

theorem size_t_of_bytes_bytes (n : Nat) (h : n < 2 ^ 64) :
    size_t_of_bytes (size_t_bytes n) = n := by
  simp only [size_t_bytes, size_t_of_bytes, List.range, List.range.loop, List.map, List.foldr]
  omega

theorem file_read_take_append (a b : List Nat) (n m : Nat) (hn : a.length = n) :
    file_read n ((a ++ b).take m) = if n ≤ m then some (a, b.take (m - n)) else none := by
  subst hn
  unfold file_read
  by_cases h : a.length ≤ m
  · simp only [h, if_true]
    have h1 : a.length ≤ ((a ++ b).take m).length := by
      simp only [List.length_take, List.length_append]; omega
    simp only [h1, if_true, List.take_take, List.drop_take]
    congr 2
    · rw [min_eq_left h]; simp
    · simp
  · simp only [h, if_false]
    have h1 : ¬ a.length ≤ ((a ++ b).take m).length := by
      simp only [List.length_take, List.length_append]; omega
    simp only [h1, if_false]

theorem read_size_t_take_append (n : Nat) (h : n < 2 ^ 64) (rest : List Nat) (m : Nat) :
    read_size_t ((size_t_bytes n ++ rest).take m) =
      if 8 ≤ m then some (n, rest.take (m - 8)) else none := by
  unfold read_size_t
  rw [file_read_take_append _ _ 8 m (size_t_bytes_length n)]
  by_cases h8 : 8 ≤ m
  · simp [h8, size_t_of_bytes_bytes n h]
  · simp [h8]

theorem flatten_bytes_length (blocks : List Nat) :
    ((blocks.map size_t_bytes).flatten).length = blocks.length * 8 := by
  induction blocks with
  | nil => rfl
  | cons b bs ih =>
    simp only [List.map_cons, List.flatten_cons, List.length_append, size_t_bytes_length, ih,
      List.length_cons]
    omega

theorem drop_flatten_bytes (blocks : List Nat) :
    ∀ j, ((blocks.map size_t_bytes).flatten).drop (8 * j) =
      ((blocks.drop j).map size_t_bytes).flatten := by
  induction blocks with
  | nil => intro j; simp
  | cons b bs ih =>
    intro j
    cases j with
    | zero => simp
    | succ j =>
      have h8 : 8 * (j + 1) = (size_t_bytes b).length + 8 * j := by
        rw [size_t_bytes_length]; omega
      rw [h8]
      simp only [List.map_cons, List.flatten_cons, List.drop_succ_cons]
      rw [List.drop_append, ih j]

theorem blocks_of_bytes_flatten (blocks : List Nat) (h : ∀ id ∈ blocks, id < 2 ^ 64) :
    blocks_of_bytes blocks.length ((blocks.map size_t_bytes).flatten) = blocks := by
  apply List.ext_getElem
  · simp [blocks_of_bytes]
  · intro j h1 h2
    simp only [blocks_of_bytes, List.getElem_map, List.getElem_range]
    rw [drop_flatten_bytes, List.drop_eq_getElem_cons h2]
    simp only [List.map_cons, List.flatten_cons]
    rw [List.take_left' (size_t_bytes_length _)]
    exact size_t_of_bytes_bytes _ (h _ (List.getElem_mem _))

theorem save_entry_length (e : Word × List Nat) :
    (save_entry e).length = 8 + e.1.length + 8 + e.2.length * 8 := by
  simp only [save_entry, List.length_append, size_t_bytes_length, flatten_bytes_length]

theorem string_throws_false (heap : Heap) (n : Nat) (h : string_throws heap n = false) :
    n < 2 ^ 64 := by
  simp only [string_throws, Bool.or_eq_false_iff, decide_eq_false_iff_not] at h
  omega

theorem vector_throws_false (heap : Heap) (n : Nat) (h : vector_throws heap n = false) :
    n < 2 ^ 64 := by
  simp only [vector_throws, Bool.or_eq_false_iff, decide_eq_false_iff_not] at h
  omega

theorem load_entries_take_entry (heap : Heap) (e : Word × List Nat) (he : EntryFits heap e)
    (rest : List Nat) (m n : Nat) (index : InvertedIndex) :
    load_entries heap (n + 1) ((save_entry e ++ rest).take m) index =
      if (save_entry e).length ≤ m then
        load_entries heap n (rest.take (m - (save_entry e).length))
          (modify e.1 [] (fun _ => e.2) index)
      else some (false, index) := by
  obtain ⟨g1, g2, h3⟩ := he
  have h1 := string_throws_false heap _ g1
  have h2 := vector_throws_false heap _ g2
  have hlen := save_entry_length e
  have hassoc : save_entry e ++ rest = size_t_bytes e.1.length ++ (e.1 ++
      (size_t_bytes e.2.length ++ ((e.2.map size_t_bytes).flatten ++ rest))) := by
    simp [save_entry, List.append_assoc]
  rw [hassoc]
  conv_lhs => rw [load_entries]
  rw [read_size_t_take_append _ h1]
  by_cases c1 : 8 ≤ m
  · simp only [c1, if_true, g1, Bool.false_eq_true, if_false]
    rw [file_read_take_append _ _ _ _ rfl]
    by_cases c2 : e.1.length ≤ m - 8
    · simp only [c2, if_true]
      rw [read_size_t_take_append _ h2]
      by_cases c3 : 8 ≤ m - 8 - e.1.length
      · simp only [c3, if_true, g2, Bool.false_eq_true, if_false]
        rw [file_read_take_append _ _ _ _ (flatten_bytes_length e.2)]
        by_cases c5 : e.2.length * 8 ≤ m - 8 - e.1.length - 8
        · have c6 : (save_entry e).length ≤ m := by omega
          have c7 : m - 8 - e.1.length - 8 - e.2.length * 8 = m - (save_entry e).length := by
            omega
          simp only [c5, c6, if_true, blocks_of_bytes_flatten e.2 h3, c7]
        · have c6 : ¬ (save_entry e).length ≤ m := by omega
          simp only [c5, c6, if_false]
      · have c6 : ¬ (save_entry e).length ≤ m := by omega
        simp only [c3, c6, if_false]
    · have c6 : ¬ (save_entry e).length ≤ m := by omega
      simp only [c2, c6, if_false]
  · have c6 : ¬ (save_entry e).length ≤ m := by omega
    simp only [c1, c6, if_false]

theorem find_modify {V : Type} (w w' : Word) (d : V) (f : V → V) (m : List (Word × V)) :
    find w' (modify w d f m) = if w = w' then some (f ((find w m).getD d)) else find w' m := by
  induction m with
  | nil =>
    by_cases h : w = w' <;> simp [modify, find, h]
  | cons e m ih =>
    obtain ⟨k, v⟩ := e
    by_cases hk : k = w
    · subst hk
      by_cases h : k = w' <;> simp [modify, find, h]
    · by_cases h : w = w'
      · subst h
        simp [modify, find, hk, ih]
      · simp only [modify, hk, if_false, find, ih, h]

theorem keys_modify {V : Type} (w : Word) (d : V) (f : V → V) (m : List (Word × V)) :
    (modify w d f m).map Prod.fst =
      if w ∈ m.map Prod.fst then m.map Prod.fst else m.map Prod.fst ++ [w] := by
  induction m with
  | nil => simp [modify]
  | cons e m ih =>
    obtain ⟨k, v⟩ := e
    by_cases hk : k = w
    · subst hk
      simp [modify]
    · have hk' : ¬ w = k := fun h => hk h.symm
      simp only [modify, hk, if_false, List.map_cons, ih, List.mem_cons, hk', false_or]
      split <;> simp

theorem nodup_keys_modify {V : Type} (w : Word) (d : V) (f : V → V) (m : List (Word × V))
    (h : (m.map Prod.fst).Nodup) : ((modify w d f m).map Prod.fst).Nodup := by
  rw [keys_modify]
  split
  · exact h
  · rename_i hw
    rw [List.nodup_append]
    refine ⟨h, List.nodup_singleton _, ?_⟩
    intro a ha hb
    simp only [List.mem_singleton] at hb
    subst hb
    exact hw ha

theorem find_eq_none_iff {V : Type} (w : Word) (m : List (Word × V)) :
    find w m = none ↔ w ∉ m.map Prod.fst := by
  induction m with
  | nil => simp [find]
  | cons e m ih =>
    obtain ⟨k, v⟩ := e
    by_cases hk : k = w
    · simp [find, hk]
    · have hk' : ¬ w = k := fun h => hk h.symm
      simp [find, hk, hk', ih]

theorem read_size_t_append (n : Nat) (h : n < 2 ^ 64) (rest : List Nat) :
    read_size_t (size_t_bytes n ++ rest) = some (n, rest) := by
  have h1 := read_size_t_take_append n h rest (8 + rest.length)
  rw [List.take_of_length_le (by simp [size_t_bytes_length]), if_pos (by omega),
    List.take_of_length_le (by omega)] at h1
  exact h1

theorem load_entries_entry (heap : Heap) (e : Word × List Nat) (he : EntryFits heap e)
    (rest : List Nat) (n : Nat) (index : InvertedIndex) :
    load_entries heap (n + 1) (save_entry e ++ rest) index =
      load_entries heap n rest (modify e.1 [] (fun _ => e.2) index) := by
  have h := load_entries_take_entry heap e he rest ((save_entry e).length + rest.length) n
    index
  rw [List.take_of_length_le (by simp), if_pos (by omega),
    List.take_of_length_le (by omega)] at h
  exact h

theorem load_entries_saved (heap : Heap) (entries : List (Word × List Nat)) :
    (∀ e ∈ entries, EntryFits heap e) →
    ∀ (rest : List Nat) (n : Nat) (index : InvertedIndex),
    load_entries heap (entries.length + n) ((entries.map save_entry).flatten ++ rest) index =
      load_entries heap n rest (store_entries index entries) := by
  induction entries with
  | nil => intro _ rest n index; simp [store_entries]
  | cons e es ih =>
    intro h rest n index
    have he := h e (List.mem_cons_self _ _)
    have hes : ∀ x ∈ es, EntryFits heap x := fun x hx => h x (List.mem_cons_of_mem _ hx)
    have hn : (e :: es).length + n = (es.length + n) + 1 := by simp; omega
    rw [hn]
    simp only [List.map_cons, List.flatten_cons, List.append_assoc]
    rw [load_entries_entry heap e he, ih hes]
    rfl

theorem load_entries_truncated (heap : Heap) (entries : List (Word × List Nat)) :
    (∀ e ∈ entries, EntryFits heap e) → ∀ (m : Nat) (index : InvertedIndex),
    m < ((entries.map save_entry).flatten).length →
    ∃ j, j < entries.length ∧
      load_entries heap entries.length (((entries.map save_entry).flatten).take m) index =
        some (false, store_entries index (entries.take j)) := by
  induction entries with
  | nil => intro _ m index hm; simp at hm
  | cons e es ih =>
    intro h m index hm
    have he := h e (List.mem_cons_self _ _)
    have hes : ∀ x ∈ es, EntryFits heap x := fun x hx => h x (List.mem_cons_of_mem _ hx)
    simp only [List.map_cons, List.flatten_cons, List.length_cons, List.length_append] at hm ⊢
    rw [load_entries_take_entry heap e he]
    by_cases c : (save_entry e).length ≤ m
    · simp only [c, if_true]
      obtain ⟨j, hj, hload⟩ := ih hes (m - (save_entry e).length)
        (modify e.1 [] (fun _ => e.2) index) (by omega)
      refine ⟨j + 1, by omega, ?_⟩
      rw [hload]
      rfl
    · simp only [c, if_false]
      exact ⟨0, by omega, rfl⟩

theorem find_store_entries (w : Word) (entries : List (Word × List Nat)) :
    (entries.map Prod.fst).Nodup → ∀ index : InvertedIndex,
    find w (store_entries index entries) =
      match find w entries with
      | some v => some v
      | none => find w index := by
  induction entries with
  | nil => intro _ index; rfl
  | cons e es ih =>
    intro hnd index
    obtain ⟨k, v⟩ := e
    simp only [List.map_cons, List.nodup_cons] at hnd
    have h1 : store_entries index ((k, v) :: es) =
        store_entries (modify k [] (fun _ => v) index) es := rfl
    rw [h1, ih hnd.2, find_modify]
    by_cases hk : k = w
    · subst hk
      have : find k es = none := (find_eq_none_iff k es).2 hnd.1
      simp [this, find]
    · simp only [hk, if_false, find]

theorem keys_store_entries (entries : List (Word × List Nat)) :
    ∀ index : InvertedIndex, (index.map Prod.fst).Nodup →
      ((store_entries index entries).map Prod.fst).Nodup := by
  induction entries with
  | nil => intro index h; exact h
  | cons e es ih =>
    intro index h
    exact ih _ (nodup_keys_modify _ _ _ _ h)

theorem find_perm {V : Type} (w : Word) (m1 m2 : List (Word × V)) (hp : m1.Perm m2)
    (hnd : (m1.map Prod.fst).Nodup) : find w m1 = find w m2 := by
  induction hp with
  | nil => rfl
  | cons e _ ih =>
    obtain ⟨k, v⟩ := e
    simp only [List.map_cons, List.nodup_cons] at hnd
    simp only [find, ih hnd.2]
  | swap e1 e2 l =>
    obtain ⟨k1, v1⟩ := e1
    obtain ⟨k2, v2⟩ := e2
    simp only [List.map_cons, List.nodup_cons, List.mem_cons, not_or] at hnd
    simp only [find]
    by_cases h1 : k1 = w
    · by_cases h2 : k2 = w
      · exact absurd (h1.trans h2.symm).symm hnd.1.1
      · simp [h1, h2]
    · simp [h1]
  | trans p1 p2 ih1 ih2 =>
    rw [ih1 hnd, ih2 ((p1.map Prod.fst).nodup_iff.1 hnd)]

theorem load_entries_false (heap : Heap) :
    ∀ (n : Nat) (file : List Nat) (index index1 : InvertedIndex),
    load_entries heap n file index = some (false, index1) →
    ∃ j, j < n ∧ load_entries heap j file index = some (true, index1) ∧
      load_entries heap (j + 1) file index = some (false, index1) := by
  intro n
  induction n with
  | zero =>
    intro file index index1 h
    simp [load_entries] at h
  | succ n ih =>
    intro file index index1 h
    rw [load_entries] at h
    split at h
    · rename_i h1
      cases h
      refine ⟨0, by omega, rfl, ?_⟩
      rw [load_entries]
      simp only [h1]
    · rename_i word_length file1 h1
      split at h
      · cases h
      · rename_i hs
        split at h
        · rename_i h2
          cases h
          refine ⟨0, by omega, rfl, ?_⟩
          rw [load_entries]
          simp only [h1, hs, Bool.false_eq_true, if_false, h2]
        · rename_i word file2 h2
          split at h
          · rename_i h3
            cases h
            refine ⟨0, by omega, rfl, ?_⟩
            rw [load_entries]
            simp only [h1, hs, Bool.false_eq_true, if_false, h2, h3]
          · rename_i num_blocks file3 h3
            split at h
            · cases h
            · rename_i hv
              split at h
              · rename_i h5
                cases h
                refine ⟨0, by omega, rfl, ?_⟩
                rw [load_entries]
                simp only [h1, hs, Bool.false_eq_true, if_false, h2, h3, hv, h5]
              · rename_i raw file4 h5
                obtain ⟨j, hj, hload, hfail⟩ := ih _ _ _ h
                refine ⟨j + 1, by omega, ?_, ?_⟩
                · rw [load_entries]
                  simp only [h1, hs, Bool.false_eq_true, if_false, h2, h3, hv, h5]
                  exact hload
                · rw [load_entries]
                  simp only [h1, hs, Bool.false_eq_true, if_false, h2, h3, hv, h5]
                  exact hfail

/-- Decoding entries never empties the index: after at least one entry, or from a
non-empty index, the index is not empty. -/
theorem load_entries_ne_nil (heap : Heap) :
    ∀ (n : Nat) (file : List Nat) (index index1 : InvertedIndex),
    load_entries heap n file index = some (true, index1) → (0 < n ∨ index ≠ []) →
    index1 ≠ [] := by
  intro n
  induction n with
  | zero =>
    intro file index index1 h hne
    simp only [load_entries, Option.some.injEq, Prod.mk.injEq, true_and] at h
    subst h
    rcases hne with h0 | h0
    · omega
    · exact h0
  | succ n ih =>
    intro file index index1 h _
    rw [load_entries] at h
    split at h
    · cases h
    · split at h
      · cases h
      · split at h
        · cases h
        · split at h
          · cases h
          · split at h
            · cases h
            · split at h
              · cases h
              · refine ih _ _ _ h (Or.inr ?_)
                intro hnil
                have := congrArg List.length hnil
                rename_i word _ _ _ _ _ _ _ _ _ _
                cases index with
                | nil => simp [modify] at hnil
                | cons e rest =>
                  obtain ⟨k, v⟩ := e
                  simp only [modify] at hnil
                  split at hnil <;> cases hnil

theorem read_size_t_eq (file : List Nat) :
    read_size_t file =
      if 8 ≤ file.length then some (size_t_of_bytes (file.take 8), file.drop 8) else none := by
  unfold read_size_t file_read
  by_cases c : 8 ≤ file.length <;> simp [c]

/-! ## Lemmas: tokenizer -/

theorem dropWhile_not_alpha_head (ptr : List Nat) (c : Nat) (rest : List Nat)
    (h : ptr.dropWhile (fun c => !isalpha c) = c :: rest) : isalpha c = true := by
  have h1 := List.head_dropWhile_not (fun c => !isalpha c) ptr (by rw [h]; simp)
  simp only [h, List.head_cons] at h1
  simpa using h1

theorem dropWhile_alpha_length_lt (ptr : List Nat)
    (h : ptr.dropWhile (fun c => !isalpha c) ≠ []) :
    ((ptr.dropWhile (fun c => !isalpha c)).dropWhile isalpha).length < ptr.length := by
  cases hp : ptr.dropWhile (fun c => !isalpha c) with
  | nil => exact absurd hp h
  | cons c rest =>
    have hc := dropWhile_not_alpha_head ptr c rest hp
    have h1 : (c :: rest).dropWhile isalpha = rest.dropWhile isalpha := by
      simp [List.dropWhile_cons, hc]
    have h2 := (List.dropWhile_sublist (l := rest) isalpha).length_le
    have h3 := (List.dropWhile_sublist (l := ptr) (fun c => !isalpha c)).length_le
    rw [hp] at h3
    rw [h1]
    simp only [List.length_cons] at h3
    omega

theorem word_ne_nil (ptr : List Nat) (h : ptr.dropWhile (fun c => !isalpha c) ≠ []) :
    ((ptr.dropWhile (fun c => !isalpha c)).takeWhile isalpha).map tolower ≠ [] := by
  cases hp : ptr.dropWhile (fun c => !isalpha c) with
  | nil => exact absurd hp h
  | cons c rest =>
    have hc := dropWhile_not_alpha_head ptr c rest hp
    simp [List.takeWhile_cons, hc]

theorem tokens_loop_fuel : ∀ (fuel1 fuel2 : Nat) (ptr : List Nat),
    ptr.length ≤ fuel1 → ptr.length ≤ fuel2 → tokens_loop fuel1 ptr = tokens_loop fuel2 ptr := by
  intro fuel1
  induction fuel1 with
  | zero =>
    intro fuel2 ptr h1 _
    have : ptr = [] := List.length_eq_zero.1 (by omega)
    subst this
    cases fuel2 <;> simp [tokens_loop]
  | succ fuel1 ih =>
    intro fuel2 ptr h1 h2
    cases fuel2 with
    | zero =>
      have : ptr = [] := List.length_eq_zero.1 (by omega)
      subst this
      simp [tokens_loop]
    | succ fuel2 =>
      simp only [tokens_loop]
      split
      · rfl
      · rename_i hne
        have hlt := dropWhile_alpha_length_lt ptr hne
        rw [ih fuel2 _ (by omega) (by omega)]

theorem tokens_eq (ptr : List Nat) :
    tokens ptr =
      if ptr.dropWhile (fun c => !isalpha c) = [] then []
      else ((ptr.dropWhile (fun c => !isalpha c)).takeWhile isalpha).map tolower ::
        tokens ((ptr.dropWhile (fun c => !isalpha c)).dropWhile isalpha) := by
  cases ptr with
  | nil => simp [tokens, tokens_loop]
  | cons c rest =>
    simp only [tokens, List.length_cons, tokens_loop]
    split
    · rfl
    · rename_i hne
      have hlt := dropWhile_alpha_length_lt (c :: rest) hne
      simp only [List.length_cons] at hlt
      rw [tokens_loop_fuel rest.length _ _ (by omega) (le_refl _)]

theorem tokens_nil : tokens [] = [] := rfl

theorem tokens_cons_not_alpha (c : Nat) (l : List Nat) (h : isalpha c = false) :
    tokens (c :: l) = tokens l := by
  rw [tokens_eq (c :: l), tokens_eq l]
  simp [List.dropWhile_cons, h]

theorem tokens_cons_alpha (c : Nat) (l : List Nat) (h : isalpha c = true) :
    tokens (c :: l) =
      (tolower c :: (l.takeWhile isalpha).map tolower) :: tokens (l.dropWhile isalpha) := by
  rw [tokens_eq (c :: l)]
  simp [List.dropWhile_cons, List.takeWhile_cons, h]

theorem count_words_loop_eq : ∀ (fuel : Nat) (ptr : List Nat) (m : LocalWordMap),
    ptr.length ≤ fuel → count_words_loop fuel ptr m = some (count_tokens m (tokens ptr)) := by
  intro fuel
  induction fuel with
  | zero =>
    intro ptr m h
    have : ptr = [] := List.length_eq_zero.1 (by omega)
    subst this
    rfl
  | succ fuel ih =>
    intro ptr m h
    rw [count_words_loop, tokens_eq ptr]
    by_cases hp : ptr = []
    · subst hp; rfl
    · simp only [hp, if_false]
      by_cases h1 : ptr.dropWhile (fun c => !isalpha c) = []
      · simp only [h1, if_true]; rfl
      · have hlt := dropWhile_alpha_length_lt ptr h1
        have hw := word_ne_nil ptr h1
        simp only [h1, if_false, hw, ne_eq, not_false_eq_true, if_true]
        rw [ih _ _ (by omega)]
        rfl

theorem count_words_in_text_local_eq (text : List Nat) (m : LocalWordMap) :
    count_words_in_text_local text m = some (count_tokens m (tokens text)) :=
  count_words_loop_eq _ _ _ (le_refl _)

theorem build_index_loop_eq (order : List Nat → List Nat) (id : Nat) :
    ∀ (fuel : Nat) (ptr : List Nat) (ix : LocalInvertedIndex),
    ptr.length ≤ fuel →
      build_index_loop order id fuel ptr ix = some (index_tokens order id ix (tokens ptr)) := by
  intro fuel
  induction fuel with
  | zero =>
    intro ptr m h
    have : ptr = [] := List.length_eq_zero.1 (by omega)
    subst this
    rfl
  | succ fuel ih =>
    intro ptr m h
    rw [build_index_loop, tokens_eq ptr]
    by_cases hp : ptr = []
    · subst hp; rfl
    · simp only [hp, if_false]
      by_cases h1 : ptr.dropWhile (fun c => !isalpha c) = []
      · simp only [h1, if_true]; rfl
      · have hlt := dropWhile_alpha_length_lt ptr h1
        have hw := word_ne_nil ptr h1
        simp only [h1, if_false, hw, ne_eq, not_false_eq_true, if_true]
        rw [ih _ _ (by omega)]
        rfl

theorem build_inverted_index_local_eq (order : List Nat → List Nat) (text : List Nat)
    (ix : LocalInvertedIndex) (id : Nat) :
    build_inverted_index_local order text ix id =
      some (index_tokens order id ix (tokens text)) :=
  build_index_loop_eq order id _ _ _ (le_refl _)

/-! ## Lemmas: one worker -/

theorem count_tokens_append (m : LocalWordMap) (a b : List Word) :
    count_tokens m (a ++ b) = count_tokens (count_tokens m a) b := by
  simp [count_tokens, List.foldl_append]

theorem worker_loop_eq (order : List Nat → List Nat) (blocks : List Word) :
    ∀ (ids : List Nat) (m : LocalWordMap) (ix : LocalInvertedIndex),
    worker_loop order blocks ids m ix =
      some (count_tokens m (worker_tokens blocks ids), index_blocks order blocks ids ix) := by
  intro ids
  induction ids with
  | nil => intro m ix; rfl
  | cons i ids ih =>
    intro m ix
    rw [worker_loop]
    simp only [count_words_in_text_local_eq, build_inverted_index_local_eq, ih]
    simp only [worker_tokens, List.map_cons, List.flatten_cons, count_tokens_append]
    rfl

/-- The stored value is the one congruent to `x` modulo `2^32` in the range
`-2^31 .. 2^31 - 1`. -/
theorem int_wrap_eq (x : Int) :
    int_wrap x = (x + 2147483648) % 4294967296 - 2147483648 := by
  unfold int_wrap
  simp only
  split <;> omega

theorem int_wrap_add_left (a b : Int) : int_wrap (int_wrap a + b) = int_wrap (a + b) := by
  simp only [int_wrap_eq]
  omega

theorem int_wrap_add_right (a b : Int) : int_wrap (a + int_wrap b) = int_wrap (a + b) := by
  simp only [int_wrap_eq]
  omega

theorem int_wrap_idem (a : Int) : int_wrap (int_wrap a) = int_wrap a := by
  simp only [int_wrap_eq]
  omega

theorem int_wrap_of_lt (n : Nat) (h : n < 2147483648) : int_wrap (n : Int) = (n : Int) := by
  rw [int_wrap_eq]
  omega

theorem int_wrap_zero : int_wrap 0 = 0 := by
  rw [int_wrap_eq]
  omega

theorem find_count_tokens (w : Word) : ∀ (ws : List Word) (m : LocalWordMap),
    find w (count_tokens m ws) =
      if ws.count w = 0 then find w m
      else some (int_wrap ((find w m).getD 0 + (ws.count w : Nat))) := by
  intro ws
  induction ws with
  | nil => intro m; simp [count_tokens]
  | cons v ws ih =>
    intro m
    have h1 : count_tokens m (v :: ws) =
        count_tokens (modify v 0 (fun n => int_wrap (n + 1)) m) ws := rfl
    rw [h1, ih, find_modify, List.count_cons]
    by_cases hv : v = w
    · subst hv
      simp only [if_true, beq_self_eq_true, Option.getD_some]
      by_cases hc : List.count v ws = 0
      · simp [hc]
      · have : ¬ (List.count v ws + 1 = 0) := by omega
        simp only [hc, this, if_false, Option.some.injEq]
        rw [int_wrap_add_left]
        congr 1
        push_cast
        omega
    · have hb : (v == w) = false := by simpa using hv
      simp only [hv, if_false, hb, Bool.false_eq_true, Nat.add_zero]

theorem mem_order (order : List Nat → List Nat) (horder : IsIterationOrder order)
    (s : List Nat) (x : Nat) : x ∈ order s ↔ x ∈ s :=
  (horder s).mem_iff

theorem set_insert_idem (order : List Nat → List Nat) (horder : IsIterationOrder order)
    (id : Nat) (s : List Nat) :
    set_insert order id (set_insert order id s) = set_insert order id s := by
  unfold set_insert
  by_cases h : id ∈ s
  · simp only [h, if_true]
  · have h1 : id ∈ order (s ++ [id]) := by
      rw [mem_order order horder]
      simp
    simp only [h, if_false, h1, if_true]

theorem find_index_tokens (order : List Nat → List Nat) (horder : IsIterationOrder order)
    (id : Nat) (w : Word) : ∀ (ws : List Word) (ix : LocalInvertedIndex),
    find w (index_tokens order id ix ws) =
      if w ∈ ws then some (set_insert order id ((find w ix).getD [])) else find w ix := by
  intro ws
  induction ws with
  | nil => intro ix; simp [index_tokens]
  | cons v ws ih =>
    intro ix
    have h1 : index_tokens order id ix (v :: ws) =
        index_tokens order id (modify v [] (set_insert order id) ix) ws := rfl
    rw [h1, ih, find_modify]
    by_cases hv : v = w
    · subst hv
      simp [set_insert_idem order horder]
    · have hv' : ¬ w = v := fun h => hv h.symm
      simp only [hv, if_false, List.mem_cons, hv', false_or]

/-- The ids one worker holds for `w` after the blocks `ids`: in some order, what it held
before followed by the ids of the blocks among `ids` that have `w` among their tokens. -/
theorem find_index_blocks (order : List Nat → List Nat) (horder : IsIterationOrder order)
    (blocks : List Word) (w : Word) : ∀ (ids : List Nat)
    (ix : LocalInvertedIndex), ids.Nodup → (∀ i ∈ ids, i ∉ (find w ix).getD []) →
    ∃ l : List Nat, l.Perm ((find w ix).getD [] ++ hits blocks w ids) ∧
      find w (index_blocks order blocks ids ix) =
        if hits blocks w ids = [] then find w ix else some l := by
  intro ids
  induction ids with
  | nil =>
    intro ix _ _
    exact ⟨(find w ix).getD [], by simp [hits], by simp [index_blocks, hits]⟩
  | cons i ids ih =>
    intro ix hnd hnot
    have h1 : index_blocks order blocks (i :: ids) ix =
        index_blocks order blocks ids (index_tokens order i ix (tokens (block_at blocks i))) :=
      rfl
    have hi : i ∉ (find w ix).getD [] := hnot i (List.mem_cons_self _ _)
    have hnd' := List.nodup_cons.1 hnd
    by_cases hw : w ∈ tokens (block_at blocks i)
    · have hfind : find w (index_tokens order i ix (tokens (block_at blocks i))) =
          some (order ((find w ix).getD [] ++ [i])) := by
        rw [find_index_tokens order horder, if_pos hw]
        simp only [set_insert, hi, if_false]
      have hperm := horder ((find w ix).getD [] ++ [i])
      have hh : hits blocks w (i :: ids) = i :: hits blocks w ids := by
        simp [hits, List.filter_cons, hw]
      obtain ⟨l, hl, hfl⟩ := ih (index_tokens order i ix (tokens (block_at blocks i))) hnd'.2
        (by
          intro j hj
          rw [hfind]
          simp only [Option.getD_some]
          rw [mem_order order horder]
          simp only [List.mem_append, List.mem_singleton, not_or]
          refine ⟨hnot j (List.mem_cons_of_mem _ hj), ?_⟩
          rintro rfl
          exact hnd'.1 hj)
      rw [hfind] at hl hfl
      simp only [Option.getD_some] at hl
      rw [h1, hfl, hh]
      by_cases hr : hits blocks w ids = []
      · refine ⟨order ((find w ix).getD [] ++ [i]), ?_, by simp [hr]⟩
        rw [hr]
        exact hperm
      · refine ⟨l, ?_, by simp [hr]⟩
        refine hl.trans ?_
        have := hperm.append_right (hits blocks w ids)
        simpa using this
    · have hfind : find w (index_tokens order i ix (tokens (block_at blocks i))) =
          find w ix := by
        rw [find_index_tokens order horder, if_neg hw]
      have hh : hits blocks w (i :: ids) = hits blocks w ids := by
        simp [hits, List.filter_cons, hw]
      obtain ⟨l, hl, hfl⟩ := ih (index_tokens order i ix (tokens (block_at blocks i))) hnd'.2
        (by
          intro j hj
          rw [hfind]
          exact hnot j (List.mem_cons_of_mem _ hj))
      rw [hfind] at hl hfl
      rw [h1, hh]
      exact ⟨l, hl, hfl⟩

theorem nodup_keys_count_tokens : ∀ (ws : List Word) (m : LocalWordMap),
    (m.map Prod.fst).Nodup → ((count_tokens m ws).map Prod.fst).Nodup := by
  intro ws
  induction ws with
  | nil => intro m h; exact h
  | cons v ws ih => intro m h; exact ih _ (nodup_keys_modify _ _ _ _ h)

theorem nodup_keys_index_tokens (order : List Nat → List Nat) (id : Nat) :
    ∀ (ws : List Word) (ix : LocalInvertedIndex),
    (ix.map Prod.fst).Nodup → ((index_tokens order id ix ws).map Prod.fst).Nodup := by
  intro ws
  induction ws with
  | nil => intro m h; exact h
  | cons v ws ih => intro m h; exact ih _ (nodup_keys_modify _ _ _ _ h)

theorem nodup_keys_index_blocks (order : List Nat → List Nat) (blocks : List Word) :
    ∀ (ids : List Nat) (ix : LocalInvertedIndex),
    (ix.map Prod.fst).Nodup → ((index_blocks order blocks ids ix).map Prod.fst).Nodup := by
  intro ids
  induction ids with
  | nil => intro m h; exact h
  | cons v ws ih => intro m h; exact ih _ (nodup_keys_index_tokens order _ _ _ h)

/-! ## Lemmas: merge -/

theorem find_merge_entries {V : Type} (op : V → V → V) (d : V) (w : Word) :
    ∀ (l acc : List (Word × V)), (l.map Prod.fst).Nodup →
    find w (merge_entries op d l acc) =
      match find w l with
      | none => find w acc
      | some s => some (op ((find w acc).getD d) s) := by
  intro l
  induction l with
  | nil => intro acc _; rfl
  | cons e l ih =>
    intro acc hnd
    obtain ⟨k, v⟩ := e
    simp only [List.map_cons, List.nodup_cons] at hnd
    have h1 : merge_entries op d ((k, v) :: l) acc =
        merge_entries op d l (modify k d (fun x => op x v) acc) := rfl
    rw [h1, ih _ hnd.2, find_modify]
    by_cases hk : k = w
    · subst hk
      have hn : find k l = none := (find_eq_none_iff k l).2 hnd.1
      simp [hn, find]
    · simp only [hk, if_false, find]

theorem foldr_all_none {V : Type} (op : V → V → V) (d : V) (hd : op d d = d) (w : Word) :
    ∀ (locals : List (List (Word × V))), locals.all (fun l => (find w l).isNone) = true →
      (locals.map (fun l => (find w l).getD d)).foldr op d = d := by
  intro locals
  induction locals with
  | nil => intro _; rfl
  | cons l ls ih =>
    intro h
    simp only [List.all_cons, Bool.and_eq_true, Option.isNone_iff_eq_none] at h
    have h2 := ih h.2
    simp only [List.map_cons, List.foldr_cons, h.1, h2, Option.getD_none, hd]

theorem find_merge_all {V : Type} (op : V → V → V) (d : V)
    (hassoc : ∀ a b c, op (op a b) c = op a (op b c)) (hleft : ∀ a x, op a (op d x) = op a x)
    (hright : ∀ a x, op a (op x d) = op a x) (hd : op d d = d) (w : Word) :
    ∀ (locals : List (List (Word × V))) (acc : List (Word × V)),
    (∀ l ∈ locals, (l.map Prod.fst).Nodup) →
    find w (merge_all op d locals acc) =
      if locals.all (fun l => (find w l).isNone) = true then find w acc
      else some (op ((find w acc).getD d)
        ((locals.map (fun l => (find w l).getD d)).foldr op d)) := by
  intro locals
  induction locals with
  | nil => intro acc _; simp [merge_all]
  | cons l ls ih =>
    intro acc hnd
    have h1 : merge_all op d (l :: ls) acc = merge_all op d ls (merge_entries op d l acc) := rfl
    have hl := hnd l (List.mem_cons_self _ _)
    have hls : ∀ x ∈ ls, (x.map Prod.fst).Nodup := fun x hx => hnd x (List.mem_cons_of_mem _ hx)
    rw [h1, ih _ hls, find_merge_entries op d w l acc hl]
    by_cases hall : ls.all (fun l => (find w l).isNone) = true
    · have hfold := foldr_all_none op d hd w ls hall
      cases hf : find w l with
      | none =>
        simp only [List.all_cons, hall, hf, Option.isNone_none, Bool.and_self, if_true]
      | some s =>
        simp only [List.all_cons, hall, hf, Option.isNone_some, Bool.false_and,
          Bool.false_eq_true, if_false, if_true, List.map_cons, List.foldr_cons,
          hfold, Option.getD_some, hright]
    · simp only [List.all_cons, hall, Bool.and_false, Bool.false_eq_true, if_false,
        List.map_cons, List.foldr_cons]
      cases hf : find w l with
      | none => simp only [Option.getD_none, hleft]
      | some s => simp only [Option.getD_some, hassoc]

theorem find_map_values {V U : Type} (f : V → U) (w : Word) (m : List (Word × V)) :
    find w (m.map (fun e => (e.1, f e.2))) = (find w m).map f := by
  induction m with
  | nil => rfl
  | cons e m ih =>
    obtain ⟨k, v⟩ := e
    by_cases hk : k = w <;> simp [find, hk, ih]

theorem int_wrap_foldr (l : List Int) :
    int_wrap (l.foldr (fun a b => int_wrap (a + b)) 0) = int_wrap l.sum := by
  induction l with
  | nil => rfl
  | cons a l ih =>
    simp only [List.foldr_cons, List.sum_cons]
    rw [int_wrap_idem, ← int_wrap_add_right, ih, int_wrap_add_right]

theorem int_wrap_sum_map (l : List Int) :
    int_wrap ((l.map int_wrap).sum) = int_wrap l.sum := by
  induction l with
  | nil => rfl
  | cons a l ih =>
    simp only [List.map_cons, List.sum_cons]
    rw [int_wrap_add_left, ← int_wrap_add_right, ih, int_wrap_add_right]

theorem sum_map_cast (l : List Nat) : (l.map (fun n : Nat => (n : Int))).sum = (l.sum : Nat) := by
  induction l with
  | nil => rfl
  | cons a l ih => simp only [List.map_cons, List.sum_cons, ih]; push_cast; rfl

theorem foldr_append_eq_flatten (l : List (List Nat)) :
    l.foldr (fun a b => a ++ b) [] = l.flatten := by
  induction l with
  | nil => rfl
  | cons a l ih => simp [ih]

/-! ## Lemmas: worker ranges and the state after `load_txt` -/

theorem merge_local_maps_eq (wc : wordcount) :
    (merge_local_maps wc).final_word_counts =
      merge_all (fun a b => int_wrap (a + b)) 0 wc.thread_local_maps [] := rfl

theorem merge_local_indexes_eq (wc : wordcount) :
    (merge_local_indexes wc).inverted_index =
      (merge_all (fun a b => a ++ b) [] wc.thread_local_indexes []).map
        (fun e => (e.1, sort e.2)) := rfl

theorem length_set_results {α : Type} (r : Nat → α) (c : Nat → Bool) :
    ∀ (ts : List Nat) (l : List α), (set_results r c ts l).length = l.length := by
  intro ts
  induction ts with
  | nil => intro l; rfl
  | cons t ts ih =>
    intro l
    rw [set_results, ih]
    split <;> simp

theorem getElem?_set_results {α : Type} (r : Nat → α) (c : Nat → Bool) (i : Nat) :
    ∀ (ts : List Nat) (l : List α),
      (set_results r c ts l)[i]? =
        if i ∈ ts ∧ c i = true ∧ i < l.length then some (r i) else l[i]? := by
  intro ts
  induction ts with
  | nil => intro l; simp [set_results]
  | cons t ts ih =>
    intro l
    rw [set_results, ih]
    by_cases hc : c t = true
    · simp only [hc, if_true, List.length_set, List.getElem?_set, List.mem_cons]
      by_cases hit : t = i
      · subst hit
        by_cases hlen : t < l.length
        · simp [hc, hlen]
        · have : l[t]? = none := List.getElem?_eq_none (by omega)
          simp [hlen, this]
      · have hit' : ¬ i = t := fun h => hit h.symm
        simp only [hit, hit', if_false, false_or]
    · simp only [hc, if_false, List.mem_cons, Bool.false_eq_true]
      by_cases hit : i = t
      · subst hit
        simp [hc]
      · simp only [hit, false_or]

theorem set_results_range {α : Type} (r : Nat → α) (c : Nat → Bool) (d : α) (n : Nat)
    (hr : ∀ i, c i = false → r i = d) :
    set_results r c (List.range n) (List.replicate n d) = (List.range n).map r := by
  apply List.ext_getElem?
  intro i
  rw [getElem?_set_results, List.getElem?_map, List.getElem?_replicate, List.length_replicate]
  by_cases hi : i < n
  · rw [List.getElem?_range hi]
    by_cases hc : c i = true
    · simp [hi, hc]
    · have hc' : c i = false := by simpa using hc
      simp [hi, hc', hr i hc']
  · have : (List.range n)[i]? = none := List.getElem?_eq_none (by simp; omega)
    simp [hi, this]

theorem flatten_worker_ids (n bpt : Nat) : ∀ k,
    ((List.range k).map (worker_ids n bpt)).flatten = List.range (min (k * bpt) n) := by
  intro k
  induction k with
  | zero => simp
  | succ k ih =>
    rw [List.range_succ, List.map_append, List.flatten_append, ih]
    simp only [List.map_cons, List.map_nil, List.flatten_cons, List.flatten_nil,
      List.append_nil, worker_ids]
    have hk : (k + 1) * bpt = k * bpt + bpt := by ring
    rw [hk]
    by_cases h : k * bpt ≤ n
    · rw [min_eq_left h, List.range_eq_range', List.range_eq_range']
      have happ := List.range'_append_1 0 (k * bpt) (min (k * bpt + bpt) n - k * bpt)
      rw [Nat.zero_add] at happ
      rw [happ]
      congr 1
      omega
    · have h1 : min (k * bpt + bpt) n - k * bpt = 0 := by omega
      rw [h1]
      simp only [List.range'_zero, List.append_nil]
      congr 1
      omega

theorem le_mul_blocks_per_thread (n tc : Nat) (h : 1 ≤ tc) : n ≤ tc * ((n + tc - 1) / tc) := by
  have h1 := Nat.div_add_mod (n + tc - 1) tc
  have h2 := Nat.mod_lt (n + tc - 1) (by omega : tc > 0)
  omega

theorem flatten_worker_ids_all (n tc : Nat) (h : 1 ≤ tc) :
    ((List.range tc).map (worker_ids n ((n + tc - 1) / tc))).flatten = List.range n := by
  rw [flatten_worker_ids]
  congr 1
  have := le_mul_blocks_per_thread n tc h
  omega

theorem map_block_at_range (blocks : List Word) :
    (List.range blocks.length).map (block_at blocks) = blocks := by
  apply List.ext_getElem?
  intro i
  rw [List.getElem?_map]
  by_cases hi : i < blocks.length
  · rw [List.getElem?_range hi]
    simp [block_at, List.getD, List.getElem?_eq_getElem hi]
  · have h1 : (List.range blocks.length)[i]? = none := List.getElem?_eq_none (by simp; omega)
    have h2 : blocks[i]? = none := List.getElem?_eq_none (by omega)
    simp [h1, h2]

theorem run_worker_eq (order : List Nat → List Nat) (blocks : List Word) (bpt t : Nat)
    (wc : wordcount) :
    run_worker order blocks bpt t wc =
      some { wc with
        thread_local_maps :=
          if worker_runs blocks bpt t = true then
            wc.thread_local_maps.set t (worker_map blocks bpt t)
          else wc.thread_local_maps
        thread_local_indexes :=
          if worker_runs blocks bpt t = true then
            wc.thread_local_indexes.set t (worker_index order blocks bpt t)
          else wc.thread_local_indexes } := by
  unfold run_worker
  by_cases h : t * bpt < min (t * bpt + bpt) blocks.length
  · simp only [h, if_true, worker_loop_eq, worker_runs, decide_True]
    rfl
  · simp only [h, if_false, worker_runs, decide_False, Bool.false_eq_true]

theorem run_workers_eq (order : List Nat → List Nat) (blocks : List Word) (bpt : Nat) :
    ∀ (ts : List Nat) (wc : wordcount),
    run_workers order blocks bpt ts wc =
      some { wc with
        thread_local_maps :=
          set_results (worker_map blocks bpt) (worker_runs blocks bpt) ts wc.thread_local_maps
        thread_local_indexes :=
          set_results (worker_index order blocks bpt) (worker_runs blocks bpt) ts
            wc.thread_local_indexes } := by
  intro ts
  induction ts with
  | nil => intro wc; rfl
  | cons t ts ih =>
    intro wc
    rw [run_workers, run_worker_eq]
    simp only [ih]
    rfl

theorem worker_ids_nil (n bpt t : Nat) (h : ¬ t * bpt < min (t * bpt + bpt) n) :
    worker_ids n bpt t = [] := by
  unfold worker_ids
  have : min (t * bpt + bpt) n - t * bpt = 0 := by omega
  rw [this]
  rfl

theorem worker_map_idle (blocks : List Word) (bpt t : Nat)
    (h : worker_runs blocks bpt t = false) : worker_map blocks bpt t = [] := by
  simp only [worker_runs, decide_eq_false_iff_not] at h
  simp only [worker_map, worker_ids_nil _ _ _ h]
  rfl

theorem worker_index_idle (order : List Nat → List Nat) (blocks : List Word) (bpt t : Nat)
    (h : worker_runs blocks bpt t = false) : worker_index order blocks bpt t = [] := by
  simp only [worker_runs, decide_eq_false_iff_not] at h
  simp only [worker_index, worker_ids_nil _ _ _ h]
  rfl

theorem map_const_nil_eq_replicate {α β : Type} (l : List α) :
    l.map (fun _ => ([] : List β)) = List.replicate l.length [] := by
  induction l with
  | nil => rfl
  | cons a l ih => simp [List.replicate_succ, ih]

/-- The state `load_txt` ends in, in closed form. -/
theorem load_txt_eq (order : List Nat → List Nat) (wc : wordcount) (content : List Nat)
    (blocks : List Word)
    (hm : wc.thread_local_maps.length = wc.thread_count)
    (hi : wc.thread_local_indexes.length = wc.thread_count)
    (hs : split_into_blocks wc.block_size content = some blocks) :
    ∃ wc1, load_txt order wc content = some wc1 ∧
      wc1.final_word_counts =
        merge_all (fun a b => int_wrap (a + b)) 0
          ((List.range wc.thread_count).map
            (worker_map blocks ((blocks.length + wc.thread_count - 1) / wc.thread_count))) [] ∧
      wc1.inverted_index =
        (merge_all (fun a b => a ++ b) []
          ((List.range wc.thread_count).map
            (worker_index order blocks
              ((blocks.length + wc.thread_count - 1) / wc.thread_count)))
          []).map (fun e => (e.1, sort e.2)) ∧
      wc1.block_size = wc.block_size ∧ wc1.thread_count = wc.thread_count ∧
      wc1.thread_local_maps =
        (List.range wc.thread_count).map
          (worker_map blocks ((blocks.length + wc.thread_count - 1) / wc.thread_count)) ∧
      wc1.thread_local_indexes =
        (List.range wc.thread_count).map
          (worker_index order blocks
            ((blocks.length + wc.thread_count - 1) / wc.thread_count)) := by
  unfold load_txt
  simp only [clear_word_counts, hs, run_workers_eq, map_const_nil_eq_replicate, hm, hi]
  refine ⟨_, rfl, ?_, ?_, rfl, rfl, ?_, ?_⟩
  · rw [merge_local_indexes, merge_local_maps_eq]
    simp only
    rw [set_results_range _ _ [] _ (worker_map_idle blocks _)]
  · rw [merge_local_indexes_eq]
    simp only [merge_local_maps]
    rw [set_results_range _ _ [] _ (worker_index_idle order blocks _)]
  · simp only [merge_local_indexes, merge_local_maps]
    rw [set_results_range _ _ [] _ (worker_map_idle blocks _)]
  · simp only [merge_local_indexes, merge_local_maps]
    rw [set_results_range _ _ [] _ (worker_index_idle order blocks _)]

theorem worker_tokens_append (blocks : List Word) (a b : List Nat) :
    worker_tokens blocks (a ++ b) = worker_tokens blocks a ++ worker_tokens blocks b := by
  simp [worker_tokens]

theorem worker_tokens_flatten (blocks : List Word) (ls : List (List Nat)) :
    worker_tokens blocks ls.flatten = (ls.map (worker_tokens blocks)).flatten := by
  induction ls with
  | nil => rfl
  | cons l ls ih => simp [worker_tokens_append, ih]

theorem worker_tokens_range (blocks : List Word) :
    worker_tokens blocks (List.range blocks.length) = (blocks.map tokens).flatten := by
  unfold worker_tokens
  have h : (List.range blocks.length).map (fun i => tokens (block_at blocks i)) =
      ((List.range blocks.length).map (block_at blocks)).map tokens := by
    rw [List.map_map]; rfl
  rw [h, map_block_at_range]

theorem int_wrap_op_assoc (a b c : Int) :
    int_wrap (int_wrap (a + b) + c) = int_wrap (a + int_wrap (b + c)) := by
  rw [int_wrap_add_left, int_wrap_add_right, add_assoc]

theorem int_wrap_op_left (a x : Int) : int_wrap (a + int_wrap (0 + x)) = int_wrap (a + x) := by
  rw [int_wrap_add_right, zero_add]

theorem int_wrap_op_right (a x : Int) : int_wrap (a + int_wrap (x + 0)) = int_wrap (a + x) := by
  rw [int_wrap_add_right, add_zero]

theorem int_wrap_op_zero : int_wrap (0 + 0) = 0 := by
  rw [int_wrap_eq]
  omega

theorem find_worker_map (blocks : List Word) (bpt t : Nat) (w : Word) :
    find w (worker_map blocks bpt t) =
      if (worker_tokens blocks (worker_ids blocks.length bpt t)).count w = 0 then none
      else some (int_wrap
        ((worker_tokens blocks (worker_ids blocks.length bpt t)).count w : Nat)) := by
  unfold worker_map
  rw [find_count_tokens]
  simp [find]

theorem sum_worker_counts (blocks : List Word) (tc : Nat) (h : 1 ≤ tc) (w : Word) :
    ((List.range tc).map (fun t => (worker_tokens blocks
        (worker_ids blocks.length ((blocks.length + tc - 1) / tc) t)).count w)).sum =
      occurrences blocks w := by
  unfold occurrences
  rw [← worker_tokens_range, ← flatten_worker_ids_all blocks.length tc h,
    worker_tokens_flatten, List.count_flatten, List.map_map, List.map_map]
  rfl

theorem find_final_word_counts (blocks : List Word) (tc : Nat) (h : 1 ≤ tc) (w : Word) :
    find w (merge_all (fun a b => int_wrap (a + b)) 0
      ((List.range tc).map (worker_map blocks ((blocks.length + tc - 1) / tc))) []) =
      if occurrences blocks w = 0 then none
      else some (int_wrap (occurrences blocks w : Nat)) := by
  rw [find_merge_all (fun a b => int_wrap (a + b)) 0 int_wrap_op_assoc int_wrap_op_left
    int_wrap_op_right int_wrap_op_zero w]
  · have hmap : ((List.range tc).map (worker_map blocks ((blocks.length + tc - 1) / tc))).map
        (fun l => (find w l).getD 0) =
        (((List.range tc).map (fun t => (worker_tokens blocks
          (worker_ids blocks.length ((blocks.length + tc - 1) / tc) t)).count w)).map
            (fun n : Nat => (n : Int))).map int_wrap := by
      rw [List.map_map, List.map_map, List.map_map]
      apply List.map_congr_left
      intro t _
      simp only [Function.comp, find_worker_map]
      split
      · rename_i h0
        rw [h0, Option.getD_none, Nat.cast_zero, int_wrap_zero]
      · rw [Option.getD_some]
    have hall : ((List.range tc).map (worker_map blocks ((blocks.length + tc - 1) / tc))).all
        (fun l => (find w l).isNone) = true ↔ occurrences blocks w = 0 := by
      rw [← sum_worker_counts blocks tc h w, List.sum_eq_zero_iff]
      simp only [List.all_eq_true, List.mem_map, List.mem_range, forall_exists_index, and_imp,
        forall_apply_eq_imp_iff₂, Option.isNone_iff_eq_none, find_worker_map]
      constructor
      · intro hx t ht
        have := hx t ht
        by_contra hne
        simp [hne] at this
      · intro hx t ht
        simp [hx t ht]
    by_cases h0 : occurrences blocks w = 0
    · simp only [hall.2 h0, h0, if_true, find]
    · have : ¬ (((List.range tc).map
          (worker_map blocks ((blocks.length + tc - 1) / tc))).all
          (fun l => (find w l).isNone) = true) := fun hx => h0 (hall.1 hx)
      simp only [this, h0, if_false, find, Option.getD_none, Bool.false_eq_true]
      rw [hmap, zero_add, int_wrap_foldr, int_wrap_sum_map, sum_map_cast,
        sum_worker_counts blocks tc h w]
  · intro l hl
    simp only [List.mem_map] at hl
    obtain ⟨t, _, rfl⟩ := hl
    exact nodup_keys_count_tokens _ _ List.nodup_nil

theorem hits_flatten (blocks : List Word) (w : Word) (ls : List (List Nat)) :
    hits blocks w ls.flatten = (ls.map (hits blocks w)).flatten := by
  unfold hits
  rw [List.filter_flatten]

/-- The ids worker `t` holds for `w`: some rearrangement of the ids of its range whose
blocks have `w` among their tokens; no entry when there is none. -/
theorem find_worker_index (order : List Nat → List Nat) (horder : IsIterationOrder order)
    (blocks : List Word) (bpt t : Nat) (w : Word) :
    ((find w (worker_index order blocks bpt t)).getD []).Perm
        (hits blocks w (worker_ids blocks.length bpt t)) ∧
      (find w (worker_index order blocks bpt t) = none ↔
        hits blocks w (worker_ids blocks.length bpt t) = []) := by
  unfold worker_index
  have hnd : (worker_ids blocks.length bpt t).Nodup := by
    unfold worker_ids
    exact List.nodup_range' _ _
  obtain ⟨l, hl, hfl⟩ := find_index_blocks order horder blocks w _ [] hnd
    (by intro i _; simp [find])
  rw [hfl]
  simp only [find, Option.getD_none, List.nil_append] at hl ⊢
  by_cases h0 : hits blocks w (worker_ids blocks.length bpt t) = []
  · simp only [h0, if_true, Option.getD_none, List.Perm.refl, true_and]
  · simp only [h0, if_false, Option.getD_some, iff_false]
    exact ⟨hl, fun h => by cases h⟩

theorem hits_range_sorted (blocks : List Word) (w : Word) (n : Nat) :
    (hits blocks w (List.range n)).Sorted (fun a b => a < b) := by
  unfold hits
  exact (List.sorted_lt_range n).filter _

/-- Sorting any rearrangement of the hits in `0..n-1` gives them in ascending order. -/
theorem sort_perm_hits_range (blocks : List Word) (w : Word) (n : Nat) (l : List Nat)
    (hl : l.Perm (hits blocks w (List.range n))) :
    sort l = hits blocks w (List.range n) := by
  unfold sort
  apply List.eq_of_perm_of_sorted ((List.perm_insertionSort _ l).trans hl)
    (List.sorted_insertionSort _ l)
  exact (hits_range_sorted blocks w n).imp (fun h => Nat.le_of_lt h)

theorem flatten_worker_hits (blocks : List Word) (tc : Nat) (h : 1 ≤ tc) (w : Word) :
    ((List.range tc).map (fun t => hits blocks w
        (worker_ids blocks.length ((blocks.length + tc - 1) / tc) t))).flatten =
      hits blocks w (List.range blocks.length) := by
  rw [← flatten_worker_ids_all blocks.length tc h, hits_flatten, List.map_map]
  rfl

theorem perm_flatten_map {α : Type} (f g : α → List Nat) : ∀ ts : List α,
    (∀ t ∈ ts, (f t).Perm (g t)) → ((ts.map f).flatten).Perm ((ts.map g).flatten) := by
  intro ts
  induction ts with
  | nil => intro _; exact List.Perm.refl _
  | cons t ts ih =>
    intro h
    simp only [List.map_cons, List.flatten_cons]
    exact (h t (List.mem_cons_self _ _)).append
      (ih (fun u hu => h u (List.mem_cons_of_mem _ hu)))

theorem find_inverted_index (order : List Nat → List Nat) (horder : IsIterationOrder order)
    (blocks : List Word) (tc : Nat) (h : 1 ≤ tc) (w : Word) :
    find w ((merge_all (fun a b => a ++ b) []
      ((List.range tc).map (worker_index order blocks ((blocks.length + tc - 1) / tc)))
        []).map (fun e => (e.1, sort e.2))) =
      if hits blocks w (List.range blocks.length) = [] then none
      else some (hits blocks w (List.range blocks.length)) := by
  rw [find_map_values, find_merge_all (fun a b => a ++ b) []
    (fun a b c => List.append_assoc a b c) (fun _ _ => by simp only [List.nil_append])
    (fun _ _ => by simp only [List.append_nil]) rfl w]
  · have hperm : (((List.range tc).map
          (worker_index order blocks ((blocks.length + tc - 1) / tc))).map
        (fun l => (find w l).getD [])).flatten.Perm
        (hits blocks w (List.range blocks.length)) := by
      rw [← flatten_worker_hits blocks tc h w, List.map_map]
      apply perm_flatten_map
      intro t _
      exact (find_worker_index order horder blocks _ t w).1
    have hall : ((List.range tc).map
          (worker_index order blocks ((blocks.length + tc - 1) / tc))).all
        (fun l => (find w l).isNone) = true ↔ hits blocks w (List.range blocks.length) = [] := by
      rw [← flatten_worker_hits blocks tc h w, List.flatten_eq_nil_iff]
      simp only [List.all_eq_true, List.mem_map, List.mem_range, forall_exists_index, and_imp,
        forall_apply_eq_imp_iff₂, Option.isNone_iff_eq_none]
      constructor
      · intro hx t ht
        exact (find_worker_index order horder blocks _ t w).2.1 (hx t ht)
      · intro hx t ht
        exact (find_worker_index order horder blocks _ t w).2.2 (hx t ht)
    rw [foldr_append_eq_flatten]
    by_cases h0 : hits blocks w (List.range blocks.length) = []
    · simp only [hall.2 h0, h0, if_true, find, Option.map_none']
    · have : ¬ (((List.range tc).map
          (worker_index order blocks ((blocks.length + tc - 1) / tc))).all
          (fun l => (find w l).isNone) = true) := fun hx => h0 (hall.1 hx)
      simp only [this, h0, if_false, find, Option.getD_none, List.nil_append,
        Bool.false_eq_true, Option.map_some', sort_perm_hits_range blocks w _ _ hperm]
  · intro l hl
    simp only [List.mem_map] at hl
    obtain ⟨t, _, rfl⟩ := hl
    exact nodup_keys_index_blocks order _ _ _ List.nodup_nil

/-! ## Lemmas: block boundaries -/

theorem drop_eq_byte_at_cons (c : List Nat) (i : Nat) (h : i < c.length) :
    c.drop i = byte_at c i :: c.drop (i + 1) := by
  rw [List.drop_eq_getElem_cons h]
  simp [byte_at, List.getD, List.getElem?_eq_getElem h]

theorem isalpha_of_isspace (x : Nat) (h : isspace x = true) : isalpha x = false := by
  simp only [isspace, Bool.or_eq_true, beq_iff_eq, Bool.and_eq_true, decide_eq_true_eq] at h
  simp only [isalpha, Bool.or_eq_false_iff, Bool.and_eq_false_iff, decide_eq_false_iff_not]
  omega

theorem drop_length_takeWhile (p : Nat → Bool) (l : List Nat) :
    l.drop (l.takeWhile p).length = l.dropWhile p := by
  induction l with
  | nil => rfl
  | cons x l ih =>
    by_cases hx : p x = true
    · simp [List.takeWhile_cons, List.dropWhile_cons, hx, ih]
    · simp [List.takeWhile_cons, List.dropWhile_cons, hx]

theorem drop_skip_space (c : List Nat) (e : Nat) :
    c.drop (skip_space c e) = (c.drop e).dropWhile isspace := by
  unfold skip_space
  rw [← List.drop_drop, drop_length_takeWhile]

theorem drop_eq_gap_append (c : List Nat) (e : Nat) :
    c.drop e = (c.drop e).takeWhile isspace ++ c.drop (skip_space c e) := by
  rw [drop_skip_space, List.takeWhile_append_dropWhile]

theorem skip_space_le (c : List Nat) (e : Nat) (h : e ≤ c.length) :
    skip_space c e ≤ c.length := by
  unfold skip_space
  have h1 := (List.takeWhile_sublist (l := c.drop e) isspace).length_le
  simp only [List.length_drop] at h1
  omega

theorem skip_space_stops (c : List Nat) (e : Nat) (h : skip_space c e < c.length) :
    isspace (byte_at c (skip_space c e)) = false := by
  have h1 := drop_eq_byte_at_cons c _ h
  rw [drop_skip_space] at h1
  have h2 := List.head_dropWhile_not isspace (c.drop e) (by rw [h1]; simp)
  simp only [h1, List.head_cons] at h2
  exact h2

theorem skip_space_gt (c : List Nat) (e : Nat) (h : e < c.length)
    (hs : isspace (byte_at c e) = true) : e < skip_space c e := by
  unfold skip_space
  rw [drop_eq_byte_at_cons c e h, List.takeWhile_cons, if_pos hs]
  simp

theorem gap_ne_nil (c : List Nat) (e : Nat) (h : e < c.length)
    (hs : isspace (byte_at c e) = true) : (c.drop e).takeWhile isspace ≠ [] := by
  rw [drop_eq_byte_at_cons c e h, List.takeWhile_cons, if_pos hs]
  simp

theorem gap_all_space (c : List Nat) (e : Nat) :
    ∀ x ∈ (c.drop e).takeWhile isspace, isspace x = true :=
  fun _ hx => List.mem_takeWhile_imp hx

theorem split_step (c : List Nat) (s e : Nat) (h1 : s ≤ e) :
    c.drop s = (c.drop s).take (e - s) ++
      ((c.drop e).takeWhile isspace ++ c.drop (skip_space c e)) := by
  rw [← drop_eq_gap_append]
  have h2 : c.drop e = (c.drop s).drop (e - s) := by
    rw [List.drop_drop]
    congr 1
    omega
  rw [h2, List.take_append_drop]

theorem walk_back_space (c : List Nat) (s : Nat) : ∀ e, s ≤ e →
    walk_back c s e = s ∨ (s < walk_back c s e ∧ isspace (byte_at c (walk_back c s e)) = true) := by
  intro e
  induction e with
  | zero =>
    intro h
    left
    simp only [walk_back]
    omega
  | succ e ih =>
    intro h
    unfold walk_back
    split
    · rename_i hc
      exact ih (by omega)
    · rename_i hc
      by_cases hse : e + 1 > s
      · right
        simp only [hse, true_and, Bool.not_eq_true', Bool.not_eq_false] at hc
        exact ⟨hse, hc⟩
      · left
        omega

theorem walk_back_finds (c : List Nat) (s : Nat) : ∀ e j, s < j → j ≤ e →
    isspace (byte_at c j) = true → s < walk_back c s e := by
  intro e
  induction e with
  | zero => intro j h1 h2 _; omega
  | succ e ih =>
    intro j h1 h2 hj
    unfold walk_back
    split
    · rename_i hc
      by_cases hje : j = e + 1
      · subst hje
        simp [hj] at hc
      · exact ih j h1 (by omega) hj
    · rename_i hc
      by_cases hse : e + 1 > s
      · exact hse
      · omega

theorem longest_run_from_ge_cur (l : List Nat) : ∀ cur, cur ≤ longest_run_from cur l := by
  induction l with
  | nil => intro cur; simp [longest_run_from]
  | cons x l ih =>
    intro cur
    unfold longest_run_from
    split
    · exact le_max_left _ _
    · exact le_trans (by omega) (ih (cur + 1))

theorem longest_run_from_leading (l : List Nat) : ∀ cur n,
    (∀ j, j < n → j < l.length ∧ isspace (byte_at l j) = false) →
    cur + n ≤ longest_run_from cur l := by
  induction l with
  | nil =>
    intro cur n h
    cases n with
    | zero => simp [longest_run_from]
    | succ n => have := (h 0 (by omega)).1; simp at this
  | cons x l ih =>
    intro cur n h
    cases n with
    | zero => exact longest_run_from_ge_cur _ _
    | succ n =>
      have h0 := (h 0 (by omega)).2
      have hx : isspace x = false := by simpa [byte_at] using h0
      unfold longest_run_from
      rw [if_neg (by simp [hx])]
      have := ih (cur + 1) n (by
        intro j hj
        have := h (j + 1) (by omega)
        refine ⟨by simpa using this.1, ?_⟩
        simpa [byte_at] using this.2)
      omega

theorem longest_run_from_window (l : List Nat) : ∀ cur i n,
    (∀ j, i ≤ j → j < i + n → j < l.length ∧ isspace (byte_at l j) = false) →
    n ≤ longest_run_from cur l := by
  induction l with
  | nil =>
    intro cur i n h
    cases n with
    | zero => omega
    | succ n => have := (h i (le_refl _) (by omega)).1; simp at this
  | cons x l ih =>
    intro cur i n h
    cases i with
    | zero =>
      have := longest_run_from_leading (x :: l) cur n (by
        intro j hj
        exact h j (by omega) (by omega))
      omega
    | succ i =>
      have hrest : ∀ cur1, n ≤ longest_run_from cur1 l := by
        intro cur1
        apply ih cur1 i n
        intro j h1 h2
        have := h (j + 1) (by omega) (by omega)
        refine ⟨by simpa using this.1, ?_⟩
        simpa [byte_at] using this.2
      unfold longest_run_from
      split
      · exact le_trans (hrest 0) (le_max_right _ _)
      · exact hrest _

theorem exists_space_in_window (c : List Nat) (bs i : Nat) (h : longest_run c ≤ bs)
    (hi : i + bs < c.length) : ∃ j, i ≤ j ∧ j ≤ i + bs ∧ isspace (byte_at c j) = true := by
  by_contra hne
  push_neg at hne
  have := longest_run_from_window c 0 i (bs + 1) (by
    intro j h1 h2
    refine ⟨by omega, ?_⟩
    have := hne j h1 (by omega)
    simpa using this)
  unfold longest_run at h
  omega

theorem block_end_cases (c : List Nat) (bs s : Nat) (hrun : longest_run c ≤ bs)
    (hs : s < c.length) (h0 : isspace (byte_at c s) = false) :
    block_end c bs s = c.length ∨
      (s < block_end c bs s ∧ block_end c bs s < c.length ∧
        isspace (byte_at c (block_end c bs s)) = true) := by
  unfold block_end
  simp only
  by_cases he : min (s + bs) c.length < c.length
  · right
    simp only [he, if_true]
    have he0 : min (s + bs) c.length = s + bs := by omega
    obtain ⟨j, hj1, hj2, hj3⟩ := exists_space_in_window c bs s hrun (by omega)
    have hjs : s < j := by
      rcases Nat.lt_or_ge s j with h | h
      · exact h
      · have : j = s := by omega
        subst this
        rw [h0] at hj3
        cases hj3
    have hfound := walk_back_finds c s (min (s + bs) c.length) j hjs (by omega) hj3
    have hle := walk_back_le c s (min (s + bs) c.length)
    rcases walk_back_space c s (min (s + bs) c.length) (by omega) with h | ⟨h1, h2⟩
    · omega
    · have hne : ¬ walk_back c s (min (s + bs) c.length) = s := by omega
      simp only [hne, if_false]
      exact ⟨h1, by omega, h2⟩
  · left
    simp only [he, if_false]
    omega

theorem tokens_drop_not_alpha : ∀ (g l : List Nat), (∀ x ∈ g, isalpha x = false) →
    tokens (g ++ l) = tokens l := by
  intro g
  induction g with
  | nil => intro l _; rfl
  | cons x g ih =>
    intro l h
    rw [List.cons_append, tokens_cons_not_alpha _ _ (h x (List.mem_cons_self _ _))]
    exact ih l (fun y hy => h y (List.mem_cons_of_mem _ hy))

theorem takeWhile_append_stop (p : Nat → Bool) (a : List Nat) (x : Nat) (b : List Nat)
    (hx : p x = false) : (a ++ x :: b).takeWhile p = a.takeWhile p := by
  induction a with
  | nil => simp [List.takeWhile_cons, hx]
  | cons y a ih =>
    by_cases hy : p y = true
    · simp [List.takeWhile_cons, hy, ih]
    · simp [List.takeWhile_cons, hy]

theorem dropWhile_append_stop (p : Nat → Bool) (a : List Nat) (x : Nat) (b : List Nat)
    (hx : p x = false) : (a ++ x :: b).dropWhile p = a.dropWhile p ++ x :: b := by
  induction a with
  | nil => simp [List.dropWhile_cons, hx]
  | cons y a ih =>
    by_cases hy : p y = true
    · simp [List.dropWhile_cons, hy, ih]
    · simp [List.dropWhile_cons, hy]

theorem tokens_append_separator (x : Nat) (hx : isalpha x = false) (b : List Nat) :
    ∀ (n : Nat) (a : List Nat), a.length ≤ n → tokens (a ++ x :: b) = tokens a ++ tokens b := by
  intro n
  induction n with
  | zero =>
    intro a h
    have : a = [] := List.length_eq_zero.1 (by omega)
    subst this
    rw [List.nil_append, tokens_cons_not_alpha _ _ hx, tokens_nil, List.nil_append]
  | succ n ih =>
    intro a h
    cases a with
    | nil => rw [List.nil_append, tokens_cons_not_alpha _ _ hx, tokens_nil, List.nil_append]
    | cons y a =>
      simp only [List.length_cons] at h
      by_cases hy : isalpha y = true
      · rw [List.cons_append, tokens_cons_alpha _ _ hy, tokens_cons_alpha _ _ hy,
          takeWhile_append_stop _ _ _ _ hx, dropWhile_append_stop _ _ _ _ hx]
        have hlen := (List.dropWhile_sublist (l := a) isalpha).length_le
        rw [ih _ (by omega)]
        rfl
      · have hy' : isalpha y = false := by simpa using hy
        rw [List.cons_append, tokens_cons_not_alpha _ _ hy', tokens_cons_not_alpha _ _ hy']
        exact ih a (by omega)

theorem tokens_append_gap (a g b : List Nat) (hg : g ≠ [])
    (hall : ∀ x ∈ g, isspace x = true) : tokens (a ++ (g ++ b)) = tokens a ++ tokens b := by
  cases g with
  | nil => exact absurd rfl hg
  | cons x g =>
    have hx := isalpha_of_isspace x (hall x (List.mem_cons_self _ _))
    rw [List.cons_append, tokens_append_separator x hx _ _ a (le_refl _),
      tokens_drop_not_alpha g b
        (fun y hy => isalpha_of_isspace y (hall y (List.mem_cons_of_mem _ hy)))]

theorem split_loop_tokens (c : List Nat) (bs : Nat) (hrun : longest_run c ≤ bs) :
    ∀ (fuel s : Nat) (blocks : List Word),
    (s < c.length → isspace (byte_at c s) = false) →
    split_loop c bs fuel s = some blocks →
    (blocks.map tokens).flatten = tokens (c.drop s) := by
  intro fuel
  induction fuel with
  | zero =>
    intro s blocks _ h
    simp only [split_loop] at h
    split at h
    · cases h
    · rename_i hs
      cases h
      rw [List.drop_eq_nil_of_le (by omega)]
      rfl
  | succ fuel ih =>
    intro s blocks h0 h
    rw [split_loop] at h
    split at h
    · rename_i hs
      simp only at h
      split at h
      · cases h
      · rename_i rest hrest
        cases h
        have hge : s ≤ block_end c bs s := by
          unfold block_end
          have := walk_back_ge c s (min (s + bs) c.length) (by omega)
          simp only
          split
          · split <;> omega
          · omega
        have hstep := split_step c s (block_end c bs s) hge
        have hih := ih (skip_space c (block_end c bs s)) rest
          (skip_space_stops c _) hrest
        simp only [List.map_cons, List.flatten_cons, hih]
        rcases block_end_cases c bs s hrun hs (h0 hs) with he | ⟨_, he2, he3⟩
        · have h1 : c.drop (skip_space c (block_end c bs s)) = [] := by
            apply List.drop_eq_nil_of_le
            have := skip_space_ge c (block_end c bs s)
            omega
          have h2 : (c.drop s).take (block_end c bs s - s) = c.drop s := by
            apply List.take_of_length_le
            simp only [List.length_drop]
            omega
          rw [h1, h2, tokens_nil, List.append_nil]
        · conv_rhs => rw [hstep]
          rw [tokens_append_gap _ _ _ (gap_ne_nil c _ he2 he3) (gap_all_space c _)]
    · rename_i hs
      cases h
      rw [List.drop_eq_nil_of_le (by omega)]
      rfl

theorem block_end_ge (c : List Nat) (bs s : Nat) (hs : s < c.length) :
    s ≤ block_end c bs s := by
  unfold block_end
  have := walk_back_ge c s (min (s + bs) c.length) (by omega)
  simp only
  split
  · split <;> omega
  · omega

theorem collapse_from_congr (a : List Nat) (y1 y2 : List Nat)
    (h : ∀ st, collapse_from st y1 = collapse_from st y2) :
    ∀ st, collapse_from st (a ++ y1) = collapse_from st (a ++ y2) := by
  induction a with
  | nil => exact h
  | cons x a ih =>
    intro st
    rw [List.cons_append, List.cons_append]
    simp only [collapse_from, ih]

theorem collapse_from_gap (g r : List Nat) (hg : g ≠ []) (hall : ∀ x ∈ g, isspace x = true) :
    ∀ st, collapse_from st (g ++ r) = collapse_from st (32 :: r) := by
  induction g with
  | nil => exact absurd rfl hg
  | cons x g ih =>
    intro st
    have hx := hall x (List.mem_cons_self _ _)
    have h32 : isspace 32 = true := by decide
    rw [List.cons_append]
    by_cases hgn : g = []
    · subst hgn
      rw [List.nil_append]
      simp only [collapse_from, hx, h32, if_true]
    · have hrec := ih hgn (fun y hy => hall y (List.mem_cons_of_mem _ hy)) true
      simp only [collapse_from, hx, h32, if_true] at hrec ⊢
      rw [hrec]

theorem join_blocks_cons_cons (sep : Nat) (b b1 : Word) (rest : List Word) :
    join_blocks sep (b :: b1 :: rest) = b ++ sep :: join_blocks sep (b1 :: rest) := rfl

theorem split_loop_ne_nil (c : List Nat) (bs : Nat) (fuel s : Nat) (blocks : List Word)
    (hs : s < c.length) (h : split_loop c bs fuel s = some blocks) : blocks ≠ [] := by
  cases fuel with
  | zero => simp [split_loop, hs] at h
  | succ fuel =>
    rw [split_loop] at h
    simp only [hs, if_true] at h
    split at h
    · cases h
    · cases h; simp

theorem split_loop_at_end (c : List Nat) (bs : Nat) (fuel s : Nat) (blocks : List Word)
    (hs : c.length ≤ s) (h : split_loop c bs fuel s = some blocks) : blocks = [] := by
  have hs' : ¬ s < c.length := by omega
  cases fuel with
  | zero => simp [split_loop, hs'] at h; exact h
  | succ fuel =>
    rw [split_loop] at h
    simp only [hs', if_false] at h
    cases h; rfl

theorem gap_reaches_end (c : List Nat) (e : Nat) (he : e < c.length)
    (hend : c.length ≤ skip_space c e) :
    ∃ x, c.getLast? = some x ∧ isspace x = true := by
  have h1 : c.drop e = (c.drop e).takeWhile isspace := by
    have := drop_eq_gap_append c e
    rw [List.drop_eq_nil_of_le hend, List.append_nil] at this
    exact this
  have hne : c.drop e ≠ [] := by
    rw [drop_eq_byte_at_cons c e he]; simp
  have hlast : (c.drop e).getLast? = c.getLast? := by
    rw [List.getLast?_drop, if_neg (by omega)]
  have hmem := List.getLast_mem hne
  refine ⟨(c.drop e).getLast hne, ?_, ?_⟩
  · rw [← hlast, List.getLast?_eq_getLast _ hne]
  · have hall : ∀ y ∈ c.drop e, isspace y = true := by
      intro y hy
      rw [h1] at hy
      exact List.mem_takeWhile_imp hy
    exact hall _ hmem

theorem split_loop_collapse (c : List Nat) (bs : Nat) (hrun : longest_run c ≤ bs)
    (hlast : ∀ x, c.getLast? = some x → isspace x = false) (sep : Nat)
    (hsep : isspace sep = true) :
    ∀ (fuel s : Nat) (blocks : List Word),
    (s < c.length → isspace (byte_at c s) = false) →
    split_loop c bs fuel s = some blocks →
    ∀ st, collapse_from st (join_blocks sep blocks) = collapse_from st (c.drop s) := by
  intro fuel
  induction fuel with
  | zero =>
    intro s blocks _ h st
    simp only [split_loop] at h
    split at h
    · cases h
    · rename_i hs
      cases h
      rw [List.drop_eq_nil_of_le (by omega)]
      rfl
  | succ fuel ih =>
    intro s blocks h0 h st
    rw [split_loop] at h
    split at h
    · rename_i hs
      simp only at h
      split at h
      · cases h
      · rename_i rest hrest
        cases h
        have hge := block_end_ge c bs s hs
        have hstep := split_step c s (block_end c bs s) hge
        have hih := ih (skip_space c (block_end c bs s)) rest (skip_space_stops c _) hrest
        rcases block_end_cases c bs s hrun hs (h0 hs) with he | ⟨_, he2, he3⟩
        · have hskip := skip_space_ge c (block_end c bs s)
          have hrest_nil := split_loop_at_end c bs fuel _ rest (by omega) hrest
          subst hrest_nil
          have h2 : (c.drop s).take (block_end c bs s - s) = c.drop s := by
            apply List.take_of_length_le
            simp only [List.length_drop]
            omega
          rw [h2]
          rfl
        · have hlt : skip_space c (block_end c bs s) < c.length := by
            by_contra hcon
            obtain ⟨x, hx1, hx2⟩ := gap_reaches_end c _ he2 (by omega)
            rw [hlast x hx1] at hx2
            cases hx2
          have hne := split_loop_ne_nil c bs fuel _ rest hlt hrest
          cases rest with
          | nil => exact absurd rfl hne
          | cons b1 rest1 =>
            rw [join_blocks_cons_cons]
            conv_rhs => rw [hstep]
            apply collapse_from_congr
            intro st1
            rw [collapse_from_gap _ _ (gap_ne_nil c _ he2 he3) (gap_all_space c _)]
            have h32 : isspace 32 = true := by decide
            simp only [collapse_from, hih, hsep, h32, if_true]
    · rename_i hs
      cases h
      rw [List.drop_eq_nil_of_le (by omega)]
      rfl

theorem split_loop_keeps_bytes (c : List Nat) (bs : Nat) :
    ∀ (fuel s : Nat) (blocks : List Word),
    split_loop c bs fuel s = some blocks →
    blocks.flatten.filter (fun x => !isspace x) = (c.drop s).filter (fun x => !isspace x) := by
  intro fuel
  induction fuel with
  | zero =>
    intro s blocks h
    simp only [split_loop] at h
    split at h
    · cases h
    · rename_i hs
      cases h
      rw [List.drop_eq_nil_of_le (by omega)]
      rfl
  | succ fuel ih =>
    intro s blocks h
    rw [split_loop] at h
    split at h
    · rename_i hs
      simp only at h
      split at h
      · cases h
      · rename_i rest hrest
        cases h
        have hge := block_end_ge c bs s hs
        have hstep := split_step c s (block_end c bs s) hge
        have hih := ih (skip_space c (block_end c bs s)) rest hrest
        have hgap : ((c.drop (block_end c bs s)).takeWhile isspace).filter
            (fun x => !isspace x) = [] := by
          rw [List.filter_eq_nil_iff]
          intro x hx
          simp [gap_all_space c _ x hx]
        conv_rhs => rw [hstep]
        simp only [List.flatten_cons, List.filter_append, hih, hgap, List.nil_append]
    · rename_i hs
      cases h
      rw [List.drop_eq_nil_of_le (by omega)]
      rfl

/-! ## Lemmas: totals, the constructor and the whole pipeline -/

theorem get_total_word_count_eq (wc : wordcount) :
    get_total_word_count wc =
      ((wc.final_word_counts.map Prod.snd).sum % 18446744073709551616).toNat := by
  unfold get_total_word_count
  generalize wc.final_word_counts = m
  have h : ∀ (l : List (Word × Int)) (a : Nat), a < 18446744073709551616 →
      l.foldl (fun total pair => size_t_add_int total pair.2) a =
        (((a : Int) + (l.map Prod.snd).sum) % 18446744073709551616).toNat := by
    intro l
    induction l with
    | nil =>
      intro a ha
      simp only [List.foldl_nil, List.map_nil, List.sum_nil]
      omega
    | cons e l ih =>
      intro a ha
      have hlt : size_t_add_int a e.2 < 18446744073709551616 := by
        unfold size_t_add_int
        omega
      rw [List.foldl_cons, ih _ hlt]
      simp only [List.map_cons, List.sum_cons]
      unfold size_t_add_int
      generalize (l.map Prod.snd).sum = r
      omega
  rw [h m 0 (by omega)]
  simp

theorem sum_indicator_of_not_mem (t : Word) : ∀ keys : List Word, t ∉ keys →
    (keys.map (fun k => if t = k then 1 else 0)).sum = 0 := by
  intro keys
  induction keys with
  | nil => intro _; rfl
  | cons k ks ih =>
    intro h
    simp only [List.mem_cons, not_or] at h
    simp only [List.map_cons, List.sum_cons, h.1, if_false, ih h.2]

theorem sum_indicator_of_mem (t : Word) : ∀ keys : List Word, keys.Nodup → t ∈ keys →
    (keys.map (fun k => if t = k then 1 else 0)).sum = 1 := by
  intro keys
  induction keys with
  | nil => intro _ h; cases h
  | cons k ks ih =>
    intro hnd h
    simp only [List.nodup_cons] at hnd
    by_cases hk : t = k
    · subst hk
      simp only [List.map_cons, List.sum_cons, if_true, sum_indicator_of_not_mem t ks hnd.1]
    · have hmem : t ∈ ks := by
        rcases List.mem_cons.1 h with h1 | h1
        · exact absurd h1 hk
        · exact h1
      simp only [List.map_cons, List.sum_cons, hk, if_false, ih hnd.2 hmem]

theorem sum_counts_of_keys (keys : List Word) (hnd : keys.Nodup) : ∀ ws : List Word,
    (∀ t ∈ ws, t ∈ keys) → (keys.map (fun k => ws.count k)).sum = ws.length := by
  intro ws
  induction ws with
  | nil =>
    intro _
    simp
  | cons t ws ih =>
    intro h
    have h1 : (keys.map (fun k => (t :: ws).count k)) =
        keys.map (fun k => ws.count k + if t = k then 1 else 0) := by
      apply List.map_congr_left
      intro k _
      rw [List.count_cons]
      simp only [beq_iff_eq]
    rw [h1, List.sum_map_add, ih (fun u hu => h u (List.mem_cons_of_mem _ hu)),
      sum_indicator_of_mem t keys hnd (h t (List.mem_cons_self _ _))]
    rfl

theorem find_of_mem {V : Type} (m : List (Word × V)) (hnd : (m.map Prod.fst).Nodup)
    (e : Word × V) (he : e ∈ m) : find e.1 m = some e.2 := by
  induction m with
  | nil => cases he
  | cons x m ih =>
    obtain ⟨k, v⟩ := x
    simp only [List.map_cons, List.nodup_cons] at hnd
    rcases List.mem_cons.1 he with rfl | he
    · simp [find]
    · have hk : ¬ k = e.1 := by
        intro hk
        apply hnd.1
        rw [hk]
        exact List.mem_map_of_mem Prod.fst he
      simp only [find, hk, if_false]
      exact ih hnd.2 he

/-- The values of a table whose look-ups are the wrapped numbers of occurrences in `ws`
add up to the length of `ws` when no word occurs `2^31` times. -/
theorem sum_values_of_table (m : List (Word × Int)) (ws : List Word)
    (hnd : (m.map Prod.fst).Nodup)
    (hfind : ∀ w, find w m =
      if ws.count w = 0 then none else some (int_wrap (ws.count w : Nat)))
    (hbound : ∀ w, ws.count w < 2147483648) :
    (m.map Prod.snd).sum = (ws.length : Nat) := by
  have hvals : m.map Prod.snd = ((m.map Prod.fst).map (fun k => ws.count k)).map
      (fun n : Nat => (n : Int)) := by
    rw [List.map_map, List.map_map]
    apply List.map_congr_left
    intro e he
    have h1 := find_of_mem m hnd e he
    rw [hfind e.1] at h1
    split at h1
    · cases h1
    · simp only [Option.some.injEq] at h1
      rw [int_wrap_of_lt _ (hbound e.1)] at h1
      simp only [Function.comp, h1]
  have hmem : ∀ k ∈ ws, k ∈ m.map Prod.fst := by
    intro k hk
    by_contra hnot
    have h1 := (find_eq_none_iff k m).2 hnot
    rw [hfind k] at h1
    have hc : ¬ ws.count k = 0 := fun hc => (List.count_eq_zero.1 hc) hk
    rw [if_neg hc] at h1
    cases h1
  rw [hvals, sum_map_cast, sum_counts_of_keys _ hnd ws hmem]

theorem new_thread_count (n bs : Nat) :
    (wordcount.new n bs).thread_count = 1 ∨ (wordcount.new n bs).thread_count = 2 ∨
      (wordcount.new n bs).thread_count = 8 := by
  unfold wordcount.new
  simp only
  split
  · left; rfl
  · rename_i h
    omega

theorem new_invariant (n bs : Nat) :
    (wordcount.new n bs).thread_local_maps.length = (wordcount.new n bs).thread_count ∧
    (wordcount.new n bs).thread_local_indexes.length = (wordcount.new n bs).thread_count ∧
    1 ≤ (wordcount.new n bs).thread_count ∧ (wordcount.new n bs).block_size = bs := by
  have h := new_thread_count n bs
  refine ⟨by simp [wordcount.new], by simp [wordcount.new], by omega, rfl⟩

theorem split_into_blocks_total (bs : Nat) (c : List Nat) (h : 1 ≤ bs) :
    ∃ blocks, split_into_blocks bs c = some blocks := by
  unfold split_into_blocks
  split
  · exact ⟨_, rfl⟩
  · exact split_loop_total c bs h _ _ (by omega)

theorem nodup_keys_merge_entries {V : Type} (op : V → V → V) (d : V) :
    ∀ (l acc : List (Word × V)), (acc.map Prod.fst).Nodup →
      ((merge_entries op d l acc).map Prod.fst).Nodup := by
  intro l
  induction l with
  | nil => intro acc h; exact h
  | cons e l ih => intro acc h; exact ih _ (nodup_keys_modify _ _ _ _ h)

theorem nodup_keys_merge_all {V : Type} (op : V → V → V) (d : V) :
    ∀ (ls : List (List (Word × V))) (acc : List (Word × V)), (acc.map Prod.fst).Nodup →
      ((merge_all op d ls acc).map Prod.fst).Nodup := by
  intro ls
  induction ls with
  | nil => intro acc h; exact h
  | cons l ls ih => intro acc h; exact ih _ (nodup_keys_merge_entries op d l acc h)

theorem load_txt_none (order : List Nat → List Nat) (wc : wordcount) (content : List Nat)
    (hs : split_into_blocks wc.block_size content = none) :
    load_txt order wc content = none := by
  unfold load_txt
  simp only [clear_word_counts, hs]

theorem load_txt_results (order : List Nat → List Nat) (horder : IsIterationOrder order)
    (wc : wordcount) (content : List Nat)
    (hm : wc.thread_local_maps.length = wc.thread_count)
    (hi : wc.thread_local_indexes.length = wc.thread_count)
    (htc : 1 ≤ wc.thread_count) :
    (load_txt order wc content).map results =
      (split_into_blocks wc.block_size content).map block_results := by
  cases hs : split_into_blocks wc.block_size content with
  | none => rw [load_txt_none order wc content hs]; rfl
  | some blocks =>
    obtain ⟨wc1, hload, hf, hx, _⟩ := load_txt_eq order wc content blocks hm hi hs
    rw [hload]
    simp only [Option.map_some', Option.some.injEq]
    funext w
    simp only [results, block_results, hf, hx, find_final_word_counts blocks _ htc w,
      find_inverted_index order horder blocks _ htc w]

theorem load_txt_new_results (order : List Nat → List Nat) (horder : IsIterationOrder order)
    (n bs : Nat) (content : List Nat) :
    (load_txt order (wordcount.new n bs) content).map results =
      (split_into_blocks bs content).map block_results := by
  obtain ⟨h1, h2, h3, h4⟩ := new_invariant n bs
  rw [load_txt_results order horder _ content h1 h2 h3, h4]

theorem load_txt_new_some (order : List Nat → List Nat) (horder : IsIterationOrder order)
    (n bs : Nat) (content : List Nat) (blocks : List Word)
    (hs : split_into_blocks bs content = some blocks) :
    ∃ wc1, load_txt order (wordcount.new n bs) content = some wc1 ∧
      (∀ w, find w wc1.final_word_counts =
        if occurrences blocks w = 0 then none
        else some (int_wrap (occurrences blocks w : Nat))) ∧
      (∀ w, find w wc1.inverted_index =
        if hits blocks w (List.range blocks.length) = [] then none
        else some (hits blocks w (List.range blocks.length))) ∧
      (wc1.inverted_index.map Prod.fst).Nodup ∧
      (wc1.final_word_counts.map Prod.fst).Nodup ∧
      ((∀ w, occurrences blocks w < 2147483648) →
        get_total_word_count wc1 =
          ((blocks.map tokens).flatten).length % 18446744073709551616) := by
  obtain ⟨h1, h2, h3, h4⟩ := new_invariant n bs
  obtain ⟨wc1, hload, hf, hx, _⟩ := load_txt_eq order (wordcount.new n bs) content blocks h1 h2
    (by rw [h4]; exact hs)
  have hfind : ∀ w, find w wc1.final_word_counts =
      if occurrences blocks w = 0 then none
      else some (int_wrap (occurrences blocks w : Nat)) := by
    intro w; rw [hf, find_final_word_counts blocks _ h3 w]
  have hnd : (wc1.final_word_counts.map Prod.fst).Nodup := by
    rw [hf]
    exact nodup_keys_merge_all _ _ _ _ List.nodup_nil
  refine ⟨wc1, hload, hfind, ?_, ?_, hnd, ?_⟩
  · intro w; rw [hx, find_inverted_index order horder blocks _ h3 w]
  · rw [hx, List.map_map]
    exact nodup_keys_merge_all _ _ _ _ List.nodup_nil
  · intro hbound
    rw [get_total_word_count_eq,
      sum_values_of_table wc1.final_word_counts ((blocks.map tokens).flatten) hnd hfind hbound]
    omega

/-- The frequency table after `load_txt` on a fresh object; it does not depend on the
order in which the sets of ids are iterated. -/
theorem load_txt_new_counts (order : List Nat → List Nat) (n bs : Nat) (content : List Nat)
    (blocks : List Word) (hs : split_into_blocks bs content = some blocks) :
    ∃ wc1, load_txt order (wordcount.new n bs) content = some wc1 ∧
      (∀ w, find w wc1.final_word_counts =
        if occurrences blocks w = 0 then none
        else some (int_wrap (occurrences blocks w : Nat))) ∧
      (wc1.final_word_counts.map Prod.fst).Nodup ∧
      ((∀ w, occurrences blocks w < 2147483648) →
        get_total_word_count wc1 =
          ((blocks.map tokens).flatten).length % 18446744073709551616) := by
  obtain ⟨h1, h2, h3, h4⟩ := new_invariant n bs
  obtain ⟨wc1, hload, hf, _⟩ := load_txt_eq order (wordcount.new n bs) content blocks h1 h2
    (by rw [h4]; exact hs)
  have hfind : ∀ w, find w wc1.final_word_counts =
      if occurrences blocks w = 0 then none
      else some (int_wrap (occurrences blocks w : Nat)) := by
    intro w; rw [hf, find_final_word_counts blocks _ h3 w]
  have hnd : (wc1.final_word_counts.map Prod.fst).Nodup := by
    rw [hf]
    exact nodup_keys_merge_all _ _ _ _ List.nodup_nil
  refine ⟨wc1, hload, hfind, hnd, ?_⟩
  intro hbound
  rw [get_total_word_count_eq,
    sum_values_of_table wc1.final_word_counts ((blocks.map tokens).flatten) hnd hfind hbound]
  omega

theorem head_not_space (c : List Nat) (h : starts_with_space c = false) :
    0 < c.length → isspace (byte_at c 0) = false := by
  intro hlen
  cases c with
  | nil => simp at hlen
  | cons x c => exact h

theorem last_not_space (c : List Nat) (h : ends_with_space c = false) :
    ∀ x, c.getLast? = some x → isspace x = false := by
  intro x hx
  unfold ends_with_space at h
  rw [hx] at h
  exact h

theorem split_into_blocks_tokens (bs : Nat) (c : List Nat) (blocks : List Word)
    (hcut : CutsOnWhitespace bs c) (hs : split_into_blocks bs c = some blocks) :
    (blocks.map tokens).flatten = tokens c := by
  unfold split_into_blocks at hs
  by_cases hlen : c.length ≤ bs
  · simp only [hlen, if_true, Option.some.injEq] at hs
    subst hs
    simp
  · simp only [hlen, if_false] at hs
    rcases hcut with h | ⟨hrun, hhead⟩
    · exact absurd h hlen
    · exact split_loop_tokens c bs hrun _ 0 blocks (head_not_space c hhead) hs

theorem split_into_blocks_collapse (bs : Nat) (c : List Nat) (blocks : List Word)
    (hcut : CutsOnWhitespace bs c)
    (hlast : c.length ≤ bs ∨ ends_with_space c = false)
    (sep : Nat) (hsep : isspace sep = true)
    (hs : split_into_blocks bs c = some blocks) :
    collapse (join_blocks sep blocks) = collapse c := by
  unfold split_into_blocks at hs
  by_cases hlen : c.length ≤ bs
  · simp only [hlen, if_true, Option.some.injEq] at hs
    subst hs
    rfl
  · simp only [hlen, if_false] at hs
    rcases hcut with h | ⟨hrun, hhead⟩
    · exact absurd h hlen
    · rcases hlast with h | hlast
      · exact absurd h hlen
      · exact split_loop_collapse c bs hrun (last_not_space c hlast) sep hsep _ 0 blocks
          (head_not_space c hhead) hs false

theorem split_into_blocks_keeps_bytes (bs : Nat) (c : List Nat) (blocks : List Word)
    (hs : split_into_blocks bs c = some blocks) :
    blocks.flatten.filter (fun x => !isspace x) = c.filter (fun x => !isspace x) := by
  unfold split_into_blocks at hs
  by_cases hlen : c.length ≤ bs
  · simp only [hlen, if_true, Option.some.injEq] at hs
    subst hs
    simp
  · simp only [hlen, if_false] at hs
    exact split_loop_keeps_bytes c bs _ 0 blocks hs

theorem split_into_blocks_length_le (bs : Nat) (c : List Nat) (blocks : List Word)
    (hs : split_into_blocks bs c = some blocks) : ∀ b ∈ blocks, b.length ≤ bs := by
  unfold split_into_blocks at hs
  by_cases hlen : c.length ≤ bs
  · simp only [hlen, if_true, Option.some.injEq] at hs
    subst hs
    intro b hb
    simp only [List.mem_singleton] at hb
    subst hb
    exact hlen
  · simp only [hlen, if_false] at hs
    exact split_loop_length_le c bs _ 0 blocks hs

theorem mem_hits_range (blocks : List Word) (w : Word) (i : Nat) :
    i ∈ hits blocks w (List.range blocks.length) ↔
      (i < blocks.length ∧ w ∈ tokens (block_at blocks i)) := by
  simp only [hits, List.mem_filter, List.mem_range, decide_eq_true_eq]

theorem sample_index_well_formed : WellFormedIndex roomy_heap sample_index := by
  refine ⟨by decide, by decide, ?_⟩
  intro e he
  simp only [sample_index, List.mem_cons, List.mem_singleton, List.not_mem_nil, or_false] at he
  rcases he with rfl | rfl
  · refine ⟨by decide, by decide, ?_⟩
    intro id hid
    simp only [List.mem_cons, List.mem_singleton, List.not_mem_nil, or_false] at hid
    rcases hid with rfl | rfl <;> decide
  · refine ⟨by decide, by decide, ?_⟩
    intro id hid
    simp only [List.mem_cons, List.mem_singleton, List.not_mem_nil, or_false] at hid
    subst hid; decide

/-! ## Lemmas: tokens are runs of lowercase letters -/

theorem tolower_is_lower_letter (c : Nat) (h : isalpha c = true) :
    is_lower_letter (tolower c) = true := by
  simp only [isalpha, Bool.or_eq_true, Bool.and_eq_true, decide_eq_true_eq] at h
  simp only [is_lower_letter, Bool.and_eq_true, decide_eq_true_eq, tolower]
  split <;> omega

theorem isalpha_of_lower_letter (c : Nat) (h : is_lower_letter c = true) : isalpha c = true := by
  simp only [is_lower_letter, Bool.and_eq_true, decide_eq_true_eq] at h
  simp only [isalpha, Bool.or_eq_true, Bool.and_eq_true, decide_eq_true_eq]
  omega

theorem tolower_of_lower_letter (c : Nat) (h : is_lower_letter c = true) : tolower c = c := by
  simp only [is_lower_letter, Bool.and_eq_true, decide_eq_true_eq] at h
  simp only [tolower]
  split <;> omega

theorem tolower_idem (c : Nat) : tolower (tolower c) = tolower c := by
  by_cases h : 65 ≤ c ∧ c ≤ 90
  · have h2 : ¬ (65 ≤ c + 32 ∧ c + 32 ≤ 90) := by omega
    simp only [tolower, h, and_self, if_true, h2, if_false]
  · simp only [tolower, h, if_false]

theorem map_tolower_takeWhile_lower (l : List Nat) :
    ∀ c ∈ (l.takeWhile isalpha).map tolower, is_lower_letter c = true := by
  intro c hc
  simp only [List.mem_map] at hc
  obtain ⟨a, ha, rfl⟩ := hc
  exact tolower_is_lower_letter a (List.mem_takeWhile_imp ha)

/-- Every token is non-empty and made of lowercase letters. -/
theorem tokens_lower : ∀ (n : Nat) (x : List Nat), x.length ≤ n →
    ∀ t ∈ tokens x, t ≠ [] ∧ ∀ c ∈ t, is_lower_letter c = true := by
  intro n
  induction n with
  | zero =>
    intro x h t ht
    have : x = [] := List.length_eq_zero.1 (by omega)
    subst this
    simp [tokens_nil] at ht
  | succ n ih =>
    intro x h t ht
    cases x with
    | nil => simp [tokens_nil] at ht
    | cons a l =>
      simp only [List.length_cons] at h
      by_cases ha : isalpha a = true
      · rw [tokens_cons_alpha _ _ ha] at ht
        rcases List.mem_cons.1 ht with rfl | ht
        · refine ⟨by simp, ?_⟩
          intro c hc
          rcases List.mem_cons.1 hc with rfl | hc
          · exact tolower_is_lower_letter a ha
          · exact map_tolower_takeWhile_lower l c hc
        · have hlen := (List.dropWhile_sublist (l := l) isalpha).length_le
          exact ih _ (by omega) t ht
      · have ha' : isalpha a = false := by simpa using ha
        rw [tokens_cons_not_alpha _ _ ha'] at ht
        exact ih l (by omega) t ht

theorem tokens_of_lower_word (t : List Nat) (hne : t ≠ [])
    (hall : ∀ c ∈ t, is_lower_letter c = true) : tokens t = [t] := by
  cases t with
  | nil => exact absurd rfl hne
  | cons a l =>
    have ha := hall a (List.mem_cons_self _ _)
    have hl : ∀ c ∈ l, is_lower_letter c = true := fun c hc => hall c (List.mem_cons_of_mem _ hc)
    have htake : l.takeWhile isalpha = l :=
      List.takeWhile_eq_self_iff.2 (fun c hc => isalpha_of_lower_letter c (hl c hc))
    have hdrop : l.dropWhile isalpha = [] :=
      List.dropWhile_eq_nil_iff.2 (fun c hc => isalpha_of_lower_letter c (hl c hc))
    have hmap : l.map tolower = l := by
      conv_rhs => rw [← List.map_id l]
      apply List.map_congr_left
      intro c hc
      exact tolower_of_lower_letter c (hl c hc)
    rw [tokens_cons_alpha _ _ (isalpha_of_lower_letter a ha), htake, hdrop, tokens_nil, hmap,
      tolower_of_lower_letter a ha]

theorem tokens_join_lower_words (sep : Nat) (hsep : isalpha sep = false) :
    ∀ ts : List Word, (∀ t ∈ ts, t ≠ [] ∧ ∀ c ∈ t, is_lower_letter c = true) →
      tokens (join_blocks sep ts) = ts := by
  intro ts
  induction ts with
  | nil => intro _; rfl
  | cons t ts ih =>
    intro h
    have ht := h t (List.mem_cons_self _ _)
    have hts : ∀ u ∈ ts, u ≠ [] ∧ ∀ c ∈ u, is_lower_letter c = true :=
      fun u hu => h u (List.mem_cons_of_mem _ hu)
    cases ts with
    | nil => exact tokens_of_lower_word t ht.1 ht.2
    | cons u us =>
      rw [join_blocks_cons_cons, tokens_append_separator sep hsep _ _ t (le_refl _),
        tokens_of_lower_word t ht.1 ht.2, ih hts]
      rfl

theorem tokens_of_no_alpha (x : List Nat) (h : ∀ c ∈ x, isalpha c = false) : tokens x = [] := by
  have := tokens_drop_not_alpha x [] h
  rw [List.append_nil] at this
  rw [this, tokens_nil]

/-! ## Lemmas: tokens are the maximal alphabetic runs -/

theorem alpha_runs_from_cur (l : List Nat) : ∀ cur : List Nat, cur ≠ [] →
    alpha_runs_from cur l =
      (cur ++ l.takeWhile isalpha) :: alpha_runs_from [] (l.dropWhile isalpha) := by
  induction l with
  | nil => intro cur h; simp [alpha_runs_from, h]
  | cons c rest ih =>
    intro cur h
    by_cases hc : isalpha c = true
    · rw [alpha_runs_from, if_pos hc, ih _ (by simp)]
      simp [List.takeWhile_cons, List.dropWhile_cons, hc]
    · rw [alpha_runs_from, if_neg hc, if_neg h]
      simp only [List.takeWhile_cons, List.dropWhile_cons, hc, if_false, List.append_nil,
        Bool.false_eq_true]
      rw [alpha_runs_from, if_neg hc, if_pos rfl]

theorem alpha_runs_cons_alpha (c : Nat) (l : List Nat) (h : isalpha c = true) :
    alpha_runs (c :: l) = (c :: l.takeWhile isalpha) :: alpha_runs (l.dropWhile isalpha) := by
  unfold alpha_runs
  rw [alpha_runs_from, if_pos h, alpha_runs_from_cur _ _ (by simp)]
  rfl

theorem alpha_runs_cons_not_alpha (c : Nat) (l : List Nat) (h : isalpha c = false) :
    alpha_runs (c :: l) = alpha_runs l := by
  unfold alpha_runs
  rw [alpha_runs_from, if_neg (by simp [h]), if_pos rfl]

theorem tokens_eq_alpha_runs : ∀ (n : Nat) (x : List Nat), x.length ≤ n →
    tokens x = (alpha_runs x).map (fun r => r.map tolower) := by
  intro n
  induction n with
  | zero =>
    intro x h
    have : x = [] := List.length_eq_zero.1 (by omega)
    subst this
    rfl
  | succ n ih =>
    intro x h
    cases x with
    | nil => rfl
    | cons a l =>
      simp only [List.length_cons] at h
      by_cases ha : isalpha a = true
      · have hlen := (List.dropWhile_sublist (l := l) isalpha).length_le
        rw [tokens_cons_alpha _ _ ha, alpha_runs_cons_alpha _ _ ha, ih _ (by omega)]
        rfl
      · have ha' : isalpha a = false := by simpa using ha
        rw [tokens_cons_not_alpha _ _ ha', alpha_runs_cons_not_alpha _ _ ha']
        exact ih l (by omega)

theorem takeWhile_append_dropWhile_head (l : List Nat) :
    ∀ c, (l.dropWhile isalpha).head? = some c → isalpha c = false := by
  intro c hc
  cases hd : l.dropWhile isalpha with
  | nil => rw [hd] at hc; cases hc
  | cons x rest =>
    have h1 := List.head_dropWhile_not isalpha l (by rw [hd]; simp)
    simp only [hd, List.head_cons] at h1
    rw [hd] at hc
    simp only [List.head?_cons, Option.some.injEq] at hc
    rw [← hc]; exact h1

theorem alpha_runs_maximal : ∀ (n : Nat) (x : List Nat), x.length ≤ n →
    ∀ r ∈ alpha_runs x, r ≠ [] ∧ (∀ c ∈ r, isalpha c = true) ∧
      ∃ pre post, x = pre ++ r ++ post ∧
        (∀ c, pre.getLast? = some c → isalpha c = false) ∧
        (∀ c, post.head? = some c → isalpha c = false) ∧
        (pre = [] → x.head? = r.head?) := by
  intro n
  induction n with
  | zero =>
    intro x h r hr
    have : x = [] := List.length_eq_zero.1 (by omega)
    subst this
    simp [alpha_runs, alpha_runs_from] at hr
  | succ n ih =>
    intro x h r hr
    cases x with
    | nil => simp [alpha_runs, alpha_runs_from] at hr
    | cons a l =>
      simp only [List.length_cons] at h
      by_cases ha : isalpha a = true
      · rw [alpha_runs_cons_alpha _ _ ha] at hr
        have hsplit : a :: l = (a :: l.takeWhile isalpha) ++ l.dropWhile isalpha := by
          simp
        rcases List.mem_cons.1 hr with rfl | hr
        · refine ⟨by simp, ?_, [], l.dropWhile isalpha, by simp, by simp, ?_, by simp⟩
          · intro c hc
            rcases List.mem_cons.1 hc with rfl | hc
            · exact ha
            · exact List.mem_takeWhile_imp hc
          · exact takeWhile_append_dropWhile_head l
        · have hlen := (List.dropWhile_sublist (l := l) isalpha).length_le
          obtain ⟨h1, h2, pre, post, h3, h4, h5, h6⟩ := ih _ (by omega) r hr
          refine ⟨h1, h2, (a :: l.takeWhile isalpha) ++ pre, post, ?_, ?_, h5, by simp⟩
          · rw [hsplit, h3]; simp
          · intro c hc
            by_cases hpre : pre = []
            · subst hpre
              -- the run starts the rest, whose first byte is not alphabetic
              have hh := h6 rfl
              cases r with
              | nil => exact absurd rfl h1
              | cons r0 rs =>
                have hr0 := h2 r0 (List.mem_cons_self _ _)
                have := takeWhile_append_dropWhile_head l r0 (by rw [hh]; rfl)
                rw [hr0] at this
                cases this
            · rw [List.getLast?_append_of_ne_nil _ hpre] at hc
              exact h4 c hc
      · have ha' : isalpha a = false := by simpa using ha
        rw [alpha_runs_cons_not_alpha _ _ ha'] at hr
        obtain ⟨h1, h2, pre, post, h3, h4, h5, _⟩ := ih l (by omega) r hr
        refine ⟨h1, h2, a :: pre, post, by rw [h3]; simp, ?_, h5, by simp⟩
        intro c hc
        by_cases hpre : pre = []
        · subst hpre
          simp only [List.getLast?_singleton, Option.some.injEq] at hc
          rw [← hc]; exact ha'
        · have : (a :: pre).getLast? = pre.getLast? := by
            have := List.getLast?_append_of_ne_nil [a] hpre
            simpa using this
          rw [this] at hc
          exact h4 c hc

/-! ## Lemmas: the query interface -/

theorem block_at_mem (blocks : List Word) (i : Nat) (h : i < blocks.length) :
    block_at blocks i ∈ blocks := by
  have : block_at blocks i = blocks[i] := by
    simp [block_at, List.getD, List.getElem?_eq_getElem h]
  rw [this]
  exact List.getElem_mem _

theorem hits_eq_nil_iff (blocks : List Word) (w : Word) :
    hits blocks w (List.range blocks.length) = [] ↔ ∀ b ∈ blocks, w ∉ tokens b := by
  constructor
  · intro h b hb hw
    obtain ⟨i, hi, hbi⟩ := List.getElem_of_mem hb
    have hmem : i ∈ hits blocks w (List.range blocks.length) := by
      rw [mem_hits_range]
      refine ⟨hi, ?_⟩
      have : block_at blocks i = blocks[i] := by
        simp [block_at, List.getD, List.getElem?_eq_getElem hi]
      rw [this, hbi]
      exact hw
    rw [h] at hmem
    cases hmem
  · intro h
    rw [List.eq_nil_iff_forall_not_mem]
    intro i hi
    rw [mem_hits_range] at hi
    exact h _ (block_at_mem blocks i hi.1) hi.2

theorem mem_worker_ids (n bpt t i : Nat) :
    i ∈ worker_ids n bpt t ↔ t * bpt ≤ i ∧ i < min (t * bpt + bpt) n := by
  unfold worker_ids
  rw [List.mem_range'_1]
  omega

theorem length_worker_ids (n bpt t : Nat) :
    (worker_ids n bpt t).length = min (t * bpt + bpt) n - t * bpt := by
  unfold worker_ids
  rw [List.length_range']

theorem blocks_per_thread_pos (n w : Nat) (hn : 1 ≤ n) (hw : 1 ≤ w) : 1 ≤ (n + w - 1) / w := by
  rw [Nat.le_div_iff_mul_le (by omega)]
  omega

theorem blocks_per_thread_least (n w k : Nat) (hw : 1 ≤ w) (hk : n ≤ w * k) :
    (n + w - 1) / w ≤ k := by
  have h1 : (n + w - 1) / w < k + 1 := by
    apply Nat.div_lt_of_lt_mul
    have : w * (k + 1) = w * k + w := by ring
    omega
  omega

theorem worker_of_block (n w i : Nat) (hw : 1 ≤ w) (hi : i < n) :
    i / ((n + w - 1) / w) < w ∧ i ∈ worker_ids n ((n + w - 1) / w) (i / ((n + w - 1) / w)) ∧
      ∀ t, i ∈ worker_ids n ((n + w - 1) / w) t → t = i / ((n + w - 1) / w) := by
  have hpos := blocks_per_thread_pos n w (by omega) hw
  have hcover := le_mul_blocks_per_thread n w hw
  generalize (n + w - 1) / w = bpt at hpos hcover
  refine ⟨?_, ?_, ?_⟩
  · apply Nat.div_lt_of_lt_mul
    have : bpt * w = w * bpt := Nat.mul_comm _ _
    omega
  · rw [mem_worker_ids]
    have h1 := Nat.div_mul_le_self i bpt
    have h2 := Nat.div_add_mod i bpt
    have h3 := Nat.mod_lt i (by omega : bpt > 0)
    have h4 : bpt * (i / bpt) = i / bpt * bpt := Nat.mul_comm _ _
    omega
  · intro t ht
    rw [mem_worker_ids] at ht
    symm
    apply Nat.div_eq_of_lt_le ht.1
    have : (t + 1) * bpt = t * bpt + bpt := by ring
    omega

theorem full_range_before_later (n bpt t t1 : Nat) (ht : t < t1)
    (hne : worker_ids n bpt t1 ≠ []) : (worker_ids n bpt t).length = bpt := by
  rw [length_worker_ids]
  have hlen : 0 < (worker_ids n bpt t1).length := List.length_pos.2 hne
  rw [length_worker_ids] at hlen
  have h1 : (t + 1) * bpt ≤ t1 * bpt := Nat.mul_le_mul_right _ (by omega)
  have h2 : (t + 1) * bpt = t * bpt + bpt := by ring
  omega

/-! ## Lemmas: the merge of arbitrary local indexes -/

theorem find_merge_local_indexes (wc : wordcount)
    (hkeys : ∀ l ∈ wc.thread_local_indexes, (l.map Prod.fst).Nodup) (w : Word) :
    find w (merge_local_indexes wc).inverted_index =
      if wc.thread_local_indexes.all (fun l => (find w l).isNone) = true then none
      else some (sort (local_postings wc.thread_local_indexes w)) := by
  rw [merge_local_indexes_eq, find_map_values, find_merge_all (fun a b => a ++ b) []
    (fun a b c => List.append_assoc a b c) (fun _ _ => by simp only [List.nil_append])
    (fun _ _ => by simp only [List.append_nil]) rfl w _ _ hkeys,
    foldr_append_eq_flatten]
  split
  · rfl
  · simp [find, local_postings]

theorem nodup_keys_merge_local_indexes (wc : wordcount) :
    ((merge_local_indexes wc).inverted_index.map Prod.fst).Nodup := by
  rw [merge_local_indexes_eq, List.map_map]
  exact nodup_keys_merge_all _ _ _ _ List.nodup_nil

theorem sort_sorted (l : List Nat) : (sort l).Sorted (fun a b => a ≤ b) :=
  List.sorted_insertionSort _ l

theorem sort_perm (l : List Nat) : (sort l).Perm l :=
  List.perm_insertionSort _ l

/-! ## Lemmas: words of the two tables -/

theorem occurrences_eq_sum (blocks : List Word) (w : Word) :
    occurrences blocks w = (blocks.map (fun b => (tokens b).count w)).sum := by
  unfold occurrences
  rw [List.count_flatten, List.map_map]
  rfl

theorem occurrences_eq_zero_iff (blocks : List Word) (w : Word) :
    occurrences blocks w = 0 ↔ hits blocks w (List.range blocks.length) = [] := by
  rw [hits_eq_nil_iff]
  unfold occurrences
  rw [List.count_eq_zero]
  simp only [List.mem_flatten, List.mem_map, not_exists, not_and]
  constructor
  · intro h b hb hw
    exact h (tokens b) ⟨b, hb, rfl⟩ hw
  · intro h l hl hw
    obtain ⟨b, hb, rfl⟩ := hl
    exact h b hb hw

/-! ## Lemmas: the iterations of the partitioning loop -/

theorem split_loop_eq_bounds (c : List Nat) (bs : Nat) : ∀ fuel s,
    split_loop c bs fuel s = (split_bounds_loop c bs fuel s).map (List.map (slice c)) := by
  intro fuel
  induction fuel with
  | zero =>
    intro s
    simp only [split_loop, split_bounds_loop]
    split <;> rfl
  | succ fuel ih =>
    intro s
    rw [split_loop, split_bounds_loop]
    split
    · simp only [ih]
      cases split_bounds_loop c bs fuel (skip_space c (block_end c bs s)) <;> rfl
    · rfl

theorem split_bounds_loop_total (c : List Nat) (bs : Nat) (hbs : 1 ≤ bs) :
    ∀ fuel s, c.length ≤ s + fuel → ∃ bounds, split_bounds_loop c bs fuel s = some bounds := by
  intro fuel s h
  obtain ⟨blocks, hb⟩ := split_loop_total c bs hbs fuel s h
  rw [split_loop_eq_bounds] at hb
  cases hq : split_bounds_loop c bs fuel s with
  | none => rw [hq] at hb; cases hb
  | some bounds => exact ⟨bounds, rfl⟩

theorem split_bounds_loop_fuel (c : List Nat) (bs : Nat) (hbs : 1 ≤ bs) :
    ∀ fuel1 fuel2 s, c.length ≤ s + fuel1 → c.length ≤ s + fuel2 →
      split_bounds_loop c bs fuel1 s = split_bounds_loop c bs fuel2 s := by
  intro fuel1
  induction fuel1 with
  | zero =>
    intro fuel2 s h1 _
    have hs : ¬ s < c.length := by omega
    cases fuel2 <;> simp [split_bounds_loop, hs]
  | succ fuel1 ih =>
    intro fuel2 s h1 h2
    cases fuel2 with
    | zero =>
      have hs : ¬ s < c.length := by omega
      simp [split_bounds_loop, hs]
    | succ fuel2 =>
      rw [split_bounds_loop, split_bounds_loop]
      split
      · rename_i hs
        have hgt := block_end_gt c bs s hbs hs
        have hge := skip_space_ge c (block_end c bs s)
        simp only
        rw [ih fuel2 (skip_space c (block_end c bs s)) (by omega) (by omega)]
      · rfl

theorem split_bounds_loop_step (c : List Nat) (bs : Nat) (hbs : 1 ≤ bs) :
    ∀ fuel s bounds, s ≤ c.length → split_bounds_loop c bs fuel s = some bounds →
      (∀ p ∈ bounds, p.1 < p.2 ∧ p.2 ≤ c.length ∧ p.2 = block_end c bs p.1 ∧
        p.1 < skip_space c p.2 ∧ skip_space c p.2 ≤ c.length) ∧
      bounds.Chain' (fun p q => q.1 = skip_space c p.2) ∧
      (∀ p, bounds.head? = some p → p.1 = s) ∧
      (∀ p, bounds.getLast? = some p → skip_space c p.2 = c.length) ∧
      (bounds = [] ↔ s = c.length) := by
  intro fuel
  induction fuel with
  | zero =>
    intro s bounds hs h
    simp only [split_bounds_loop] at h
    split at h
    · cases h
    · cases h
      refine ⟨by simp, List.chain'_nil, by simp, by simp, ?_⟩
      constructor
      · intro _; omega
      · intro _; rfl
  | succ fuel ih =>
    intro s bounds hs h
    rw [split_bounds_loop] at h
    split at h
    · rename_i hlt
      simp only at h
      split at h
      · cases h
      · rename_i rest hrest
        cases h
        have hgt := block_end_gt c bs s hbs hlt
        have hle := block_end_le_length c bs s
        have hge := skip_space_ge c (block_end c bs s)
        have hsk := skip_space_le c (block_end c bs s) hle
        obtain ⟨h1, h2, h3, h4, h5⟩ := ih (skip_space c (block_end c bs s)) rest hsk hrest
        refine ⟨?_, ?_, ?_, ?_, ?_⟩
        · intro p hp
          rcases List.mem_cons.1 hp with rfl | hp
          · exact ⟨hgt, hle, rfl, Nat.lt_of_lt_of_le hgt hge, hsk⟩
          · exact h1 p hp
        · rw [List.chain'_cons']
          refine ⟨?_, h2⟩
          intro q hq
          exact h3 q hq
        · intro p hp
          simp only [List.head?_cons, Option.some.injEq] at hp
          rw [← hp]
        · intro p hp
          cases rest with
          | nil =>
            simp only [List.getLast?_singleton, Option.some.injEq] at hp
            rw [← hp]
            exact (h5.1 rfl)
          | cons q rest1 =>
            rw [List.getLast?_cons_cons] at hp
            exact h4 p hp
        · constructor
          · intro hnil; cases hnil
          · intro heq; omega
    · cases h
      refine ⟨by simp, List.chain'_nil, by simp, by simp, ?_⟩
      constructor
      · intro _; omega
      · intro _; rfl

theorem length_slice (c : List Nat) (p : Nat × Nat) (h : p.2 ≤ c.length) :
    (slice c p).length = p.2 - p.1 := by
  unfold slice
  simp only [List.length_take, List.length_drop]
  omega

theorem split_bounds_loop_on_space (c : List Nat) (bs : Nat) (hrun : longest_run c ≤ bs) :
    ∀ fuel s bounds, (s < c.length → isspace (byte_at c s) = false) →
      split_bounds_loop c bs fuel s = some bounds →
      ∀ p ∈ bounds, p.2 < c.length → isspace (byte_at c p.2) = true := by
  intro fuel
  induction fuel with
  | zero =>
    intro s bounds _ h
    simp only [split_bounds_loop] at h
    split at h
    · cases h
    · cases h; simp
  | succ fuel ih =>
    intro s bounds h0 h
    rw [split_bounds_loop] at h
    split at h
    · rename_i hs
      simp only at h
      split at h
      · cases h
      · rename_i rest hrest
        cases h
        intro p hp hlt
        rcases List.mem_cons.1 hp with rfl | hp
        · rcases block_end_cases c bs s hrun hs (h0 hs) with he | ⟨_, _, he3⟩
          · simp only at hlt; omega
          · exact he3
        · exact ih _ rest (skip_space_stops c _) hrest p hp hlt
    · cases h; simp

/-! ## Lemmas: offsets of the blocks -/

theorem split_into_blocks_eq_bounds (bs : Nat) (c : List Nat) :
    split_into_blocks bs c = (split_bounds bs c).map (List.map (slice c)) := by
  unfold split_into_blocks split_bounds
  split
  · simp [slice]
  · exact split_loop_eq_bounds c bs _ 0

/-- When no whitespace-free run is longer than the target size and the corpus does not
begin with a whitespace byte, every block that ends before the end of the corpus is
followed by a whitespace byte. -/
theorem cuts_fall_on_whitespace (bs : Nat) (c : List Nat) (hbs : 1 ≤ bs)
    (hrun : longest_run c ≤ bs) (hhead : starts_with_space c = false) :
    ∃ bounds, split_bounds bs c = some bounds ∧
      split_into_blocks bs c = some (bounds.map (slice c)) ∧
      ∀ p ∈ bounds, p.2 < c.length → isspace (byte_at c p.2) = true := by
  by_cases hlen : c.length ≤ bs
  · refine ⟨[(0, c.length)], by simp [split_bounds, hlen], ?_, ?_⟩
    · rw [split_into_blocks_eq_bounds]; simp [split_bounds, hlen]
    · intro p hp hlt
      simp only [List.mem_singleton] at hp
      subst hp
      simp at hlt
  · obtain ⟨bounds, hb⟩ := split_bounds_loop_total c bs hbs c.length 0 (by omega)
    have hsb : split_bounds bs c = some bounds := by simp [split_bounds, hlen, hb]
    refine ⟨bounds, hsb, ?_, ?_⟩
    · rw [split_into_blocks_eq_bounds, hsb]; rfl
    · exact split_bounds_loop_on_space c bs hrun _ 0 bounds (head_not_space c hhead) hb

/-! ## Lemmas: cuts of the partitioner, wrapped counters, worker ranges -/

theorem collapse_state_cons (st : Bool) (x : Nat) (b : List Nat) :
    collapse_state st (x :: b) = collapse_state (isspace x) b := by
  unfold collapse_state
  cases b with
  | nil => simp
  | cons y b =>
    rw [List.getLast?_cons_cons, List.getLast?_eq_getLast (y :: b) (by simp)]

theorem collapse_from_append (b : List Nat) : ∀ (st : Bool) (r : List Nat),
    collapse_from st (b ++ r) = collapse_from st b ++ collapse_from (collapse_state st b) r := by
  induction b with
  | nil => intro st r; rfl
  | cons x b ih =>
    intro st r
    rw [List.cons_append, collapse_state_cons]
    by_cases hx : isspace x = true
    · cases st
      · simp only [collapse_from, hx, if_true, Bool.false_eq_true, if_false, ih, List.cons_append]
      · simp only [collapse_from, hx, if_true, ih]
    · have hx' : isspace x = false := by simpa using hx
      simp only [collapse_from, hx', Bool.false_eq_true, if_false, ih, List.cons_append]

theorem collapse_from_not_space (st : Bool) (x : Nat) (r : List Nat) (hx : isspace x = false) :
    collapse_from st (x :: r) = x :: collapse_from false r := by
  simp only [collapse_from, hx, Bool.false_eq_true, if_false]

theorem collapse_from_space (st : Bool) (x : Nat) (r : List Nat) (hx : isspace x = true) :
    collapse_from st (x :: r) = (if st = true then [] else [32]) ++ collapse_from true r := by
  cases st <;> simp [collapse_from, hx]

theorem collapse_from_all_space (g : List Nat) (hall : ∀ x ∈ g, isspace x = true) :
    collapse_from true g = [] := by
  induction g with
  | nil => rfl
  | cons x g ih =>
    rw [collapse_from_space true x g (hall x (List.mem_cons_self _ _))]
    simp [ih (fun y hy => hall y (List.mem_cons_of_mem _ hy))]

theorem slice_getLast (l : List Nat) (s e : Nat) (hse : s < e) (he : e ≤ l.length) :
    (slice l (s, e)).getLast? = some (byte_at l (e - 1)) := by
  unfold slice
  simp only
  have hlen : ((l.drop s).take (e - s)).length = e - s := by
    simp only [List.length_take, List.length_drop]; omega
  rw [List.getLast?_eq_getElem?, hlen]
  have h1 : e - s - 1 < ((l.drop s).take (e - s)).length := by omega
  rw [List.getElem?_eq_getElem h1]
  have h2 : e - 1 < l.length := by omega
  have hb : byte_at l (e - 1) = l[e - 1] := by
    simp [byte_at, List.getD, List.getElem?_eq_getElem h2]
  rw [hb]
  simp only [List.getElem_take, List.getElem_drop, Option.some.injEq]
  congr 1
  omega

theorem slice_ne_nil (c : List Nat) (s e : Nat) (hse : s < e) (he : e ≤ c.length) :
    slice c (s, e) ≠ [] := by
  intro h
  have := slice_getLast c s e hse he
  rw [h] at this
  cases this

theorem collapse_state_slice (c : List Nat) (s e : Nat) (hse : s < e) (he : e ≤ c.length)
    (st : Bool) : collapse_state st (slice c (s, e)) = isspace (byte_at c (e - 1)) := by
  unfold collapse_state
  rw [slice_getLast c s e hse he]

theorem gap_eq_nil (c : List Nat) (e : Nat) (h : e < c.length)
    (hs : isspace (byte_at c e) = false) : (c.drop e).takeWhile isspace = [] := by
  rw [drop_eq_byte_at_cons c e h, List.takeWhile_cons]
  simp [hs]

theorem skip_space_eq_self (c : List Nat) (e : Nat) (h : e < c.length)
    (hs : isspace (byte_at c e) = false) : skip_space c e = e := by
  unfold skip_space
  rw [gap_eq_nil c e h hs]
  rfl

theorem isspace_32 : isspace 32 = true := by decide

theorem split_bounds_loop_collapse_iff (c : List Nat) (bs : Nat) (hbs : 1 ≤ bs) (sep : Nat)
    (hsep : isspace sep = true) :
    ∀ fuel s bounds, s ≤ c.length → split_bounds_loop c bs fuel s = some bounds →
      ∀ st, (collapse_from st (join_blocks sep (bounds.map (slice c))) =
          collapse_from st (c.drop s) ↔ ∀ p ∈ bounds, joins_cleanly c p = true) := by
  intro fuel
  induction fuel with
  | zero =>
    intro s bounds hs h st
    simp only [split_bounds_loop] at h
    split at h
    · cases h
    · cases h
      rw [List.drop_eq_nil_of_le (by omega)]
      simp [join_blocks]
  | succ fuel ih =>
    intro s bounds hs h st
    rw [split_bounds_loop] at h
    split at h
    · rename_i hlt
      simp only at h
      split at h
      · cases h
      · rename_i rest hrest
        cases h
        have hgt := block_end_gt c bs s hbs hlt
        have hle := block_end_le_length c bs s
        have hge := skip_space_ge c (block_end c bs s)
        have hsk := skip_space_le c (block_end c bs s) hle
        have hstep := split_step c s (block_end c bs s) (by omega)
        have hrest_nil := (split_bounds_loop_step c bs hbs fuel _ rest hsk hrest).2.2.2.2
        have hstb := collapse_state_slice c s (block_end c bs s) hgt hle st
        have hslice : slice c (s, block_end c bs s) =
            (c.drop s).take (block_end c bs s - s) := rfl
        generalize he : block_end c bs s = e at *
        have hih := ih (skip_space c e) rest hsk hrest true
        by_cases hlast : skip_space c e < c.length
        · -- another block follows
          have hne : rest ≠ [] := by
            intro hnil
            have := hrest_nil.1 hnil
            omega
          obtain ⟨q, rest1, hq⟩ := List.exists_cons_of_ne_nil hne
          have hjoin : join_blocks sep (((s, e) :: rest).map (slice c)) =
              slice c (s, e) ++ sep :: join_blocks sep (rest.map (slice c)) := by
            rw [hq]; rfl
          rw [hjoin, hstep, ← hslice, collapse_from_append, collapse_from_append, hstb,
            List.append_right_inj, collapse_from_space _ sep _ hsep]
          have helt : e < c.length := by omega
          by_cases hsp : isspace (byte_at c e) = true
          · rw [collapse_from_gap _ _ (gap_ne_nil c e helt hsp) (gap_all_space c e),
              collapse_from_space _ 32 _ isspace_32, List.append_right_inj, hih]
            have hp : joins_cleanly c (s, e) = true := by
              simp [joins_cleanly, hsp, hlast]
            simp only [List.mem_cons, forall_eq_or_imp, hp, true_and]
          · have hsp' : isspace (byte_at c e) = false := by simpa using hsp
            have hskip := skip_space_eq_self c e helt hsp'
            rw [gap_eq_nil c e helt hsp', List.nil_append]
            rw [hskip] at hih
            by_cases hb : isspace (byte_at c (e - 1)) = true
            · have hp : joins_cleanly c (s, e) = true := by
                simp [joins_cleanly, hb]
              simp only [hb, if_true, List.nil_append, hskip, hih, List.mem_cons,
                forall_eq_or_imp, hp, true_and]
            · have hb' : isspace (byte_at c (e - 1)) = false := by simpa using hb
              have hp : joins_cleanly c (s, e) = false := by
                simp [joins_cleanly, hb', hsp']
                omega
              have hrhs : ¬ ∀ p ∈ (s, e) :: rest, joins_cleanly c p = true := by
                intro hall
                have := hall (s, e) (List.mem_cons_self _ _)
                rw [hp] at this
                cases this
              simp only [hb', Bool.false_eq_true, if_false, hskip, hrhs, iff_false]
              rw [drop_eq_byte_at_cons c e helt, collapse_from_not_space _ _ _ hsp']
              intro hcon
              simp only [List.singleton_append, List.cons.injEq] at hcon
              have h32 := isspace_32
              rw [hcon.1, hsp'] at h32
              cases h32
        · -- the last block
          have hend : skip_space c e = c.length := by omega
          have hnil : rest = [] := hrest_nil.2 hend
          subst hnil
          have hjoin : join_blocks sep (([(s, e)] : List (Nat × Nat)).map (slice c)) =
              slice c (s, e) := rfl
          rw [hjoin, hstep, ← hslice, collapse_from_append, hstb,
            List.drop_eq_nil_of_le (by omega : c.length ≤ skip_space c e), List.append_nil]
          rw [List.self_eq_append_right]
          simp only [List.mem_singleton, forall_eq]
          by_cases helt : e < c.length
          · have hsp : isspace (byte_at c e) = true := by
              by_contra hsp
              have hsp' : isspace (byte_at c e) = false := by simpa using hsp
              have := skip_space_eq_self c e helt hsp'
              omega
            have hgne := gap_ne_nil c e helt hsp
            by_cases hb : isspace (byte_at c (e - 1)) = true
            · have hp : joins_cleanly c (s, e) = true := by
                simp [joins_cleanly, hb]
              simp only [hb, hp, iff_true]
              exact collapse_from_all_space _ (gap_all_space c e)
            · have hb' : isspace (byte_at c (e - 1)) = false := by simpa using hb
              have hp : joins_cleanly c (s, e) = false := by
                simp [joins_cleanly, hb', hend]
                omega
              simp only [hb', hp, Bool.false_eq_true, iff_false]
              obtain ⟨x, g1, hg⟩ := List.exists_cons_of_ne_nil hgne
              have hx : isspace x = true := gap_all_space c e x (by rw [hg]; simp)
              rw [hg, collapse_from_space _ x _ hx]
              simp
          · have hp : joins_cleanly c (s, e) = true := by
              simp [joins_cleanly]
              left; left; omega
            have hg : (c.drop e).takeWhile isspace = [] := by
              rw [List.drop_eq_nil_of_le (by omega)]
              rfl
            simp only [hp, iff_true, hg]
            cases isspace (byte_at c (e - 1)) <;> rfl
    · cases h
      rw [List.drop_eq_nil_of_le (by omega)]
      simp [join_blocks]

theorem split_bounds_collapse_iff (bs : Nat) (c : List Nat) (bounds : List (Nat × Nat))
    (hbs : 1 ≤ bs) (sep : Nat) (hsep : isspace sep = true)
    (hb : split_bounds bs c = some bounds) :
    collapse (join_blocks sep (bounds.map (slice c))) = collapse c ↔
      ∀ p ∈ bounds, joins_cleanly c p = true := by
  unfold split_bounds at hb
  by_cases hlen : c.length ≤ bs
  · simp only [hlen, if_true, Option.some.injEq] at hb
    subst hb
    have h1 : join_blocks sep (([(0, c.length)] : List (Nat × Nat)).map (slice c)) = c := by
      simp [join_blocks, slice]
    have h2 : joins_cleanly c (0, c.length) = true := by
      simp [joins_cleanly]
    simp only [h1, List.mem_singleton, forall_eq, h2]
  · simp only [hlen, if_false] at hb
    exact split_bounds_loop_collapse_iff c bs hbs sep hsep _ 0 bounds (by omega) hb false

theorem dropWhile_append_of_ne_nil (p : Nat → Bool) : ∀ (a b : List Nat),
    a.dropWhile p ≠ [] → (a ++ b).dropWhile p = a.dropWhile p ++ b := by
  intro a
  induction a with
  | nil => intro b h; exact absurd rfl h
  | cons x a ih =>
    intro b h
    by_cases hx : p x = true
    · simp only [List.cons_append, List.dropWhile_cons, hx, if_true] at h ⊢
      exact ih b h
    · simp only [List.cons_append, List.dropWhile_cons, hx, if_false, Bool.false_eq_true]

theorem dropWhile_append_of_nil (p : Nat → Bool) : ∀ (a b : List Nat),
    a.dropWhile p = [] → (a ++ b).dropWhile p = b.dropWhile p := by
  intro a
  induction a with
  | nil => intro b _; rfl
  | cons x a ih =>
    intro b h
    by_cases hx : p x = true
    · simp only [List.cons_append, List.dropWhile_cons, hx, if_true] at h ⊢
      exact ih b h
    · simp [List.dropWhile_cons, hx] at h

theorem getLast_dropWhile (p : Nat → Bool) (l : List Nat) (h : l.dropWhile p ≠ []) :
    (l.dropWhile p).getLast? = l.getLast? := by
  conv_rhs => rw [← List.takeWhile_append_dropWhile p l]
  rw [List.getLast?_append_of_ne_nil _ h]

theorem tokens_append_no_split (a b : List Nat)
    (h : ∀ x y, a.getLast? = some x → b.head? = some y →
      ¬ (isalpha x = true ∧ isalpha y = true)) :
    tokens (a ++ b) = tokens a ++ tokens b := by
  cases b with
  | nil => simp [tokens_nil]
  | cons y b1 =>
    by_cases hy : isalpha y = true
    · rcases List.eq_nil_or_concat a with rfl | ⟨a1, x, rfl⟩
      · simp [tokens_nil]
      · have hx : isalpha x = false := by
          have := h x y (by simp) rfl
          simp only [hy, and_true] at this
          simpa using this
        rw [List.concat_eq_append, List.append_assoc, List.singleton_append,
          tokens_append_separator x hx _ _ a1 (le_refl _),
          tokens_append_separator x hx [] _ a1 (le_refl _), tokens_nil, List.append_nil]
    · have hy' : isalpha y = false := by simpa using hy
      rw [tokens_append_separator y hy' _ _ a (le_refl _), tokens_cons_not_alpha _ _ hy']

theorem tokens_append_split : ∀ (n : Nat) (a : List Nat), a.length ≤ n →
    ∀ (b : List Nat) (x y : Nat), a.getLast? = some x → b.head? = some y →
      isalpha x = true → isalpha y = true →
      (tokens a).length + (tokens b).length = (tokens (a ++ b)).length + 1 := by
  intro n
  induction n with
  | zero =>
    intro a ha b x y hx _ _ _
    have : a = [] := List.length_eq_zero.1 (by omega)
    subst this
    cases hx
  | succ n ih =>
    intro a ha b x y hx hy hax hay
    cases a with
    | nil => cases hx
    | cons z a1 =>
      simp only [List.length_cons] at ha
      by_cases hz : isalpha z = true
      · rw [List.cons_append, tokens_cons_alpha _ _ hz, tokens_cons_alpha _ _ hz]
        simp only [List.length_cons]
        by_cases hd : a1.dropWhile isalpha = []
        · rw [hd, dropWhile_append_of_nil _ _ _ hd, tokens_nil]
          cases b with
          | nil => cases hy
          | cons y1 b1 =>
            simp only [List.head?_cons, Option.some.injEq] at hy
            subst hy
            rw [tokens_cons_alpha _ _ hay]
            simp only [List.dropWhile_cons, hay, if_true, List.length_cons, List.length_nil]
            omega
        · rw [dropWhile_append_of_ne_nil _ _ _ hd]
          have hlen := (List.dropWhile_sublist (l := a1) isalpha).length_le
          have ha1 : a1 ≠ [] := by
            intro h
            rw [h] at hd
            exact hd rfl
          have hlast : (a1.dropWhile isalpha).getLast? = some x := by
            rw [getLast_dropWhile _ _ hd]
            obtain ⟨u, a2, rfl⟩ := List.exists_cons_of_ne_nil ha1
            rw [List.getLast?_cons_cons] at hx
            exact hx
          have := ih (a1.dropWhile isalpha) (by omega) b x y hlast hy hax hay
          omega
      · have hz' : isalpha z = false := by simpa using hz
        rw [List.cons_append, tokens_cons_not_alpha _ _ hz', tokens_cons_not_alpha _ _ hz']
        cases a1 with
        | nil =>
          simp only [List.getLast?_singleton, Option.some.injEq] at hx
          rw [hx, hax] at hz'
          cases hz'
        | cons u a2 =>
          rw [List.getLast?_cons_cons] at hx
          exact ih (u :: a2) (by omega) b x y hx hy hax hay

theorem head_drop (c : List Nat) (e : Nat) (h : e < c.length) :
    (c.drop e).head? = some (byte_at c e) := by
  rw [drop_eq_byte_at_cons c e h]
  rfl

theorem split_bounds_loop_tokens (c : List Nat) (bs : Nat) (hbs : 1 ≤ bs) :
    ∀ fuel s bounds, s ≤ c.length → split_bounds_loop c bs fuel s = some bounds →
      (((bounds.map (slice c)).map tokens).flatten).length =
        (tokens (c.drop s)).length + (bounds.filter (splits_word c)).length ∧
      ((∀ p ∈ bounds, splits_word c p = false) →
        ((bounds.map (slice c)).map tokens).flatten = tokens (c.drop s)) := by
  intro fuel
  induction fuel with
  | zero =>
    intro s bounds hs h
    simp only [split_bounds_loop] at h
    split at h
    · cases h
    · cases h
      rw [List.drop_eq_nil_of_le (by omega)]
      simp [tokens_nil]
  | succ fuel ih =>
    intro s bounds hs h
    rw [split_bounds_loop] at h
    split at h
    · rename_i hlt
      simp only at h
      split at h
      · cases h
      · rename_i rest hrest
        cases h
        have hgt := block_end_gt c bs s hbs hlt
        have hle := block_end_le_length c bs s
        have hge := skip_space_ge c (block_end c bs s)
        have hsk := skip_space_le c (block_end c bs s) hle
        have hstep := split_step c s (block_end c bs s) (by omega)
        have hslice : slice c (s, block_end c bs s) =
            (c.drop s).take (block_end c bs s - s) := rfl
        have hlastb := slice_getLast c s (block_end c bs s) hgt hle
        generalize he : block_end c bs s = e at *
        obtain ⟨ih1, ih2⟩ := ih (skip_space c e) rest hsk hrest
        simp only [List.map_cons, List.flatten_cons, List.length_append, ih1]
        rw [hstep, ← hslice]
        by_cases helt : e < c.length
        · by_cases hsp : isspace (byte_at c e) = true
          · have hp : splits_word c (s, e) = false := by
              simp [splits_word, isalpha_of_isspace _ hsp]
            rw [tokens_append_gap _ _ _ (gap_ne_nil c e helt hsp) (gap_all_space c e)]
            simp only [List.filter_cons, hp, List.length_append, Bool.false_eq_true, if_false]
            refine ⟨by omega, ?_⟩
            intro hall
            rw [ih2 (fun p hp1 => hall p (List.mem_cons_of_mem _ hp1))]
          · have hsp' : isspace (byte_at c e) = false := by simpa using hsp
            have hskip := skip_space_eq_self c e helt hsp'
            rw [gap_eq_nil c e helt hsp', List.nil_append, hskip]
            rw [hskip] at ih2
            by_cases hp : splits_word c (s, e) = true
            · have hp2 := hp
              simp only [splits_word, helt, decide_True, Bool.true_and, Bool.and_eq_true] at hp2
              have hcount := tokens_append_split _ (slice c (s, e)) (le_refl _) (c.drop e) _ _
                hlastb (head_drop c e helt) hp2.1 hp2.2
              simp only [List.filter_cons, hp, if_true, List.length_cons]
              refine ⟨by omega, ?_⟩
              intro hall
              have := hall (s, e) (List.mem_cons_self _ _)
              rw [hp] at this
              cases this
            · have hp' : splits_word c (s, e) = false := by simpa using hp
              have hns : tokens (slice c (s, e) ++ c.drop e) =
                  tokens (slice c (s, e)) ++ tokens (c.drop e) := by
                apply tokens_append_no_split
                intro x y hx hy hxy
                rw [hlastb] at hx
                rw [head_drop c e helt] at hy
                simp only [Option.some.injEq] at hx hy
                subst hx
                subst hy
                simp [splits_word, helt, hxy.1, hxy.2] at hp'
              rw [hns]
              simp only [List.filter_cons, hp', List.length_append, Bool.false_eq_true, if_false]
              refine ⟨by omega, ?_⟩
              intro hall
              rw [ih2 (fun p hp1 => hall p (List.mem_cons_of_mem _ hp1))]
        · have hp : splits_word c (s, e) = false := by
            simp [splits_word, helt]
          have hg : (c.drop e).takeWhile isspace = [] := by
            rw [List.drop_eq_nil_of_le (by omega)]
            rfl
          have hR : c.drop (skip_space c e) = [] := List.drop_eq_nil_of_le (by omega)
          rw [hg, hR, List.append_nil, List.append_nil]
          rw [hR, tokens_nil] at ih2
          simp only [List.filter_cons, hp, Bool.false_eq_true, if_false]
          refine ⟨by simp only [tokens_nil, List.length_nil]; omega, ?_⟩
          intro hall
          rw [ih2 (fun p hp1 => hall p (List.mem_cons_of_mem _ hp1)), List.append_nil]
    · cases h
      rw [List.drop_eq_nil_of_le (by omega)]
      simp [tokens_nil]

theorem split_bounds_tokens (bs : Nat) (c : List Nat) (bounds : List (Nat × Nat))
    (hbs : 1 ≤ bs) (hb : split_bounds bs c = some bounds) :
    (((bounds.map (slice c)).map tokens).flatten).length =
        (tokens c).length + (bounds.filter (splits_word c)).length ∧
      ((∀ p ∈ bounds, splits_word c p = false) →
        ((bounds.map (slice c)).map tokens).flatten = tokens c) := by
  unfold split_bounds at hb
  by_cases hlen : c.length ≤ bs
  · simp only [hlen, if_true, Option.some.injEq] at hb
    subst hb
    have h1 : slice c (0, c.length) = c := by simp [slice]
    have h2 : splits_word c (0, c.length) = false := by simp [splits_word]
    simp [h1, h2]
  · simp only [hlen, if_false] at hb
    exact split_bounds_loop_tokens c bs hbs _ 0 bounds (by omega) hb

theorem tokens_loop_length_le : ∀ (fuel : Nat) (ptr : List Nat),
    (tokens_loop fuel ptr).length ≤ ptr.length := by
  intro fuel
  induction fuel with
  | zero => intro ptr; simp [tokens_loop]
  | succ fuel ih =>
    intro ptr
    simp only [tokens_loop]
    split
    · simp
    · rename_i hne
      have hlt := dropWhile_alpha_length_lt ptr hne
      have := ih ((ptr.dropWhile (fun c => !isalpha c)).dropWhile isalpha)
      simp only [List.length_cons]
      omega

theorem tokens_length_le (x : List Nat) : (tokens x).length ≤ x.length :=
  tokens_loop_length_le _ _

theorem cuts_on_whitespace_no_split (bs : Nat) (c : List Nat) (bounds : List (Nat × Nat))
    (hcut : CutsOnWhitespace bs c) (hb : split_bounds bs c = some bounds) :
    ∀ p ∈ bounds, splits_word c p = false := by
  unfold split_bounds at hb
  by_cases hlen : c.length ≤ bs
  · simp only [hlen, if_true, Option.some.injEq] at hb
    subst hb
    intro p hp
    simp only [List.mem_singleton] at hp
    subst hp
    simp [splits_word]
  · simp only [hlen, if_false] at hb
    rcases hcut with h | ⟨hrun, hhead⟩
    · exact absurd h hlen
    · intro p hp
      by_cases hlt : p.2 < c.length
      · have := split_bounds_loop_on_space c bs hrun _ 0 bounds (head_not_space c hhead) hb
          p hp hlt
        simp [splits_word, isalpha_of_isspace _ this]
      · simp [splits_word, hlt]

theorem copies_of_a_succ (n : Nat) : copies_of_a (n + 1) = 97 :: 32 :: copies_of_a n := by
  simp [copies_of_a, List.replicate_succ]

theorem tokens_copies_of_a (n : Nat) : tokens (copies_of_a n) = List.replicate n [97] := by
  induction n with
  | zero => rfl
  | succ n ih =>
    rw [copies_of_a_succ, tokens_cons_alpha 97 _ (by decide)]
    have h32 : isalpha 32 = false := by decide
    simp only [List.takeWhile_cons, List.dropWhile_cons, h32, Bool.false_eq_true, if_false,
      List.map_nil]
    rw [tokens_cons_not_alpha 32 _ h32, ih, List.replicate_succ]
    rfl

theorem longest_run_from_copies_of_a (n : Nat) :
    ∀ cur, longest_run_from cur (copies_of_a n) ≤ cur + 1 := by
  induction n with
  | zero => intro cur; simp [copies_of_a, longest_run_from]
  | succ n ih =>
    intro cur
    rw [copies_of_a_succ]
    have h97 : isspace 97 = false := by decide
    have h32 : isspace 32 = true := by decide
    simp only [longest_run_from, h97, h32, Bool.false_eq_true, if_false, if_true]
    have := ih 0
    omega

theorem cuts_on_whitespace_copies_of_a (n bs : Nat) (hbs : 1 ≤ bs) :
    CutsOnWhitespace bs (copies_of_a n) := by
  right
  constructor
  · have := longest_run_from_copies_of_a n 0
    unfold longest_run
    omega
  · cases n with
    | zero => rfl
    | succ n => rw [copies_of_a_succ]; rfl

/-- What `load_txt` makes of `"a "` repeated `n` times: the word `a` is counted `n` times
over the blocks, its stored count is `n` as an `int` holds it, and it has a posting list. -/
theorem load_txt_copies_of_a (order : List Nat → List Nat) (horder : IsIterationOrder order)
    (n num_threads bs : Nat) (hbs : 1 ≤ bs) (hn : 0 < n) :
    ∃ wc1 blocks l, load_txt order (wordcount.new num_threads bs) (copies_of_a n) = some wc1 ∧
      split_into_blocks bs (copies_of_a n) = some blocks ∧
      (blocks.map (fun b => (tokens b).count [97])).sum = n ∧
      find [97] wc1.final_word_counts = some (int_wrap (n : Nat)) ∧
      find [97] wc1.inverted_index = some l ∧ l ≠ [] := by
  obtain ⟨blocks, hs⟩ := split_into_blocks_total bs (copies_of_a n) hbs
  obtain ⟨wc1, hload, hf, hx, _⟩ :=
    load_txt_new_some order horder num_threads bs (copies_of_a n) blocks hs
  have htok := split_into_blocks_tokens bs (copies_of_a n) blocks
    (cuts_on_whitespace_copies_of_a n bs hbs) hs
  have hocc : occurrences blocks [97] = n := by
    unfold occurrences
    rw [htok, tokens_copies_of_a, List.count_replicate_self]
  have hne : ¬ occurrences blocks [97] = 0 := by omega
  have hhits : ¬ hits blocks [97] (List.range blocks.length) = [] :=
    fun h => hne ((occurrences_eq_zero_iff blocks [97]).2 h)
  refine ⟨wc1, blocks, _, hload, hs, ?_, ?_, ?_, hhits⟩
  · rw [← occurrences_eq_sum, hocc]
  · rw [hf, if_neg hne, hocc]
  · rw [hx, if_neg hhits]

theorem reverse_is_iteration_order : IsIterationOrder List.reverse :=
  fun s => List.reverse_perm s

theorem int_wrap_two_pow_31 : int_wrap ((2147483648 : Nat) : Int) = -2147483648 := by
  rw [int_wrap_eq]
  norm_num

theorem worker_ids_eq_nil_iff (n bpt t : Nat) :
    worker_ids n bpt t = [] ↔ ¬ t * bpt < min (t * bpt + bpt) n := by
  unfold worker_ids
  rw [← List.length_eq_zero, List.length_range']
  omega

/-- The task of worker `t` in terms of its range: nothing when the range is empty,
otherwise the loop over the ids of the range, from empty containers. -/
theorem run_worker_range (order : List Nat → List Nat) (blocks : List Word) (bpt t : Nat)
    (wc : wordcount) :
    run_worker order blocks bpt t wc =
      if worker_ids blocks.length bpt t = [] then some wc
      else (worker_loop order blocks (worker_ids blocks.length bpt t) [] []).map
        (fun r => { wc with
          thread_local_maps := wc.thread_local_maps.set t r.1
          thread_local_indexes := wc.thread_local_indexes.set t r.2 }) := by
  unfold run_worker
  by_cases h : t * bpt < min (t * bpt + bpt) blocks.length
  · have hne : ¬ worker_ids blocks.length bpt t = [] := by
      rw [worker_ids_eq_nil_iff]; exact fun hn => hn h
    simp only [h, if_true, hne, if_false]
    unfold worker_ids
    cases worker_loop order blocks
      (List.range' (t * bpt) (min (t * bpt + bpt) blocks.length - t * bpt)) [] [] with
    | none => rfl
    | some r => rfl
  · have hnil : worker_ids blocks.length bpt t = [] := (worker_ids_eq_nil_iff _ _ _).2 h
    simp only [h, if_false, hnil, if_true]

/-- After `load_txt` on a fresh object, worker `t` holds the counts and the ids of
exactly the blocks of its range. -/
theorem load_txt_new_locals (order : List Nat → List Nat) (n bs : Nat) (content : List Nat)
    (blocks : List Word) (hs : split_into_blocks bs content = some blocks) :
    ∃ wc1, load_txt order (wordcount.new n bs) content = some wc1 ∧
      wc1.thread_local_maps =
        (List.range (wordcount.new n bs).thread_count).map (fun t =>
          count_tokens [] (worker_tokens blocks (worker_ids blocks.length
            ((blocks.length + (wordcount.new n bs).thread_count - 1) /
              (wordcount.new n bs).thread_count) t))) ∧
      wc1.thread_local_indexes =
        (List.range (wordcount.new n bs).thread_count).map (fun t =>
          index_blocks order blocks (worker_ids blocks.length
            ((blocks.length + (wordcount.new n bs).thread_count - 1) /
              (wordcount.new n bs).thread_count) t) []) := by
  obtain ⟨h1, h2, h3, h4⟩ := new_invariant n bs
  obtain ⟨wc1, hload, _, _, _, _, hm, hi⟩ :=
    load_txt_eq order (wordcount.new n bs) content blocks h1 h2 (by rw [h4]; exact hs)
  exact ⟨wc1, hload, hm, hi⟩

/-! ## The claims -/

/-- C1: for every corpus, every target block size of at least 1 and every requested
worker count, and whatever the order in which the workers' `std::unordered_set`s are
iterated, `load_txt` returns, and the inverted index it builds has, for each word `w`,
exactly the strictly ascending list `ids` of the ids of the blocks of
`split_into_blocks` that have `w` among their tokens; a word that is a token of no block
(`ids = []`) has no entry. -/
theorem inverted_index_lists_blocks_of_word (order : List Nat → List Nat)
    (horder : IsIterationOrder order) (corpus : List Nat) (block_size num_threads : Nat)
    (hbs : 1 ≤ block_size) :
    ∃ wc1 blocks, load_txt order (wordcount.new num_threads block_size) corpus = some wc1 ∧
      split_into_blocks block_size corpus = some blocks ∧
      ∀ w : Word, ∃ ids : List Nat,
        find w wc1.inverted_index = (if ids = [] then none else some ids) ∧
        ids.Sorted (fun a b => a < b) ∧
        ∀ i, i ∈ ids ↔ (i < blocks.length ∧ w ∈ tokens (block_at blocks i)) := by
  obtain ⟨blocks, hs⟩ := split_into_blocks_total block_size corpus hbs
  obtain ⟨wc1, hload, _, hx, _⟩ :=
    load_txt_new_some order horder num_threads block_size corpus blocks hs
  refine ⟨wc1, blocks, hload, hs, ?_⟩
  intro w
  exact ⟨hits blocks w (List.range blocks.length), hx w, hits_range_sorted blocks w _,
    mem_hits_range blocks w⟩

/-- C1 at a concrete input: `"The cat sat.      The CAT ran!"` splits into 2 blocks at
target size 12; with 2 workers `the` and `cat` get `[0, 1]`, `sat` gets `[0]` and `ran`
gets `[1]`. With 1 worker whose sets are iterated newest element first, the worker holds
`[1, 0]` for `the` and `cat`, and the index still lists `[0, 1]`. -/
theorem inverted_index_two_blocks_two_workers :
    split_into_blocks 12 two_block_corpus =
      some [[84, 104, 101, 32, 99, 97, 116, 32, 115, 97, 116, 46],
        [84, 104, 101, 32, 67, 65, 84, 32, 114, 97, 110, 33]] ∧
    (load_txt List.reverse (wordcount.new 2 12) two_block_corpus).map
        (fun wc => wc.inverted_index) =
      some [([116, 104, 101], [0, 1]), ([99, 97, 116], [0, 1]), ([115, 97, 116], [0]),
        ([114, 97, 110], [1])] ∧
    (load_txt List.reverse (wordcount.new 1 12) two_block_corpus).map
        (fun wc => (wc.thread_local_indexes, wc.inverted_index)) =
      some ([[([116, 104, 101], [1, 0]), ([99, 97, 116], [1, 0]), ([115, 97, 116], [0]),
          ([114, 97, 110], [1])]],
        [([116, 104, 101], [0, 1]), ([99, 97, 116], [0, 1]), ([115, 97, 116], [0]),
          ([114, 97, 110], [1])]) ∧
    IsIterationOrder List.reverse ∧
    ∃ wc1 blocks, load_txt List.reverse (wordcount.new 2 12) two_block_corpus = some wc1 ∧
      split_into_blocks 12 two_block_corpus = some blocks ∧
      ∀ w : Word, ∃ ids : List Nat,
        find w wc1.inverted_index = (if ids = [] then none else some ids) ∧
        ids.Sorted (fun a b => a < b) ∧
        ∀ i, i ∈ ids ↔ (i < blocks.length ∧ w ∈ tokens (block_at blocks i)) :=
  ⟨by decide, by decide, by decide, reverse_is_iteration_order,
    inverted_index_lists_blocks_of_word List.reverse reverse_is_iteration_order
      two_block_corpus 12 2 (by decide)⟩

/-- C2, the claim as stated fails: for the corpus `"abcdef"` with target block size 3 and
1 worker, `load_txt` counts `abc` once and `def` once, 2 words in total, while a single
pass over the whole corpus counts the one word `abcdef`. -/
theorem hard_cut_splits_a_word :
    (load_txt List.reverse (wordcount.new 1 3) run_corpus).map
        (fun wc => (wc.final_word_counts, get_total_word_count wc)) =
      some ([([97, 98, 99], 1), ([100, 101, 102], 1)], 2) ∧
    count_words_in_text_local run_corpus [] = some [([97, 98, 99, 100, 101, 102], 1)] ∧
    (tokens run_corpus).length = 1 := by
  decide

/-- C2 as amended: for every corpus, target block size of at least 1 and worker count,
`load_txt` returns. When no block of `split_into_blocks` ends inside a word, that is
between two alphabetic bytes, the frequency table equals, word by word, the table that
`count_words_in_text_local` builds in a single pass over the whole corpus, and
`get_total_word_count` is the number of tokens of the corpus provided no word occurs
`2^31` times or more (the corpus being shorter than `2^64` bytes). This is the case in
particular when the corpus fits in one block, or does not begin with a whitespace byte and
has no whitespace-free run longer than the target size. In general, as long as no word is
counted `2^31` times or more over the blocks, `get_total_word_count` is, modulo `2^64`, the
number of tokens of the corpus plus the number of blocks that end inside a word. -/
theorem frequency_table_matches_single_pass (order : List Nat → List Nat)
    (corpus : List Nat) (block_size num_threads : Nat) (hbs : 1 ≤ block_size) :
    ∃ wc1 direct bounds,
      load_txt order (wordcount.new num_threads block_size) corpus = some wc1 ∧
      count_words_in_text_local corpus [] = some direct ∧
      split_bounds block_size corpus = some bounds ∧
      split_into_blocks block_size corpus = some (bounds.map (slice corpus)) ∧
      ((∀ p ∈ bounds, splits_word corpus p = false) →
        (∀ w, find w wc1.final_word_counts = find w direct) ∧
        ((∀ w, (tokens corpus).count w < 2147483648) →
          corpus.length < 18446744073709551616 →
          get_total_word_count wc1 = (tokens corpus).length)) ∧
      (CutsOnWhitespace block_size corpus → ∀ p ∈ bounds, splits_word corpus p = false) ∧
      ((∀ w, ((bounds.map (slice corpus)).map (fun b => (tokens b).count w)).sum <
          2147483648) →
        get_total_word_count wc1 =
          ((tokens corpus).length + (bounds.filter (splits_word corpus)).length) %
            18446744073709551616) := by
  obtain ⟨bounds, hb⟩ : ∃ bounds, split_bounds block_size corpus = some bounds := by
    unfold split_bounds
    split
    · exact ⟨_, rfl⟩
    · exact split_bounds_loop_total corpus block_size hbs _ _ (by omega)
  have hs : split_into_blocks block_size corpus = some (bounds.map (slice corpus)) := by
    rw [split_into_blocks_eq_bounds, hb]; rfl
  obtain ⟨wc1, hload, hf, _, htotal⟩ :=
    load_txt_new_counts order num_threads block_size corpus _ hs
  obtain ⟨hcount, htok⟩ := split_bounds_tokens block_size corpus bounds hbs hb
  refine ⟨wc1, _, bounds, hload, count_words_in_text_local_eq corpus [], hb, hs, ?_,
    fun hcut => cuts_on_whitespace_no_split block_size corpus bounds hcut hb, ?_⟩
  · intro hno
    have htok1 := htok hno
    have hocc : ∀ w, occurrences (bounds.map (slice corpus)) w = (tokens corpus).count w := by
      intro w
      unfold occurrences
      rw [htok1]
    refine ⟨?_, ?_⟩
    · intro w
      rw [hf w, find_count_tokens, hocc]
      simp only [find, Option.getD_none, zero_add]
    · intro hbound hlen
      rw [htotal (fun w => by rw [hocc]; exact hbound w), htok1]
      have := tokens_length_le corpus
      omega
  · intro hbound
    rw [htotal (fun w => by rw [occurrences_eq_sum]; exact hbound w), hcount]

/-- C2 as amended, at concrete inputs: `"The cat sat.      The CAT ran!"` with target
size 12 and 2 workers; and `"  abc def"`, which begins with whitespace, at target size 3:
its blocks are `" "`, `abc`, `def`, none ends inside a word and the table is that of a
single pass. -/
theorem frequency_table_matches_single_pass_two_blocks :
    (split_bounds 3 padded_corpus).map
        (fun bounds => (bounds, bounds.filter (splits_word padded_corpus))) =
      some ([(0, 1), (2, 5), (6, 9)], []) ∧
    (load_txt List.reverse (wordcount.new 1 3) padded_corpus).map
        (fun wc => (wc.final_word_counts, get_total_word_count wc)) =
      some ([([97, 98, 99], 1), ([100, 101, 102], 1)], 2) ∧
    count_words_in_text_local padded_corpus [] =
      some [([97, 98, 99], 1), ([100, 101, 102], 1)] ∧
    ∃ wc1 direct bounds,
      load_txt List.reverse (wordcount.new 2 12) two_block_corpus = some wc1 ∧
      count_words_in_text_local two_block_corpus [] = some direct ∧
      split_bounds 12 two_block_corpus = some bounds ∧
      split_into_blocks 12 two_block_corpus = some (bounds.map (slice two_block_corpus)) ∧
      ((∀ p ∈ bounds, splits_word two_block_corpus p = false) →
        (∀ w, find w wc1.final_word_counts = find w direct) ∧
        ((∀ w, (tokens two_block_corpus).count w < 2147483648) →
          two_block_corpus.length < 18446744073709551616 →
          get_total_word_count wc1 = (tokens two_block_corpus).length)) ∧
      (CutsOnWhitespace 12 two_block_corpus →
        ∀ p ∈ bounds, splits_word two_block_corpus p = false) ∧
      ((∀ w, ((bounds.map (slice two_block_corpus)).map
          (fun b => (tokens b).count w)).sum < 2147483648) →
        get_total_word_count wc1 =
          ((tokens two_block_corpus).length +
            (bounds.filter (splits_word two_block_corpus)).length) %
            18446744073709551616) :=
  ⟨by decide, by decide, by decide,
    frequency_table_matches_single_pass List.reverse two_block_corpus 12 2 (by decide)⟩

/-- C3: for every corpus and every target block size, and whatever the orders in which
the `std::unordered_set`s are iterated in the three runs, `load_txt` gives the same count
and the same posting list to every word whether the object was constructed with 1, 2 or
8 workers (and does not return for any of them when it does not return for one); with a
target block size of at least 1 it returns. -/
theorem results_independent_of_worker_count (order1 order2 order8 : List Nat → List Nat)
    (h1 : IsIterationOrder order1) (h2 : IsIterationOrder order2)
    (h8 : IsIterationOrder order8) (corpus : List Nat) (block_size : Nat) :
    (load_txt order1 (wordcount.new 1 block_size) corpus).map results =
      (load_txt order2 (wordcount.new 2 block_size) corpus).map results ∧
    (load_txt order2 (wordcount.new 2 block_size) corpus).map results =
      (load_txt order8 (wordcount.new 8 block_size) corpus).map results ∧
    (load_txt order1 (wordcount.new 1 block_size) corpus).map results =
      (load_txt order8 (wordcount.new 8 block_size) corpus).map results ∧
    (1 ≤ block_size →
      ∃ wc1 wc2 wc8, load_txt order1 (wordcount.new 1 block_size) corpus = some wc1 ∧
        load_txt order2 (wordcount.new 2 block_size) corpus = some wc2 ∧
        load_txt order8 (wordcount.new 8 block_size) corpus = some wc8) := by
  refine ⟨?_, ?_, ?_, ?_⟩
  · rw [load_txt_new_results order1 h1, load_txt_new_results order2 h2]
  · rw [load_txt_new_results order2 h2, load_txt_new_results order8 h8]
  · rw [load_txt_new_results order1 h1, load_txt_new_results order8 h8]
  · intro hbs
    obtain ⟨blocks, hs⟩ := split_into_blocks_total block_size corpus hbs
    obtain ⟨wc1, g1, _⟩ := load_txt_new_some order1 h1 1 block_size corpus blocks hs
    obtain ⟨wc2, g2, _⟩ := load_txt_new_some order2 h2 2 block_size corpus blocks hs
    obtain ⟨wc8, g8, _⟩ := load_txt_new_some order8 h8 8 block_size corpus blocks hs
    exact ⟨wc1, wc2, wc8, g1, g2, g8⟩

/-- C3 at a concrete input: `"The cat sat.      The CAT ran!"` at target size 12; the run
with 1 worker iterates its sets newest element first, the other two in insertion order;
the three runs return the same table `the: 2, cat: 2, sat: 1, ran: 1` and the same
index. -/
theorem results_independent_two_blocks :
    ((load_txt List.reverse (wordcount.new 1 12) two_block_corpus).map
        (fun wc => (wc.final_word_counts, wc.inverted_index)) =
        some ([([116, 104, 101], 2), ([99, 97, 116], 2), ([115, 97, 116], 1),
          ([114, 97, 110], 1)],
          [([116, 104, 101], [0, 1]), ([99, 97, 116], [0, 1]), ([115, 97, 116], [0]),
            ([114, 97, 110], [1])]) ∧
      (load_txt id (wordcount.new 2 12) two_block_corpus).map
          (fun wc => (wc.final_word_counts, wc.inverted_index)) =
        (load_txt List.reverse (wordcount.new 1 12) two_block_corpus).map
          (fun wc => (wc.final_word_counts, wc.inverted_index)) ∧
      (load_txt id (wordcount.new 8 12) two_block_corpus).map
          (fun wc => (wc.final_word_counts, wc.inverted_index)) =
        (load_txt List.reverse (wordcount.new 1 12) two_block_corpus).map
          (fun wc => (wc.final_word_counts, wc.inverted_index))) ∧
    (load_txt List.reverse (wordcount.new 1 12) two_block_corpus).map results =
      (load_txt id (wordcount.new 2 12) two_block_corpus).map results ∧
    (load_txt id (wordcount.new 2 12) two_block_corpus).map results =
      (load_txt id (wordcount.new 8 12) two_block_corpus).map results ∧
    (load_txt List.reverse (wordcount.new 1 12) two_block_corpus).map results =
      (load_txt id (wordcount.new 8 12) two_block_corpus).map results ∧
    (1 ≤ 12 →
      ∃ wc1 wc2 wc8, load_txt List.reverse (wordcount.new 1 12) two_block_corpus = some wc1 ∧
        load_txt id (wordcount.new 2 12) two_block_corpus = some wc2 ∧
        load_txt id (wordcount.new 8 12) two_block_corpus = some wc8) :=
  ⟨⟨by decide, by decide, by decide⟩,
    results_independent_of_worker_count List.reverse id id
      reverse_is_iteration_order (fun s => List.Perm.refl s) (fun s => List.Perm.refl s)
      two_block_corpus 12⟩

/-- C4: for every index that is in memory (distinct words; words and posting lists that
can be constructed with their lengths, whatever the free store `heap` grants; ids that are
`size_t` values) and whatever the order `wc.inverted_index` in which `save_inverted_index`
iterates over its entries, `load_inverted_index` succeeds on the bytes written and leaves
a map that gives every word the posting list the original index gives it, in the same
order, and has no entry for any other word. -/
theorem save_load_round_trip (heap : Heap) (wc wc0 : wordcount) (index : InvertedIndex)
    (hwf : WellFormedIndex heap index) (horder : wc.inverted_index.Perm index) :
    ∃ wc1, load_inverted_index heap wc0 (save_inverted_index wc) = some (true, wc1) ∧
      (wc1.inverted_index.map Prod.fst).Nodup ∧
      ∀ w, find w wc1.inverted_index = find w index := by
  obtain ⟨hnd, hlen, hfit⟩ := hwf
  have hlen1 : wc.inverted_index.length < 2 ^ 64 := by rw [horder.length_eq]; exact hlen
  have hfit1 : ∀ e ∈ wc.inverted_index, EntryFits heap e :=
    fun e he => hfit e (horder.subset he)
  have hnd1 : (wc.inverted_index.map Prod.fst).Nodup := (horder.map Prod.fst).nodup_iff.2 hnd
  have hload := load_entries_saved heap wc.inverted_index hfit1 [] 0 []
  simp only [Nat.add_zero, List.append_nil] at hload
  refine ⟨{ wc0 with inverted_index := store_entries [] wc.inverted_index }, ?_, ?_, ?_⟩
  · unfold load_inverted_index save_inverted_index
    rw [read_size_t_append _ hlen1]
    simp only [hload, load_entries]
  · exact keys_store_entries _ _ List.nodup_nil
  · intro w
    simp only
    rw [find_store_entries w _ hnd1, ← find_perm w _ _ horder hnd1]
    cases find w wc.inverted_index <;> rfl

/-- C4 at a concrete input: the index `ab -> [0, 3]`, `c -> [1]` written with the entry of
`c` first. -/
theorem save_load_round_trip_two_entries :
    WellFormedIndex roomy_heap sample_index ∧
    (with_index sample_index.reverse).inverted_index.Perm sample_index ∧
    ∃ wc1, load_inverted_index roomy_heap (wordcount.new 1 16777216)
        (save_inverted_index (with_index sample_index.reverse)) = some (true, wc1) ∧
      (wc1.inverted_index.map Prod.fst).Nodup ∧
      ∀ w, find w wc1.inverted_index = find w sample_index :=
  ⟨sample_index_well_formed, by decide,
    save_load_round_trip roomy_heap (with_index sample_index.reverse)
      (wordcount.new 1 16777216) sample_index sample_index_well_formed (by decide)⟩

/-- C5, the claim as stated fails: on a stream whose entry count says 5 and that ends
after the 2 complete entries `ab -> [0, 3]` and `c -> [1]`, `load_inverted_index` returns
false and the index keeps the 2 decoded entries: `has_inverted_index` is true and
`search_word` finds `ab` in blocks 0 and 3. -/
theorem load_truncated_keeps_two_entries :
    (load_inverted_index roomy_heap (wordcount.new 1 16777216) truncated_stream).map
        (fun r => (r.1, r.2.inverted_index, has_inverted_index r.2, search_word r.2 [97, 98])) =
      some (false, [([97, 98], [0, 3]), ([99], [1])], true, [0, 3]) := by
  decide

/-- C5 as amended: whenever `load_inverted_index` returns false, whatever the index held
before the call and whatever the free store grants, only the index changes, and it holds
exactly what the entries decoded before the failing read left in it. It is empty when the
entry count cannot be read. Otherwise there is a number `j` of entries, smaller than the
entry count read, such that decoding `j` entries of the stream succeeds and builds the
index, and decoding one more fails at a short read; `has_inverted_index` is false exactly
when `j = 0`, that is when no entry was decoded completely. -/
theorem load_failure_keeps_decoded_entries (heap : Heap) (wc wc1 : wordcount)
    (file : List Nat) (h : load_inverted_index heap wc file = some (false, wc1)) :
    wc1 = { wc with inverted_index := wc1.inverted_index } ∧
    ((file.length < 8 ∧ wc1.inverted_index = [] ∧ has_inverted_index wc1 = false) ∨
      (8 ≤ file.length ∧ ∃ j, j < size_t_of_bytes (file.take 8) ∧
        load_entries heap j (file.drop 8) [] = some (true, wc1.inverted_index) ∧
        load_entries heap (j + 1) (file.drop 8) [] = some (false, wc1.inverted_index) ∧
        (has_inverted_index wc1 = false ↔ j = 0))) := by
  unfold load_inverted_index at h
  rw [read_size_t_eq] at h
  by_cases c : 8 ≤ file.length
  · simp only [c, if_true] at h
    split at h
    · cases h
    · rename_i ok index hload
      simp only [Option.some.injEq, Prod.mk.injEq] at h
      obtain ⟨hok, hwc⟩ := h
      subst hok
      subst hwc
      refine ⟨rfl, Or.inr ⟨c, ?_⟩⟩
      obtain ⟨j, hj, h1, h2⟩ := load_entries_false heap _ _ _ _ hload
      refine ⟨j, hj, h1, h2, ?_⟩
      constructor
      · intro hhas
        by_contra hj0
        have hne := load_entries_ne_nil heap j _ _ _ h1 (Or.inl (by omega))
        cases hidx : index with
        | nil => exact hne hidx
        | cons e rest => simp [has_inverted_index, hidx] at hhas
      · intro hj0
        subst hj0
        simp only [load_entries, Option.some.injEq, Prod.mk.injEq, true_and] at h1
        simp [has_inverted_index, ← h1]
  · simp only [c, if_false, Option.some.injEq, Prod.mk.injEq, true_and] at h
    subst h
    exact ⟨rfl, Or.inl ⟨by omega, rfl, rfl⟩⟩

/-- C5 as amended, at the stream whose count says 5 and that ends after 2 entries. -/
theorem load_failure_keeps_decoded_entries_truncated :
    load_inverted_index roomy_heap (wordcount.new 1 16777216) truncated_stream =
      some (false, with_index sample_index) ∧
    with_index sample_index =
      { wordcount.new 1 16777216 with
        inverted_index := (with_index sample_index).inverted_index } ∧
    ((truncated_stream.length < 8 ∧ (with_index sample_index).inverted_index = [] ∧
        has_inverted_index (with_index sample_index) = false) ∨
      (8 ≤ truncated_stream.length ∧ ∃ j, j < size_t_of_bytes (truncated_stream.take 8) ∧
        load_entries roomy_heap j (truncated_stream.drop 8) [] =
          some (true, (with_index sample_index).inverted_index) ∧
        load_entries roomy_heap (j + 1) (truncated_stream.drop 8) [] =
          some (false, (with_index sample_index).inverted_index) ∧
        (has_inverted_index (with_index sample_index) = false ↔ j = 0))) :=
  ⟨rfl, load_failure_keeps_decoded_entries roomy_heap (wordcount.new 1 16777216)
    (with_index sample_index) truncated_stream rfl⟩

/-- C6: for every index that is in memory and every strict initial segment (the first `k`
bytes, `k` smaller than the length, `k = 0` included) of the bytes `save_inverted_index`
writes for it, `load_inverted_index` returns false. -/
theorem load_truncated_fails (heap : Heap) (wc wc0 : wordcount)
    (hwf : WellFormedIndex heap wc.inverted_index)
    (k : Nat) (hk : k < (save_inverted_index wc).length) :
    ∃ wc1, load_inverted_index heap wc0 ((save_inverted_index wc).take k) =
      some (false, wc1) := by
  obtain ⟨_, hlen, hfit⟩ := hwf
  unfold load_inverted_index
  unfold save_inverted_index at hk ⊢
  rw [read_size_t_take_append _ hlen]
  by_cases c : 8 ≤ k
  · simp only [c, if_true]
    simp only [List.length_append, size_t_bytes_length] at hk
    obtain ⟨j, _, hload⟩ :=
      load_entries_truncated heap wc.inverted_index hfit (k - 8) [] (by omega)
    simp only [hload]
    exact ⟨_, rfl⟩
  · simp only [c, if_false]
    exact ⟨_, rfl⟩

/-- C6 at a concrete input: the first 20 bytes of the 67 written for the index
`ab -> [0, 3]`, `c -> [1]` (the cut falls inside the posting-list length of `ab`). -/
theorem load_truncated_fails_twenty_bytes :
    WellFormedIndex roomy_heap (with_index sample_index).inverted_index ∧
    20 < (save_inverted_index (with_index sample_index)).length ∧
    ∃ wc1, load_inverted_index roomy_heap (wordcount.new 1 16777216)
      ((save_inverted_index (with_index sample_index)).take 20) = some (false, wc1) :=
  ⟨sample_index_well_formed, by decide,
    load_truncated_fails roomy_heap (with_index sample_index) (wordcount.new 1 16777216)
      sample_index_well_formed 20 (by decide)⟩

/-- C7: for every corpus, target block size of at least 1 and requested worker count, and
whatever the order in which the workers' `std::unordered_set`s are iterated, `load_txt`
returns and every posting list of the inverted index it builds is strictly ascending, with
every id smaller than the number of blocks of `split_into_blocks`. -/
theorem posting_lists_ascending_and_in_range (order : List Nat → List Nat)
    (horder : IsIterationOrder order) (corpus : List Nat)
    (block_size num_threads : Nat) (hbs : 1 ≤ block_size) :
    ∃ wc1 blocks, load_txt order (wordcount.new num_threads block_size) corpus = some wc1 ∧
      split_into_blocks block_size corpus = some blocks ∧
      ∀ e ∈ wc1.inverted_index,
        e.2.Sorted (fun a b => a < b) ∧ ∀ id ∈ e.2, id < blocks.length := by
  obtain ⟨blocks, hs⟩ := split_into_blocks_total block_size corpus hbs
  obtain ⟨wc1, hload, _, hx, hnd, _⟩ :=
    load_txt_new_some order horder num_threads block_size corpus blocks hs
  refine ⟨wc1, blocks, hload, hs, ?_⟩
  intro e he
  have hfind := find_of_mem wc1.inverted_index hnd e he
  rw [hx e.1] at hfind
  split at hfind
  · cases hfind
  · simp only [Option.some.injEq] at hfind
    rw [← hfind]
    refine ⟨hits_range_sorted blocks e.1 _, ?_⟩
    intro id hid
    exact ((mem_hits_range blocks e.1 id).1 hid).1

/-- C7 at a concrete input: `"The cat sat.      The CAT ran!"`, target size 12, 1 worker
whose sets are iterated newest element first (it holds `[1, 0]` for `the`). -/
theorem posting_lists_ascending_two_blocks :
    (load_txt List.reverse (wordcount.new 1 12) two_block_corpus).map
        (fun wc => (wc.thread_local_indexes.map (find [116, 104, 101]),
          find [116, 104, 101] wc.inverted_index)) =
      some ([some [1, 0]], some [0, 1]) ∧
    IsIterationOrder List.reverse ∧
    ∃ wc1 blocks, load_txt List.reverse (wordcount.new 1 12) two_block_corpus = some wc1 ∧
      split_into_blocks 12 two_block_corpus = some blocks ∧
      ∀ e ∈ wc1.inverted_index,
        e.2.Sorted (fun a b => a < b) ∧ ∀ id ∈ e.2, id < blocks.length :=
  ⟨by decide, reverse_is_iteration_order,
    posting_lists_ascending_and_in_range List.reverse reverse_is_iteration_order
      two_block_corpus 12 1 (by decide)⟩

/-- C8, the claim as stated fails: for the empty corpus and the target size 16 MiB
`split_into_blocks` returns one block, the empty string, not zero blocks. -/
theorem split_empty_corpus_one_block :
    split_into_blocks 16777216 [] = some [[]] ∧
      (split_into_blocks 16777216 []).map List.length = some 1 := by
  decide

/-- C8 as amended: for the empty corpus and any target block size, `split_into_blocks`
returns exactly one block, the empty string, which has no token. -/
theorem split_empty_corpus (block_size : Nat) :
    split_into_blocks block_size [] = some [[]] ∧ tokens [] = [] := by
  constructor
  · simp [split_into_blocks]
  · rfl

/-- C9, the claim as stated fails: `"ab "` at target size 2 gives the one block `ab`, which
collapses to `"ab"` while the corpus collapses to `"ab "`; `"abcdef"` at target size 3 gives
`abc` and `def`, joined and collapsed `"abc def"`, while the corpus collapses to
`"abcdef"`; `" abc def"` at target size 3 gives `" ab"`, `c`, `def`, joined and collapsed
`" ab c def"`, while the corpus collapses to `" abc def"`. -/
theorem rejoined_blocks_differ_from_corpus :
    (split_into_blocks 2 trailing_space_corpus).map
        (fun blocks => collapse (join_blocks 32 blocks)) =
      some [97, 98] ∧
    collapse trailing_space_corpus = [97, 98, 32] ∧
    (split_into_blocks 3 run_corpus).map (fun blocks => collapse (join_blocks 32 blocks)) =
      some [97, 98, 99, 32, 100, 101, 102] ∧
    collapse run_corpus = [97, 98, 99, 100, 101, 102] ∧
    (split_into_blocks 3 leading_space_corpus).map
        (fun blocks => collapse (join_blocks 32 blocks)) =
      some [32, 97, 98, 32, 99, 32, 100, 101, 102] ∧
    collapse leading_space_corpus = [32, 97, 98, 99, 32, 100, 101, 102] := by
  decide

/-- C9 as amended: for every corpus and every target block size of at least 1,
`split_into_blocks` returns blocks whose bytes other than whitespace are, in order, the
bytes other than whitespace of the corpus. Joining the blocks in order with a single
whitespace byte `sep` between consecutive blocks and collapsing every run of whitespace
gives the collapsed corpus exactly when every block reaches the end of the corpus, or
ends with a whitespace byte, or is followed by a whitespace byte and, after the
whitespace, by another block. That is the case in particular when the corpus fits in one
block, or neither begins nor ends with a whitespace byte and has no whitespace-free run
longer than the target size. -/
theorem rejoined_blocks_collapse_to_corpus (corpus : List Nat) (block_size : Nat)
    (hbs : 1 ≤ block_size) :
    ∃ bounds, split_bounds block_size corpus = some bounds ∧
      split_into_blocks block_size corpus = some (bounds.map (slice corpus)) ∧
      (bounds.map (slice corpus)).flatten.filter (fun x => !isspace x) =
        corpus.filter (fun x => !isspace x) ∧
      (∀ sep, isspace sep = true →
        (collapse (join_blocks sep (bounds.map (slice corpus))) = collapse corpus ↔
          ∀ p ∈ bounds, joins_cleanly corpus p = true)) ∧
      (CutsOnWhitespace block_size corpus →
        (corpus.length ≤ block_size ∨ ends_with_space corpus = false) →
        ∀ p ∈ bounds, joins_cleanly corpus p = true) := by
  obtain ⟨bounds, hb⟩ : ∃ bounds, split_bounds block_size corpus = some bounds := by
    unfold split_bounds
    split
    · exact ⟨_, rfl⟩
    · exact split_bounds_loop_total corpus block_size hbs _ _ (by omega)
  have hs : split_into_blocks block_size corpus = some (bounds.map (slice corpus)) := by
    rw [split_into_blocks_eq_bounds, hb]; rfl
  refine ⟨bounds, hb, hs, split_into_blocks_keeps_bytes block_size corpus _ hs, ?_, ?_⟩
  · intro sep hsep
    exact split_bounds_collapse_iff block_size corpus bounds hbs sep hsep hb
  · intro hcut hlast
    exact (split_bounds_collapse_iff block_size corpus bounds hbs 32 isspace_32 hb).1
      (split_into_blocks_collapse block_size corpus _ hcut hlast 32 isspace_32 hs)

/-- C9 as amended, at concrete inputs: `"The cat sat.      The CAT ran!"` at target size
12; and `"ab cd\n"`, which ends with whitespace, at target size 4: its blocks `ab` and
`"cd\n"` meet the condition and rejoin to the collapsed corpus, while the one block `ab`
of `"ab "` at target size 2 does not meet it. -/
theorem rejoined_blocks_collapse_two_blocks :
    (split_bounds 4 line_corpus).map
        (fun bounds => (bounds, bounds.map (joins_cleanly line_corpus),
          collapse (join_blocks 32 (bounds.map (slice line_corpus))))) =
      some ([(0, 2), (3, 6)], [true, true], [97, 98, 32, 99, 100, 32]) ∧
    collapse line_corpus = [97, 98, 32, 99, 100, 32] ∧
    (split_bounds 2 trailing_space_corpus).map
        (fun bounds => (bounds, bounds.map (joins_cleanly trailing_space_corpus))) =
      some ([(0, 2)], [false]) ∧
    ∃ bounds, split_bounds 12 two_block_corpus = some bounds ∧
      split_into_blocks 12 two_block_corpus = some (bounds.map (slice two_block_corpus)) ∧
      (bounds.map (slice two_block_corpus)).flatten.filter (fun x => !isspace x) =
        two_block_corpus.filter (fun x => !isspace x) ∧
      (∀ sep, isspace sep = true →
        (collapse (join_blocks sep (bounds.map (slice two_block_corpus))) =
            collapse two_block_corpus ↔
          ∀ p ∈ bounds, joins_cleanly two_block_corpus p = true)) ∧
      (CutsOnWhitespace 12 two_block_corpus →
        (two_block_corpus.length ≤ 12 ∨ ends_with_space two_block_corpus = false) →
        ∀ p ∈ bounds, joins_cleanly two_block_corpus p = true) :=
  ⟨by decide, by decide, by decide,
    rejoined_blocks_collapse_to_corpus two_block_corpus 12 (by decide)⟩

/-- C10: for every corpus and every target block size of at least 1, `split_into_blocks`
returns and every block has length at most the target size; this holds also when the
corpus has a whitespace-free run longer than the target size, where the hard cut is made
at exactly the target size. -/
theorem blocks_within_target_size (corpus : List Nat) (block_size : Nat)
    (hbs : 1 ≤ block_size) :
    ∃ blocks, split_into_blocks block_size corpus = some blocks ∧
      ∀ b ∈ blocks, b.length ≤ block_size := by
  obtain ⟨blocks, hs⟩ := split_into_blocks_total block_size corpus hbs
  exact ⟨blocks, hs, split_into_blocks_length_le block_size corpus blocks hs⟩

/-- C10 at a concrete input: `"abcdef"` at target size 3 gives the blocks `abc` and
`def`. -/
theorem blocks_within_target_size_hard_cut :
    split_into_blocks 3 run_corpus = some [[97, 98, 99], [100, 101, 102]] ∧
    ∃ blocks, split_into_blocks 3 run_corpus = some blocks ∧ ∀ b ∈ blocks, b.length ≤ 3 :=
  ⟨by decide, blocks_within_target_size run_corpus 3 (by decide)⟩

/-- C11: for every byte input `x`, every token `t` of `x` tokenizes to the one-element
sequence `[t]`, and for every non-alphabetic separator byte `sep` the tokens of `x`
joined with `sep` between consecutive tokens tokenize to the same sequence as `x`, so
that `count_words_in_text_local` builds the same table from both. -/
theorem tokenizing_tokens_changes_nothing (x : List Nat) (sep : Nat)
    (hsep : isalpha sep = false) :
    (∀ t ∈ tokens x, tokens t = [t]) ∧
    tokens (join_blocks sep (tokens x)) = tokens x ∧
    ∀ m, count_words_in_text_local (join_blocks sep (tokens x)) m =
      count_words_in_text_local x m := by
  have hlow := tokens_lower x.length x (le_refl _)
  have hjoin := tokens_join_lower_words sep hsep (tokens x) hlow
  refine ⟨?_, hjoin, ?_⟩
  · intro t ht
    exact tokens_of_lower_word t (hlow t ht).1 (hlow t ht).2
  · intro m
    rw [count_words_in_text_local_eq, count_words_in_text_local_eq, hjoin]

/-- C11 at a concrete input: `"The cat sat. The CAT ran!"` with a space as separator. -/
theorem tokenizing_tokens_of_cat_corpus :
    tokens cat_corpus =
      [[116, 104, 101], [99, 97, 116], [115, 97, 116], [116, 104, 101], [99, 97, 116],
        [114, 97, 110]] ∧
    (∀ t ∈ tokens cat_corpus, tokens t = [t]) ∧
    tokens (join_blocks 32 (tokens cat_corpus)) = tokens cat_corpus ∧
    ∀ m, count_words_in_text_local (join_blocks 32 (tokens cat_corpus)) m =
      count_words_in_text_local cat_corpus m :=
  ⟨by decide, tokenizing_tokens_changes_nothing cat_corpus 32 (by decide)⟩

/-- C12, the claim as stated fails: for the corpus `"a "` repeated `2^31` times (4 GiB),
with 16 MiB blocks and 1 worker, the word `a` occurs `2147483648` times among the tokens
of the blocks, and the frequency table holds `-2147483648` for it: the `int` counter has
gone past `INT_MAX`. -/
theorem count_wraps_at_int_max :
    ∃ wc1 blocks,
      load_txt List.reverse (wordcount.new 1 16777216) (copies_of_a 2147483648) = some wc1 ∧
      split_into_blocks 16777216 (copies_of_a 2147483648) = some blocks ∧
      (blocks.map (fun b => (tokens b).count [97])).sum = 2147483648 ∧
      find [97] wc1.final_word_counts = some (-2147483648) := by
  obtain ⟨wc1, blocks, l, h1, h2, h3, h4, _⟩ :=
    load_txt_copies_of_a List.reverse reverse_is_iteration_order 2147483648 1 16777216
      (by decide) (by decide)
  rw [int_wrap_two_pow_31] at h4
  exact ⟨wc1, blocks, h1, h2, h3, h4⟩

/-- C12 as amended: for every corpus, target block size of at least 1 and requested
worker count, `load_txt` returns and the frequency table has no entry for a word with no
occurrence and otherwise gives the word `w` the sum, over the blocks of
`split_into_blocks`, of the number of times `w` occurs among the tokens of the block, as
an `int` holds it (the low 32 bits, two's complement); that is the sum itself whenever the
sum is smaller than `2^31`. -/
theorem frequency_is_sum_over_blocks (order : List Nat → List Nat) (corpus : List Nat)
    (block_size num_threads : Nat) (hbs : 1 ≤ block_size) :
    ∃ wc1 blocks, load_txt order (wordcount.new num_threads block_size) corpus = some wc1 ∧
      split_into_blocks block_size corpus = some blocks ∧
      ∀ w : Word,
        (find w wc1.final_word_counts =
          if (blocks.map (fun b => (tokens b).count w)).sum = 0 then none
          else some (int_wrap ((blocks.map (fun b => (tokens b).count w)).sum : Nat))) ∧
        ((blocks.map (fun b => (tokens b).count w)).sum < 2147483648 →
          find w wc1.final_word_counts =
            if (blocks.map (fun b => (tokens b).count w)).sum = 0 then none
            else some (((blocks.map (fun b => (tokens b).count w)).sum : Nat) : Int)) := by
  obtain ⟨blocks, hs⟩ := split_into_blocks_total block_size corpus hbs
  obtain ⟨wc1, hload, hf, _⟩ :=
    load_txt_new_counts order num_threads block_size corpus blocks hs
  refine ⟨wc1, blocks, hload, hs, ?_⟩
  intro w
  have h1 := hf w
  rw [occurrences_eq_sum] at h1
  refine ⟨h1, ?_⟩
  intro hlt
  rw [h1, int_wrap_of_lt _ hlt]

/-- C12 as amended, at a concrete input: `"The cat sat. The CAT ran!"` in one block
(16 MiB target) with 1 worker gives `the: 2, cat: 2, sat: 1, ran: 1` and every word the
posting list `[0]`. -/
theorem frequency_of_cat_corpus :
    (load_txt List.reverse (wordcount.new 1 16777216) cat_corpus).map
        (fun wc => (wc.final_word_counts, wc.inverted_index)) =
      some ([([116, 104, 101], 2), ([99, 97, 116], 2), ([115, 97, 116], 1),
          ([114, 97, 110], 1)],
        [([116, 104, 101], [0]), ([99, 97, 116], [0]), ([115, 97, 116], [0]),
          ([114, 97, 110], [0])]) ∧
    ∃ wc1 blocks, load_txt List.reverse (wordcount.new 1 16777216) cat_corpus = some wc1 ∧
      split_into_blocks 16777216 cat_corpus = some blocks ∧
      ∀ w : Word,
        (find w wc1.final_word_counts =
          if (blocks.map (fun b => (tokens b).count w)).sum = 0 then none
          else some (int_wrap ((blocks.map (fun b => (tokens b).count w)).sum : Nat))) ∧
        ((blocks.map (fun b => (tokens b).count w)).sum < 2147483648 →
          find w wc1.final_word_counts =
            if (blocks.map (fun b => (tokens b).count w)).sum = 0 then none
            else some (((blocks.map (fun b => (tokens b).count w)).sum : Nat) : Int)) :=
  ⟨by decide, frequency_is_sum_over_blocks List.reverse cat_corpus 16777216 1 (by decide)⟩

/-- C14: for every requested worker count `n` the constructor keeps `n` when it is 1, 2
or 8 and uses 1 worker otherwise; the worker count of the object is always 1, 2 or 8, and
the object has that many local maps and that many local indexes. `validate_threads` of
`main.cpp` accepts exactly 1, 2 and 8. -/
theorem constructor_keeps_or_clamps_worker_count (n block_size : Nat) :
    ((n = 1 ∨ n = 2 ∨ n = 8) → (wordcount.new n block_size).thread_count = n) ∧
    (¬ (n = 1 ∨ n = 2 ∨ n = 8) → (wordcount.new n block_size).thread_count = 1) ∧
    ((wordcount.new n block_size).thread_count = 1 ∨
      (wordcount.new n block_size).thread_count = 2 ∨
      (wordcount.new n block_size).thread_count = 8) ∧
    (wordcount.new n block_size).thread_local_maps.length =
      (wordcount.new n block_size).thread_count ∧
    (wordcount.new n block_size).thread_local_indexes.length =
      (wordcount.new n block_size).thread_count ∧
    (validate_threads (n : Int) = true ↔ (n = 1 ∨ n = 2 ∨ n = 8)) := by
  obtain ⟨h1, h2, _, _⟩ := new_invariant n block_size
  refine ⟨?_, ?_, new_thread_count n block_size, h1, h2, ?_⟩
  · intro h
    have : ¬ (n ≠ 1 ∧ n ≠ 2 ∧ n ≠ 8) := by omega
    simp only [wordcount.new, this, if_false]
  · intro h
    have : n ≠ 1 ∧ n ≠ 2 ∧ n ≠ 8 := by omega
    simp only [wordcount.new]
    rw [if_pos this]
  · unfold validate_threads
    split
    · rename_i h
      constructor
      · intro hf; cases hf
      · intro hn; exfalso; omega
    · rename_i h
      constructor
      · intro _; omega
      · intro _; rfl

/-- C14 at concrete inputs: the requests 1, 2 and 8 are kept, the requests 0, 3 and 16
give 1 worker. -/
theorem constructor_worker_count_examples :
    [(wordcount.new 1 16777216).thread_count, (wordcount.new 2 16777216).thread_count,
      (wordcount.new 8 16777216).thread_count, (wordcount.new 0 16777216).thread_count,
      (wordcount.new 3 16777216).thread_count, (wordcount.new 16 16777216).thread_count] =
      [1, 2, 8, 1, 1, 1] ∧
    (wordcount.new 8 16777216).thread_local_maps.length = 8 ∧
    (wordcount.new 3 16777216).thread_local_indexes.length = 1 ∧
    ((3 = 1 ∨ 3 = 2 ∨ 3 = 8) → (wordcount.new 3 16777216).thread_count = 3) ∧
    (¬ (3 = 1 ∨ 3 = 2 ∨ 3 = 8) → (wordcount.new 3 16777216).thread_count = 1) ∧
    ((wordcount.new 3 16777216).thread_count = 1 ∨
      (wordcount.new 3 16777216).thread_count = 2 ∨
      (wordcount.new 3 16777216).thread_count = 8) ∧
    (wordcount.new 3 16777216).thread_local_maps.length =
      (wordcount.new 3 16777216).thread_count ∧
    (wordcount.new 3 16777216).thread_local_indexes.length =
      (wordcount.new 3 16777216).thread_count ∧
    (validate_threads ((3 : Nat) : Int) = true ↔ (3 = 1 ∨ 3 = 2 ∨ 3 = 8)) :=
  ⟨by decide, by decide, by decide, constructor_keeps_or_clamps_worker_count 3 16777216⟩

/-- C15, the code at the failing input: `" abc def"` has no whitespace-free run longer
than 3, yet at target size 3 `split_into_blocks` returns `" ab"`, `c`, `def`: the first
block ends at offset 3, before the end of the corpus, and the byte at offset 3 is the
letter `c`, so the word `abc` is split. -/
theorem leading_space_splits_a_word :
    longest_run leading_space_corpus = 3 ∧
    split_into_blocks 3 leading_space_corpus =
      some [[32, 97, 98], [99], [100, 101, 102]] ∧
    split_bounds 3 leading_space_corpus = some [(0, 3), (3, 4), (5, 8)] ∧
    byte_at leading_space_corpus 3 = 99 ∧ isspace (byte_at leading_space_corpus 3) = false ∧
    tokens leading_space_corpus = [[97, 98, 99], [100, 101, 102]] := by
  decide

/-- C16, the claim as stated fails: when two workers both hold block id 0 for the word
`a`, `merge_local_indexes` gives `a` the posting list `[0, 0]`. -/
theorem merge_keeps_duplicate_ids :
    (merge_local_indexes overlapping_workers).inverted_index = [([97], [0, 0])] := by
  decide

/-- C16 as amended: for every list of per-worker local indexes (each with distinct
words), every posting list `merge_local_indexes` produces is sorted ascending and is a
rearrangement of the ids the workers hold for the word, worker after worker; so it has no
duplicate id exactly when no id is held for the word by two workers. -/
theorem merged_postings_sorted (wc : wordcount)
    (hkeys : ∀ l ∈ wc.thread_local_indexes, (l.map Prod.fst).Nodup) :
    ∀ e ∈ (merge_local_indexes wc).inverted_index,
      e.2.Sorted (fun a b => a ≤ b) ∧
      e.2.Perm (local_postings wc.thread_local_indexes e.1) ∧
      (e.2.Nodup ↔ (local_postings wc.thread_local_indexes e.1).Nodup) := by
  intro e he
  have hfind := find_of_mem _ (nodup_keys_merge_local_indexes wc) e he
  rw [find_merge_local_indexes wc hkeys] at hfind
  split at hfind
  · cases hfind
  · simp only [Option.some.injEq] at hfind
    rw [← hfind]
    exact ⟨sort_sorted _, sort_perm _, (sort_perm _).nodup_iff⟩

/-- C16 as amended, at a concrete input: two workers holding the ids 2 and 0, and 1, for
the word `a` give `a` the posting list `[0, 1, 2]`. -/
theorem merged_postings_sorted_disjoint_workers :
    (merge_local_indexes disjoint_workers).inverted_index = [([97], [0, 1, 2])] ∧
    ∀ e ∈ (merge_local_indexes disjoint_workers).inverted_index,
      e.2.Sorted (fun a b => a ≤ b) ∧
      e.2.Perm (local_postings disjoint_workers.thread_local_indexes e.1) ∧
      (e.2.Nodup ↔ (local_postings disjoint_workers.thread_local_indexes e.1).Nodup) :=
  ⟨by decide, merged_postings_sorted disjoint_workers (by decide)⟩

/-- C17: for every byte string `x`, the tokens `count_words_in_text_local` counts are the
maximal runs of alphabetic bytes of `x`, in order, each lowercased byte by byte; every
run listed is a maximal run of `x`; every token is non-empty and made of lowercase
letters only; a string without alphabetic byte has no token. -/
theorem tokens_are_lowercased_maximal_runs (x : List Nat) :
    (∀ m, count_words_in_text_local x m = some (count_tokens m (tokens x))) ∧
    tokens x = (alpha_runs x).map (fun r => r.map tolower) ∧
    (∀ r ∈ alpha_runs x, IsMaximalAlphaRun r x) ∧
    (∀ t ∈ tokens x, t ≠ [] ∧ ∀ c ∈ t, is_lower_letter c = true) ∧
    ((∀ c ∈ x, isalpha c = false) → tokens x = []) := by
  refine ⟨count_words_in_text_local_eq x, tokens_eq_alpha_runs x.length x (le_refl _), ?_,
    tokens_lower x.length x (le_refl _), tokens_of_no_alpha x⟩
  intro r hr
  obtain ⟨h1, h2, pre, post, h3, h4, h5, _⟩ := alpha_runs_maximal x.length x (le_refl _) r hr
  exact ⟨h1, h2, pre, post, h3, h4, h5⟩

/-- C17 at a concrete input: the runs and the tokens of `"The cat sat. The CAT ran!"`,
and a string of digits and punctuation. -/
theorem tokens_of_cat_corpus :
    alpha_runs cat_corpus =
      [[84, 104, 101], [99, 97, 116], [115, 97, 116], [84, 104, 101], [67, 65, 84],
        [114, 97, 110]] ∧
    tokens cat_corpus =
      [[116, 104, 101], [99, 97, 116], [115, 97, 116], [116, 104, 101], [99, 97, 116],
        [114, 97, 110]] ∧
    count_words_in_text_local cat_corpus [] =
      some [([116, 104, 101], 2), ([99, 97, 116], 2), ([115, 97, 116], 1),
        ([114, 97, 110], 1)] ∧
    tokens [49, 50, 32, 46, 33, 10, 64, 91, 96, 123] = [] ∧
    (∀ m, count_words_in_text_local cat_corpus m = some (count_tokens m (tokens cat_corpus))) ∧
    tokens cat_corpus = (alpha_runs cat_corpus).map (fun r => r.map tolower) ∧
    (∀ r ∈ alpha_runs cat_corpus, IsMaximalAlphaRun r cat_corpus) ∧
    (∀ t ∈ tokens cat_corpus, t ≠ [] ∧ ∀ c ∈ t, is_lower_letter c = true) ∧
    ((∀ c ∈ cat_corpus, isalpha c = false) → tokens cat_corpus = []) :=
  ⟨by decide, by decide, by decide, by decide, tokens_are_lowercased_maximal_runs cat_corpus⟩

/-- C18, the claim as stated fails: for the corpus `"a "` repeated `2^31` times (4 GiB),
with 32 MiB blocks and 2 workers, the word `a` has a non-empty posting list and the count
`-2147483648`, which is not positive: the `int` counter has gone past `INT_MAX`. -/
theorem negative_count_with_postings :
    ∃ wc1 l,
      load_txt List.reverse (wordcount.new 2 33554432) (copies_of_a 2147483648) = some wc1 ∧
      find [97] wc1.final_word_counts = some (-2147483648) ∧
      find [97] wc1.inverted_index = some l ∧ l ≠ [] := by
  obtain ⟨wc1, blocks, l, h1, _, _, h4, h5, h6⟩ :=
    load_txt_copies_of_a List.reverse reverse_is_iteration_order 2147483648 2 33554432
      (by decide) (by decide)
  rw [int_wrap_two_pow_31] at h4
  exact ⟨wc1, l, h1, h4, h5, h6⟩

/-- C18 as amended: for every corpus, target block size of at least 1 and requested
worker count, and whatever the order in which the workers' `std::unordered_set`s are
iterated, after `load_txt` a word has a count exactly when it has a posting list, and
every posting list is non-empty; the count is the number of occurrences of the word among
the tokens of the blocks as an `int` holds it, and it is positive whenever that number is
smaller than `2^31`. Both tables are built from the same token sequence `tokens` of every
block. -/
theorem tables_have_the_same_words (order : List Nat → List Nat)
    (horder : IsIterationOrder order) (corpus : List Nat) (block_size num_threads : Nat)
    (hbs : 1 ≤ block_size) :
    (∃ wc1 blocks, load_txt order (wordcount.new num_threads block_size) corpus = some wc1 ∧
      split_into_blocks block_size corpus = some blocks ∧
      ∀ w : Word,
        ((∃ k, find w wc1.final_word_counts = some k) ↔
          (∃ l, find w wc1.inverted_index = some l)) ∧
        (∀ k, find w wc1.final_word_counts = some k →
          k = int_wrap ((blocks.map (fun b => (tokens b).count w)).sum : Nat) ∧
          ((blocks.map (fun b => (tokens b).count w)).sum < 2147483648 → 0 < k)) ∧
        (∀ l, find w wc1.inverted_index = some l → l ≠ [])) ∧
    ∀ (text : List Nat) (m : LocalWordMap) (ix : LocalInvertedIndex) (id : Nat),
      count_words_in_text_local text m = some (count_tokens m (tokens text)) ∧
      build_inverted_index_local order text ix id =
        some (index_tokens order id ix (tokens text)) := by
  obtain ⟨blocks, hs⟩ := split_into_blocks_total block_size corpus hbs
  obtain ⟨wc1, hload, hf, hx, _⟩ :=
    load_txt_new_some order horder num_threads block_size corpus blocks hs
  refine ⟨⟨wc1, blocks, hload, hs, ?_⟩, fun text m ix id =>
    ⟨count_words_in_text_local_eq text m, build_inverted_index_local_eq order text ix id⟩⟩
  intro w
  have hiff := occurrences_eq_zero_iff blocks w
  have hsum := occurrences_eq_sum blocks w
  rw [hf w, hx w]
  by_cases h0 : occurrences blocks w = 0
  · have hh := hiff.1 h0
    simp [h0, hh]
  · have hh : ¬ hits blocks w (List.range blocks.length) = [] := fun h => h0 (hiff.2 h)
    rw [if_neg h0, if_neg hh]
    refine ⟨⟨fun _ => ⟨_, rfl⟩, fun _ => ⟨_, rfl⟩⟩, ?_, ?_⟩
    · intro k hk
      simp only [Option.some.injEq] at hk
      rw [← hk, ← hsum]
      refine ⟨rfl, ?_⟩
      intro hlt
      rw [int_wrap_of_lt _ hlt]
      omega
    · intro l hl
      simp only [Option.some.injEq] at hl
      rw [← hl]
      exact hh

/-- C18 as amended, at a concrete input: `"The cat sat.      The CAT ran!"`, target size
12, 2 workers; both tables have the words `the`, `cat`, `sat`, `ran`. -/
theorem tables_have_the_same_words_two_blocks :
    (load_txt List.reverse (wordcount.new 2 12) two_block_corpus).map
        (fun wc => (wc.final_word_counts.map Prod.fst, wc.inverted_index.map Prod.fst)) =
      some ([[116, 104, 101], [99, 97, 116], [115, 97, 116], [114, 97, 110]],
        [[116, 104, 101], [99, 97, 116], [115, 97, 116], [114, 97, 110]]) ∧
    IsIterationOrder List.reverse ∧
    (∃ wc1 blocks, load_txt List.reverse (wordcount.new 2 12) two_block_corpus = some wc1 ∧
      split_into_blocks 12 two_block_corpus = some blocks ∧
      ∀ w : Word,
        ((∃ k, find w wc1.final_word_counts = some k) ↔
          (∃ l, find w wc1.inverted_index = some l)) ∧
        (∀ k, find w wc1.final_word_counts = some k →
          k = int_wrap ((blocks.map (fun b => (tokens b).count w)).sum : Nat) ∧
          ((blocks.map (fun b => (tokens b).count w)).sum < 2147483648 → 0 < k)) ∧
        (∀ l, find w wc1.inverted_index = some l → l ≠ [])) ∧
    ∀ (text : List Nat) (m : LocalWordMap) (ix : LocalInvertedIndex) (id : Nat),
      count_words_in_text_local text m = some (count_tokens m (tokens text)) ∧
      build_inverted_index_local List.reverse text ix id =
        some (index_tokens List.reverse id ix (tokens text)) :=
  ⟨by decide, reverse_is_iteration_order,
    tables_have_the_same_words List.reverse reverse_is_iteration_order two_block_corpus 12 2
      (by decide)⟩

/-- C19: for every number of blocks `n` and worker count `w` of at least 1, with
`blocks_per_thread = (n + w - 1) / w`, which is the ceiling of `n / w`: the range of
worker `t` goes from `t * blocks_per_thread` up to and excluding
`min ((t + 1) * blocks_per_thread) n`; the ranges of the workers `0..w-1` put one after
the other are exactly `0, 1, .., n-1`; every block id below `n` is in the range of exactly
one worker; and a range that is followed by a non-empty range has exactly
`blocks_per_thread` ids. These are the ranges `load_txt` assigns: on `n` blocks the task
of worker `t` does nothing when its range is empty and otherwise runs the loop of lines
66-69 over the ids of its range, from empty containers; and after `load_txt` on an object
with `w` workers and a corpus of `n` blocks, worker `t` holds the counts of the tokens and
the ids of exactly the blocks of its range. -/
theorem worker_ranges_split_the_blocks (n w : Nat) (hw : 1 ≤ w) :
    (n ≤ w * ((n + w - 1) / w) ∧ ∀ k, n ≤ w * k → (n + w - 1) / w ≤ k) ∧
    (∀ t, worker_ids n ((n + w - 1) / w) t =
      List.range' (t * ((n + w - 1) / w))
        (min (t * ((n + w - 1) / w) + (n + w - 1) / w) n - t * ((n + w - 1) / w))) ∧
    (∀ t i, i ∈ worker_ids n ((n + w - 1) / w) t ↔
      (t * ((n + w - 1) / w) ≤ i ∧ i < min ((t + 1) * ((n + w - 1) / w)) n)) ∧
    ((List.range w).map (worker_ids n ((n + w - 1) / w))).flatten = List.range n ∧
    (∀ i, i < n → ∃ t, t < w ∧ i ∈ worker_ids n ((n + w - 1) / w) t ∧
      ∀ t1, i ∈ worker_ids n ((n + w - 1) / w) t1 → t1 = t) ∧
    (∀ t t1, t < t1 → worker_ids n ((n + w - 1) / w) t1 ≠ [] →
      (worker_ids n ((n + w - 1) / w) t).length = (n + w - 1) / w) ∧
    (∀ (order : List Nat → List Nat) (blocks : List Word) (t : Nat) (wc : wordcount),
      blocks.length = n →
      run_worker order blocks ((n + w - 1) / w) t wc =
        if worker_ids n ((n + w - 1) / w) t = [] then some wc
        else (worker_loop order blocks (worker_ids n ((n + w - 1) / w) t) [] []).map
          (fun r => { wc with
            thread_local_maps := wc.thread_local_maps.set t r.1
            thread_local_indexes := wc.thread_local_indexes.set t r.2 })) ∧
    (∀ (order : List Nat → List Nat) (num_threads block_size : Nat) (corpus : List Nat)
        (blocks : List Word),
      (wordcount.new num_threads block_size).thread_count = w →
      split_into_blocks block_size corpus = some blocks → blocks.length = n →
      ∃ wc1, load_txt order (wordcount.new num_threads block_size) corpus = some wc1 ∧
        wc1.thread_local_maps = (List.range w).map (fun t =>
          count_tokens [] (worker_tokens blocks (worker_ids n ((n + w - 1) / w) t))) ∧
        wc1.thread_local_indexes = (List.range w).map (fun t =>
          index_blocks order blocks (worker_ids n ((n + w - 1) / w) t) [])) := by
  refine ⟨⟨le_mul_blocks_per_thread n w hw, fun k hk => blocks_per_thread_least n w k hw hk⟩,
    fun t => rfl, ?_, flatten_worker_ids_all n w hw, ?_, ?_, ?_, ?_⟩
  · intro t i
    rw [mem_worker_ids]
    have : (t + 1) * ((n + w - 1) / w) = t * ((n + w - 1) / w) + (n + w - 1) / w := by ring
    rw [this]
  · intro i hi
    obtain ⟨h1, h2, h3⟩ := worker_of_block n w i hw hi
    exact ⟨_, h1, h2, h3⟩
  · intro t t1 ht hne
    exact full_range_before_later n _ t t1 ht hne
  · intro order blocks t wc hn
    subst hn
    exact run_worker_range order blocks _ t wc
  · intro order num_threads block_size corpus blocks htc hs hn
    subst hn
    obtain ⟨wc1, hload, hm, hi⟩ :=
      load_txt_new_locals order num_threads block_size corpus blocks hs
    rw [htc] at hm hi
    exact ⟨wc1, hload, hm, hi⟩

/-- C19 at concrete inputs: 5 blocks and 2 workers give the ranges `[0, 1, 2]` and
`[3, 4]`; 2 blocks and 8 workers give `[0]`, `[1]` and six empty ranges; on
`"The cat sat.      The CAT ran!"` at target size 12 the first of 2 workers counts the
words of block 0 and the second those of block 1. -/
theorem worker_ranges_examples :
    (List.range 2).map (worker_ids 5 ((5 + 2 - 1) / 2)) = [[0, 1, 2], [3, 4]] ∧
    (List.range 8).map (worker_ids 2 ((2 + 8 - 1) / 8)) = [[0], [1], [], [], [], [], [], []] ∧
    (load_txt List.reverse (wordcount.new 2 12) two_block_corpus).map
        (fun wc => wc.thread_local_maps) =
      some [[([116, 104, 101], 1), ([99, 97, 116], 1), ([115, 97, 116], 1)],
        [([116, 104, 101], 1), ([99, 97, 116], 1), ([114, 97, 110], 1)]] ∧
    (5 ≤ 2 * ((5 + 2 - 1) / 2) ∧ ∀ k, 5 ≤ 2 * k → (5 + 2 - 1) / 2 ≤ k) ∧
    (∀ t, worker_ids 5 ((5 + 2 - 1) / 2) t =
      List.range' (t * ((5 + 2 - 1) / 2))
        (min (t * ((5 + 2 - 1) / 2) + (5 + 2 - 1) / 2) 5 - t * ((5 + 2 - 1) / 2))) ∧
    (∀ t i, i ∈ worker_ids 5 ((5 + 2 - 1) / 2) t ↔
      (t * ((5 + 2 - 1) / 2) ≤ i ∧ i < min ((t + 1) * ((5 + 2 - 1) / 2)) 5)) ∧
    ((List.range 2).map (worker_ids 5 ((5 + 2 - 1) / 2))).flatten = List.range 5 ∧
    (∀ i, i < 5 → ∃ t, t < 2 ∧ i ∈ worker_ids 5 ((5 + 2 - 1) / 2) t ∧
      ∀ t1, i ∈ worker_ids 5 ((5 + 2 - 1) / 2) t1 → t1 = t) ∧
    (∀ t t1, t < t1 → worker_ids 5 ((5 + 2 - 1) / 2) t1 ≠ [] →
      (worker_ids 5 ((5 + 2 - 1) / 2) t).length = (5 + 2 - 1) / 2) ∧
    (∀ (order : List Nat → List Nat) (blocks : List Word) (t : Nat) (wc : wordcount),
      blocks.length = 5 →
      run_worker order blocks ((5 + 2 - 1) / 2) t wc =
        if worker_ids 5 ((5 + 2 - 1) / 2) t = [] then some wc
        else (worker_loop order blocks (worker_ids 5 ((5 + 2 - 1) / 2) t) [] []).map
          (fun r => { wc with
            thread_local_maps := wc.thread_local_maps.set t r.1
            thread_local_indexes := wc.thread_local_indexes.set t r.2 })) ∧
    (∀ (order : List Nat → List Nat) (num_threads block_size : Nat) (corpus : List Nat)
        (blocks : List Word),
      (wordcount.new num_threads block_size).thread_count = 2 →
      split_into_blocks block_size corpus = some blocks → blocks.length = 5 →
      ∃ wc1, load_txt order (wordcount.new num_threads block_size) corpus = some wc1 ∧
        wc1.thread_local_maps = (List.range 2).map (fun t =>
          count_tokens [] (worker_tokens blocks (worker_ids 5 ((5 + 2 - 1) / 2) t))) ∧
        wc1.thread_local_indexes = (List.range 2).map (fun t =>
          index_blocks order blocks (worker_ids 5 ((5 + 2 - 1) / 2) t) [])) :=
  ⟨by decide, by decide, by decide, worker_ranges_split_the_blocks 5 2 (by decide)⟩

/-- C20: for every corpus and every target block size of at least 1,
`split_into_blocks` returns, and more fuel than the length of the corpus does not change
the result of its loop. Every iteration starts below the corpus length, pushes a
non-empty block, and the next start offset, after the whitespace is skipped, is larger
and at most the corpus length; the first iteration starts at 0, each iteration starts
where the previous one left the start offset, the loop stops exactly when the start
offset is the corpus length, and after the last iteration it is the corpus length. A
corpus longer than the target size gets only non-empty blocks. -/
theorem split_loop_terminates_with_progress (corpus : List Nat) (block_size : Nat)
    (hbs : 1 ≤ block_size) :
    ∃ bounds, split_bounds block_size corpus = some bounds ∧
      split_into_blocks block_size corpus = some (bounds.map (slice corpus)) ∧
      (∀ fuel, corpus.length ≤ fuel →
        split_loop corpus block_size fuel 0 = split_loop corpus block_size corpus.length 0) ∧
      (∀ fuel s rest, s ≤ corpus.length →
        split_bounds_loop corpus block_size fuel s = some rest →
        (rest = [] ↔ s = corpus.length)) ∧
      (block_size < corpus.length →
        (∀ p ∈ bounds, p.1 < corpus.length ∧ p.1 < p.2 ∧ p.2 ≤ corpus.length ∧
          slice corpus p ≠ [] ∧ p.1 < skip_space corpus p.2 ∧
          skip_space corpus p.2 ≤ corpus.length) ∧
        bounds.Chain' (fun p q => q.1 = skip_space corpus p.2) ∧
        (∀ p, bounds.head? = some p → p.1 = 0) ∧
        (∀ p, bounds.getLast? = some p → skip_space corpus p.2 = corpus.length) ∧
        ∀ b ∈ bounds.map (slice corpus), b ≠ []) := by
  have hfuel : ∀ fuel, corpus.length ≤ fuel →
      split_loop corpus block_size fuel 0 = split_loop corpus block_size corpus.length 0 := by
    intro fuel hf
    rw [split_loop_eq_bounds, split_loop_eq_bounds,
      split_bounds_loop_fuel corpus block_size hbs fuel corpus.length 0 (by omega) (by omega)]
  have hend : ∀ fuel s rest, s ≤ corpus.length →
      split_bounds_loop corpus block_size fuel s = some rest →
      (rest = [] ↔ s = corpus.length) := by
    intro fuel s rest hs hr
    exact (split_bounds_loop_step corpus block_size hbs fuel s rest hs hr).2.2.2.2
  by_cases hlen : corpus.length ≤ block_size
  · refine ⟨[(0, corpus.length)], by simp [split_bounds, hlen], ?_, hfuel, hend, ?_⟩
    · rw [split_into_blocks_eq_bounds]; simp [split_bounds, hlen]
    · intro h; omega
  · obtain ⟨bounds, hb⟩ :=
      split_bounds_loop_total corpus block_size hbs corpus.length 0 (by omega)
    have hsb : split_bounds block_size corpus = some bounds := by
      simp [split_bounds, hlen, hb]
    obtain ⟨h1, h2, h3, h4, _⟩ :=
      split_bounds_loop_step corpus block_size hbs corpus.length 0 bounds (by omega) hb
    have hall : ∀ p ∈ bounds, p.1 < corpus.length ∧ p.1 < p.2 ∧ p.2 ≤ corpus.length ∧
        slice corpus p ≠ [] ∧ p.1 < skip_space corpus p.2 ∧
        skip_space corpus p.2 ≤ corpus.length := by
      intro p hp
      obtain ⟨a1, a2, _, a4, a5⟩ := h1 p hp
      refine ⟨by omega, a1, a2, ?_, a4, a5⟩
      intro hnil
      have hl := length_slice corpus p a2
      rw [hnil] at hl
      simp only [List.length_nil] at hl
      omega
    refine ⟨bounds, hsb, ?_, hfuel, hend, ?_⟩
    · rw [split_into_blocks_eq_bounds, hsb]; rfl
    · intro _
      refine ⟨hall, h2, h3, h4, ?_⟩
      intro b hb1
      simp only [List.mem_map] at hb1
      obtain ⟨p, hp, rfl⟩ := hb1
      exact (hall p hp).2.2.2.1

/-- C20 at concrete inputs: `"ab cd   "` at target size 3 takes two iterations, with the
blocks `ab` at offsets 0..2 and `"cd "` at offsets 3..6, and the start offset goes 0, 3,
8; the statement of the claim is taken at `"abcdef"` and target size 3. -/
theorem split_loop_progress_example :
    split_bounds 3 [97, 98, 32, 99, 100, 32, 32, 32] = some [(0, 2), (3, 6)] ∧
    split_into_blocks 3 [97, 98, 32, 99, 100, 32, 32, 32] = some [[97, 98], [99, 100, 32]] ∧
    skip_space [97, 98, 32, 99, 100, 32, 32, 32] 2 = 3 ∧
    skip_space [97, 98, 32, 99, 100, 32, 32, 32] 6 = 8 ∧
    ∃ bounds, split_bounds 3 run_corpus = some bounds ∧
      split_into_blocks 3 run_corpus = some (bounds.map (slice run_corpus)) ∧
      (∀ fuel, run_corpus.length ≤ fuel →
        split_loop run_corpus 3 fuel 0 = split_loop run_corpus 3 run_corpus.length 0) ∧
      (∀ fuel s rest, s ≤ run_corpus.length →
        split_bounds_loop run_corpus 3 fuel s = some rest →
        (rest = [] ↔ s = run_corpus.length)) ∧
      (3 < run_corpus.length →
        (∀ p ∈ bounds, p.1 < run_corpus.length ∧ p.1 < p.2 ∧ p.2 ≤ run_corpus.length ∧
          slice run_corpus p ≠ [] ∧ p.1 < skip_space run_corpus p.2 ∧
          skip_space run_corpus p.2 ≤ run_corpus.length) ∧
        bounds.Chain' (fun p q => q.1 = skip_space run_corpus p.2) ∧
        (∀ p, bounds.head? = some p → p.1 = 0) ∧
        (∀ p, bounds.getLast? = some p → skip_space run_corpus p.2 = run_corpus.length) ∧
        ∀ b ∈ bounds.map (slice run_corpus), b ≠ []) :=
  ⟨by decide, by decide, by decide, by decide,
    split_loop_terminates_with_progress run_corpus 3 (by decide)⟩

end Wordcount
